import Mathlib

/-!
kallisto-D: BlockArray and splitbubble.

A shallow embedding of `src/src/BlockArray.hpp` (a sorted collection of
half-open intervals bound to values) and of `src/src/splitbubble.h` (online
partition refinement into "bubbles"), followed by theorems about them.

Conventions.
* `size_t` values are natural numbers; `SIZE_MOD = 2^64` is the modulus of
  `size_t` arithmetic and `SIZE_MAX = 2^64 - 1` is `size_t(-1)`.
* A result of type `Option` is `none` exactly where the C++ code has undefined
  behaviour (decrementing `begin()`, indexing a vector out of range).
* The one call modelled with its exceptions is `blocks.reserve` in
  `deserialize`: the outcome `Loaded.length_error` / `Loaded.bad_alloc` is the
  exception leaving the method.
* Library routines whose result is only specified up to a contract
  (`std::sort`, iteration order of `std::unordered_map` / `std::unordered_set`)
  are passed in as a bundle of a function and its contract, so every theorem
  holds for every conforming library.
-/

/-- The modulus of `size_t` arithmetic. -/
def SIZE_MOD : Nat := 2 ^ 64

/-- The value `size_t(-1)`. -/
def SIZE_MAX : Nat := 2 ^ 64 - 1

/-- Subtraction of two `size_t` values (wraps around modulo `2^64`). -/
def sub64 (a b : Nat) : Nat := (a + SIZE_MOD - b) % SIZE_MOD

/-! ## BlockArray.hpp -/

/-- The struct `block<T>`: a half-open interval `[lb, ub)` bound to `val`. -/
structure block (T : Type) where
  lb : Nat
  ub : Nat
  val : T
deriving DecidableEq

/-- The comparison `block::operator<`: compares lower bounds only. -/
def block.lt {T : Type} (a b : block T) : Prop := a.lb < b.lb

instance {T : Type} (a b : block T) : Decidable (block.lt a b) :=
  inferInstanceAs (Decidable (a.lb < b.lb))

/-- The contract of `std::sort` under `block::operator<`: the output is a
permutation of the input in which no element is smaller than an earlier one.
The relative order of blocks with equal lower bounds is unspecified. -/
structure StdSort (T : Type) where
  run : List (block T) → List (block T)
  perm : ∀ l, (run l).Perm l
  sorted : ∀ l, (run l).Pairwise (fun a b => ¬ block.lt b a)

/-- A conforming `std::sort`: insertion sort on the lower bound. -/
def insertionSort (T : Type) : StdSort T where
  run := List.insertionSort (fun a b => a.lb ≤ b.lb)
  perm l := List.perm_insertionSort _ l
  sorted l := by
    haveI : IsTotal (block T) (fun a b => a.lb ≤ b.lb) := ⟨fun a b => Nat.le_total a.lb b.lb⟩
    haveI : IsTrans (block T) (fun a b => a.lb ≤ b.lb) :=
      ⟨fun a b c hab hbc => Nat.le_trans hab hbc⟩
    have h := List.sorted_insertionSort (fun a b : block T => a.lb ≤ b.lb) l
    exact List.Pairwise.imp (fun {a b} hab => Nat.not_lt.2 hab) h

/-- The class `BlockArray<T>`: its only member is the vector `blocks`. -/
structure BlockArray (T : Type) where
  blocks : List (block T)
deriving DecidableEq

namespace BlockArray

variable {T : Type}

/-- The default constructor `BlockArray()`. -/
def empty : BlockArray T := ⟨[]⟩

/-- The method `insert`: `emplace_back` followed by `std::sort`. -/
def insert (srt : StdSort T) (A : BlockArray T) (lb ub : Nat) (val : T) : BlockArray T :=
  ⟨srt.run (A.blocks ++ [⟨lb, ub, val⟩])⟩

/-- The call `std::upper_bound(blocks.begin(), blocks.end(), block(idx))` as
specified by the standard: the first position whose block `b` satisfies
`idx < b.lb`, or the end position when there is none. -/
def upper_bound : List (block T) → Nat → Nat
  | [], _ => 0
  | b :: rest, idx => if idx < b.lb then 0 else upper_bound rest idx + 1

/-- The method `operator[]`. When `upper_bound` returns `begin()` the code
decrements it and reads before the array: undefined behaviour, `none`. -/
def operator_at (A : BlockArray T) (idx : Nat) : Option T :=
  let ub := upper_bound A.blocks idx
  if ub = 0 then none
  else (A.blocks[ub - 1]?).map (fun b => b.val)

/-- The method `get_block_at`; `make_pair(-1, -1)` converted to
`pair<size_t, size_t>` is `(SIZE_MAX, SIZE_MAX)`. -/
def get_block_at (A : BlockArray T) (idx : Nat) : Nat × Nat :=
  let ub := upper_bound A.blocks idx
  if ub = 0 then (SIZE_MAX, SIZE_MAX)
  else
    match A.blocks[ub - 1]? with
    | some b => (b.lb, b.ub)
    | none => (SIZE_MAX, SIZE_MAX)

/-- The method `size`. -/
def size (A : BlockArray T) : Nat := A.blocks.length

/-- The method `length`: `blocks[blocks.size()-1].ub`. On an empty index
`size()-1` wraps to `SIZE_MAX` and the read is out of range (`none`). -/
def length (A : BlockArray T) : Option Nat :=
  if A.blocks.length = 0 then none
  else (A.blocks[A.blocks.length - 1]?).map (fun b => b.ub)

/-- The method `get_vals`. -/
def get_vals (A : BlockArray T) : List T := A.blocks.map (fun b => b.val)

/-- The body of the `do ... while` loop of `get_slice`: one `slice.insert`. -/
def slice_body (srt : StdSort T) (lb ub : Nat) (slice : BlockArray T) (b : block T) :
    BlockArray T :=
  insert srt slice (sub64 (max lb b.lb) lb) (sub64 (min ub b.ub) lb) b.val

/-- The continuation of the `do ... while` loop of `get_slice` after `++upper`:
runs while `upper != blocks.end() && upper->lb < ub`. -/
def slice_while (srt : StdSort T) (lb ub : Nat) :
    List (block T) → BlockArray T → BlockArray T
  | [], s => s
  | b :: rest, s =>
    if b.lb < ub then slice_while srt lb ub rest (slice_body srt lb ub s b) else s

/-- The method `get_slice`. When `upper_bound` returns `begin()` the code
decrements it (undefined behaviour, `none`). -/
def get_slice (srt : StdSort T) (A : BlockArray T) (lb ub : Nat) : Option (BlockArray T) :=
  let upper := upper_bound A.blocks lb
  if upper = 0 then none
  else
    match A.blocks.drop (upper - 1) with
    | [] => none
    | b :: rest => some (slice_while srt lb ub rest (slice_body srt lb ub ⟨[]⟩ b))

end BlockArray

/-! ### Byte streams -/

/-- Little-endian encoding of a number in `k` bytes. -/
def encodeLE : Nat → Nat → List Nat
  | 0, _ => []
  | k + 1, n => n % 256 :: encodeLE k (n / 256)

/-- Little-endian decoding of a byte string. -/
def decodeLE : List Nat → Nat
  | [] => 0
  | b :: rest => b + 256 * decodeLE rest

/-- The raw object representation of the payload type `T` that
`out.write((char *)&b.val, sizeof(b.val))` and the matching `in.read` copy:
`size` is `sizeof(T)`, `encode` gives the bytes of a value and `decode` the
value held by `sizeof(T)` bytes. -/
structure Payload (T : Type) where
  size : Nat
  encode : T → List Nat
  decode : List Nat → T
  encode_length : ∀ v, (encode v).length = size
  decode_encode : ∀ v, decode (encode v) = v

/-- The payload type `unsigned char`. -/
def bytePayload : Payload (Fin 256) where
  size := 1
  encode v := [v.val]
  decode l := Fin.ofNat (l.headD 0)
  encode_length _ := rfl
  decode_encode v := by
    simp only [List.headD_cons]
    apply Fin.ext
    simp [Fin.ofNat, Nat.mod_eq_of_lt v.isLt]

/-- The state of a `std::istream`: the bytes not yet consumed and whether a
failure bit is set. -/
structure IStream where
  data : List Nat
  fail : Bool
deriving DecidableEq

/-- The call `in.read(buf, n)` where the buffer currently holds the bytes
`cur`. A failed stream reads nothing; a short stream delivers what it has,
leaves the rest of the buffer as it was and sets the failure bit. -/
def IStream.read (s : IStream) (n : Nat) (cur : List Nat) : IStream × List Nat :=
  if s.fail then (s, cur)
  else if n ≤ s.data.length then (⟨s.data.drop n, false⟩, s.data.take n)
  else (⟨[], true⟩, s.data ++ cur.drop s.data.length)

/-- Reading a `size_t` variable whose current value is `cur`. -/
def IStream.read64 (s : IStream) (cur : Nat) : IStream × Nat :=
  let r := s.read 8 (encodeLE 8 cur)
  (r.1, decodeLE r.2)

/-- Reading a payload variable whose current value is `cur`. -/
def IStream.readVal {T : Type} (P : Payload T) (s : IStream) (cur : T) : IStream × T :=
  let r := s.read P.size (P.encode cur)
  (r.1, P.decode r.2)

/-- The ways in which a call of `std::vector::reserve` can end. -/
inductive ReserveResult where
  | ok
  | length_error
  | bad_alloc
deriving DecidableEq

/-- The allocator behind the vector `blocks`: `max_size` is the value of
`std::vector::max_size()` and `can_allocate n` tells whether the vector can
obtain capacity for `n` blocks (it has it already, or the allocation
succeeds). Both depend on the platform and on the memory available. -/
structure Allocator where
  max_size : Nat
  can_allocate : Nat → Bool

/-- The call `blocks.reserve(n)`: `std::length_error` when `n > max_size()`,
`std::bad_alloc` when the storage cannot be obtained. -/
def Allocator.reserve (al : Allocator) (n : Nat) : ReserveResult :=
  if n > al.max_size then ReserveResult.length_error
  else if al.can_allocate n then ReserveResult.ok
  else ReserveResult.bad_alloc

/-- An allocator of a 64-bit platform with room for `2^30` blocks: `max_size()`
is `PTRDIFF_MAX / 24`. -/
def sampleAllocator : Allocator where
  max_size := (2 ^ 63 - 1) / 24
  can_allocate n := decide (n ≤ 2 ^ 30)

/-- The values of the locals `tmp_size, lb, ub, val` of `deserialize`; they are
declared without initialiser, so their initial values are arbitrary. -/
structure Locals (T : Type) where
  tmp_size : Nat
  lb : Nat
  ub : Nat
  val : T

/-- The ways in which `BlockArray::deserialize` can end: it returns, leaving
the index `A`, or an exception of `blocks.reserve` propagates to the caller. -/
inductive Loaded (T : Type) where
  | ok (A : BlockArray T)
  | length_error
  | bad_alloc
deriving DecidableEq

namespace BlockArray

variable {T : Type}

/-- The bytes written for one block by the loop of `serialize`. -/
def serialize_block (P : Payload T) (b : block T) : List Nat :=
  encodeLE 8 b.lb ++ encodeLE 8 b.ub ++ P.encode b.val

/-- The method `serialize`: the bytes appended to the output stream. -/
def serialize (P : Payload T) (A : BlockArray T) : List Nat :=
  encodeLE 8 A.blocks.length ++ (A.blocks.map (serialize_block P)).flatten

/-- The loop of `deserialize`, with `n` iterations left; `acc` is `blocks`. -/
def deserialize_loop (P : Payload T) :
    Nat → IStream → Nat → Nat → T → List (block T) → List (block T)
  | 0, _, _, _, _, acc => acc
  | n + 1, s, lb, ub, val, acc =>
    let r1 := s.read64 lb
    let r2 := r1.1.read64 ub
    let r3 := r2.1.readVal P val
    deserialize_loop P n r3.1 r1.2 r2.2 r3.2 (acc ++ [⟨r1.2, r2.2, r3.2⟩])

/-- The method `deserialize`, applied to an index with arbitrary prior
contents `A`, reading the stream `s`; `init` holds the (indeterminate)
initial values of the locals and `al` is the allocator of `blocks`. After
`blocks.clear()` and the read of `tmp_size`, `blocks.reserve(tmp_size)` may
throw; the exception leaves `deserialize`. Otherwise the loop runs `tmp_size`
times (its `emplace_back` calls stay within the reserved capacity). -/
def deserialize (P : Payload T) (al : Allocator) (_A : BlockArray T) (init : Locals T)
    (s : IStream) : Loaded T :=
  let r := s.read64 init.tmp_size
  match al.reserve r.2 with
  | ReserveResult.ok => Loaded.ok ⟨deserialize_loop P r.2 r.1 init.lb init.ub init.val []⟩
  | ReserveResult.length_error => Loaded.length_error
  | ReserveResult.bad_alloc => Loaded.bad_alloc

end BlockArray

/-! ## splitbubble.h -/

namespace splitbubble

/-- Modelled from the spec: the set type `T` of `compact_rules` and `compact`
(a compressed bitmap whose declaration is not part of the sources) is "an
unordered, deduplicated collection of universe elements". It is represented by
a list of numbers read as a set; a range-based `for` visits the list in order. -/
abbrev Bitmap := List Nat

/-- The method `T::add`. -/
def Bitmap.add (b : Bitmap) (i : Nat) : Bitmap :=
  if i ∈ b then b else List.orderedInsert (fun x y => x ≤ y) i b

/-- The method `T::remove`. -/
def Bitmap.remove (b : Bitmap) (i : Nat) : Bitmap := b.filter (fun j => j != i)

/-- The method `T::isEmpty`. -/
def Bitmap.isEmpty (b : Bitmap) : Bool := List.isEmpty b

/-- The operator `T::operator|=`. -/
def Bitmap.union (a b : Bitmap) : Bitmap := b.foldl Bitmap.add a

/-- The method `T::cardinality` (number of distinct elements). -/
def Bitmap.cardinality (b : Bitmap) : Nat := b.dedup.length

/-- The unassigned marker `-1` stored in `invbubble` (a `size_t`). -/
def NONE : Nat := SIZE_MAX

/-- The call `std::vector<size_t>::resize(n, fill)`. -/
def resize (v : List Nat) (n : Nat) (fill : Nat) : List Nat :=
  v.take n ++ List.replicate (n - v.length) fill

/-- The two in-out parameters of `compact_rules`. -/
structure State where
  invbubble : List Nat
  bubbles : List Bitmap
deriving DecidableEq

/-- The variables changed by the first inner loop of `compact_rules`:
`bubbles`, the map `new_spaces` (its entries in order of first insertion) and
the set `empty_bubbles_list` (its elements in order of insertion). -/
structure Staging where
  bubbles : List Bitmap
  new_spaces : List (Nat × Bitmap)
  empty_bubbles_list : List Nat
deriving DecidableEq

/-- The statement `new_spaces[key].add(i)` on the `unordered_map`. -/
def new_spaces_add : List (Nat × Bitmap) → Nat → Nat → List (Nat × Bitmap)
  | [], key, i => [(key, Bitmap.add [] i)]
  | (k, items) :: rest, key, i =>
    if k = key then (k, Bitmap.add items i) :: rest
    else (k, items) :: new_spaces_add rest key i

/-- The call `unordered_set::insert`. -/
def set_insert (s : List Nat) (b : Nat) : List Nat := if b ∈ s then s else s ++ [b]

/-- The body of the first inner loop of `compact_rules` (lines 33-50) for the
item `i`. Reads of `bubbles[bubble_i]` outside the vector (undefined in C++)
read an empty set and writes there are dropped. -/
def stage_item (invbubble : List Nat) (st : Staging) (i : Nat) : Staging :=
  if i < invbubble.length ∧ invbubble.getD i NONE ≠ NONE then
    let bubble_i := invbubble.getD i NONE
    let bubble := Bitmap.remove (st.bubbles.getD bubble_i []) i
    { bubbles := st.bubbles.set bubble_i bubble
      new_spaces := new_spaces_add st.new_spaces bubble_i i
      empty_bubbles_list :=
        if Bitmap.isEmpty bubble then set_insert st.empty_bubbles_list bubble_i
        else st.empty_bubbles_list }
  else
    { st with new_spaces := new_spaces_add st.new_spaces st.bubbles.length i }

/-- The iteration order of the `unordered_map` `new_spaces` and the element
returned by `empty_bubbles_list.begin()` are unspecified. A schedule fixes
them: `order k l` is the order in which the groups `l` staged for set number
`k` are visited, and `pick k j l` is the element taken from the set of empty
bubbles `l` when the group number `j` of set number `k` is placed. -/
structure Sched where
  order : Nat → List (Nat × Bitmap) → List (Nat × Bitmap)
  pick : Nat → Nat → List Nat → Nat
  order_perm : ∀ k l, (order k l).Perm l
  pick_mem : ∀ k j l, l ≠ [] → pick k j l ∈ l

/-- The schedule that visits groups in order of insertion and takes the first
empty bubble inserted. -/
def fifo : Sched where
  order _ l := l
  pick _ _ l := l.headD 0
  order_perm _ l := List.Perm.refl l
  pick_mem _ _ l h := by
    cases l with
    | nil => exact absurd rfl h
    | cons a t => simp

/-- The schedule that visits groups in reverse order of insertion and takes
the empty bubble inserted last. -/
def lifo : Sched where
  order _ l := l.reverse
  pick _ _ l := l.reverse.headD 0
  order_perm _ l := List.reverse_perm l
  pick_mem _ _ l h := by
    show l.reverse.headD 0 ∈ l
    cases hr : l.reverse with
    | nil => exact absurd (List.reverse_eq_nil_iff.1 hr) h
    | cons a t =>
      have : a ∈ l.reverse := by rw [hr]; exact List.mem_cons_self _ _
      exact List.mem_reverse.1 this

/-- The variables changed by the second inner loop of `compact_rules`. -/
structure Placing where
  invbubble : List Nat
  bubbles : List Bitmap
  empty_bubbles_list : List Nat
deriving DecidableEq

/-- Lines 67-68 for one item `i`: grow `invbubble` if needed, then store.
The sum `i + 1` is computed in `size_t` arithmetic (the element type of `T`
is not part of the sources). A store beyond the end of the vector (undefined
in C++) is dropped. -/
def assign_item (bubble_i : Nat) (invbubble : List Nat) (i : Nat) : List Nat :=
  (resize invbubble
    (if i ≥ invbubble.length then (i + 1) % SIZE_MOD else invbubble.length) NONE).set i bubble_i

/-- The loop of lines 66-69 over the items of one staged group. -/
def assign_items (bubble_i : Nat) (invbubble : List Nat) (items : Bitmap) : List Nat :=
  items.foldl (assign_item bubble_i) invbubble

/-- The body of the second inner loop (lines 54-69) for one staged group with
contents `items`, the group number `j` of set number `k`. -/
def place_group (sch : Sched) (k j : Nat) (st : Placing) (items : Bitmap) : Placing :=
  if st.empty_bubbles_list.length ≠ 0 then
    let bubble_i := sch.pick k j st.empty_bubbles_list
    { invbubble := assign_items bubble_i st.invbubble items
      bubbles := st.bubbles.set bubble_i (Bitmap.union (st.bubbles.getD bubble_i []) items)
      empty_bubbles_list := st.empty_bubbles_list.erase bubble_i }
  else
    let bubble_i := st.bubbles.length
    let bubbles := st.bubbles ++ [[]]
    { invbubble := assign_items bubble_i st.invbubble items
      bubbles := bubbles.set bubble_i (Bitmap.union (bubbles.getD bubble_i []) items)
      empty_bubbles_list := st.empty_bubbles_list }

/-- The second inner loop of `compact_rules` over the staged groups, starting
with group number `j`. -/
def place_all (sch : Sched) (k : Nat) : Nat → List (Nat × Bitmap) → Placing → Placing
  | _, [], st => st
  | j, g :: rest, st => place_all sch k (j + 1) rest (place_group sch k j st g.2)

/-- The body of the outer loop of `compact_rules` for the set number `k`. -/
def refine_set (sch : Sched) (k : Nat) (st : State) (curr_set : Bitmap) : State :=
  let s1 := curr_set.foldl (stage_item st.invbubble) ⟨st.bubbles, [], []⟩
  let s2 := place_all sch k 0 (sch.order k s1.new_spaces)
    ⟨st.invbubble, s1.bubbles, s1.empty_bubbles_list⟩
  ⟨s2.invbubble, s2.bubbles⟩

/-- The outer loop of `compact_rules` from set number `k` on. -/
def compact_rules_from (sch : Sched) : Nat → List Bitmap → State → State
  | _, [], st => st
  | k, s :: rest, st => compact_rules_from sch (k + 1) rest (refine_set sch k st s)

/-- The function `compact_rules` (the `verbose` output is not modelled). -/
def compact_rules (sch : Sched) (set_list : List Bitmap) (st : State) : State :=
  compact_rules_from sch 0 set_list st

/-- The function `getNum`. -/
def getNum (set_list : List Bitmap) : Nat :=
  set_list.foldl (fun n x => n + Bitmap.cardinality x) 0

/-- The inner loop of `compact` over the items of one set: `acc` is
`compacted_set`. Reading `invbubble[i]` outside the vector is undefined
behaviour (`none`). -/
def compact_set (invbubble : List Nat) : List Nat → Bitmap → Option Bitmap
  | [], acc => some acc
  | i :: rest, acc =>
    if i < invbubble.length then
      compact_set invbubble rest (Bitmap.add acc (invbubble.getD i NONE))
    else none

/-- The function `compact`: the new contents of `set_list`. -/
def compact (invbubble : List Nat) : List Bitmap → Option (List Bitmap)
  | [] => some []
  | s :: rest =>
    match compact_set invbubble s [] with
    | none => none
    | some c => (compact invbubble rest).map (fun cs => c :: cs)

/-- The state in which `invbubble` and `bubbles` are both empty. -/
def State.init : State := ⟨[], []⟩

end splitbubble

/-! ## Auxiliary notions used in the statements -/

namespace BlockArray

variable {T : Type}

/-- The index obtained from the empty one by the calls `insert(o.lb, o.ub, o.val)`
for the triples `o` of `ops`, in order. -/
def build (srt : StdSort T) (ops : List (block T)) : BlockArray T :=
  ops.foldl (fun A o => insert srt A o.lb o.ub o.val) empty

/-- The block that `--ub` points to after `std::upper_bound`, if there is one. -/
def found (bs : List (block T)) (idx : Nat) : Option (block T) :=
  if upper_bound bs idx = 0 then none else bs[upper_bound bs idx - 1]?

/-- The blocks are non-empty and contiguous from position `start` on: each
block begins where the previous one ends. -/
def tiles : Nat → List (block T) → Bool
  | _, [] => true
  | start, b :: rest => decide (b.lb = start) && decide (b.lb < b.ub) && tiles b.ub rest

/-- A well-formed index: at least one block, the blocks are non-empty intervals
tiling `[0, length)` without gaps or overlaps, and `length` is a `size_t`. -/
def WellFormed (A : BlockArray T) : Prop :=
  A.blocks ≠ [] ∧ tiles 0 A.blocks = true ∧ ∀ b ∈ A.blocks, b.ub < SIZE_MOD

/-- Two intervals have no position in common. -/
def disjoint (a b : block T) : Prop := a.ub ≤ b.lb ∨ b.ub ≤ a.lb

/-- The block that `get_slice` inserts for the stored block `b`: the interval
clipped to `[lb, ub)` and shifted down by `lb`. -/
def clip (lb ub : Nat) (b : block T) : block T :=
  ⟨sub64 (max lb b.lb) lb, sub64 (min ub b.ub) lb, b.val⟩

instance (a b : block T) : Decidable (disjoint a b) :=
  inferInstanceAs (Decidable (a.ub ≤ b.lb ∨ b.ub ≤ a.lb))

end BlockArray

namespace splitbubble

/-- The bubble id recorded for the element `x`: `invbubble[x]`, or the
unassigned marker when `x` lies beyond the end of `invbubble`. -/
def bubbleOf (invbubble : List Nat) (x : Nat) : Nat := invbubble.getD x NONE

/-- The key under which the first inner loop stages the element `x`, where `n`
is `bubbles.size()`. -/
def keyOf (invbubble : List Nat) (n : Nat) (x : Nat) : Nat :=
  if bubbleOf invbubble x ≠ NONE then bubbleOf invbubble x else n

/-- The element `x` is staged in the group with key `k`. -/
def InGroup (ns : List (Nat × Bitmap)) (k x : Nat) : Prop :=
  ∃ items, (k, items) ∈ ns ∧ x ∈ items

/-- The element `x` occurs in some set of the list `P`. -/
def Seen (P : List Bitmap) (x : Nat) : Prop := ∃ s ∈ P, x ∈ s

/-- The elements `x` and `y` have the same membership signature over `P`. -/
def SameSig (P : List Bitmap) (x y : Nat) : Prop := ∀ s ∈ P, (x ∈ s ↔ y ∈ s)

/-- Every element of every set is a `size_t` other than the marker. -/
def Bounded (P : List Bitmap) : Prop := ∀ s ∈ P, ∀ i ∈ s, i < NONE

/-- The partition invariant of a state: no bubble is empty, the inverse map
and the bubbles agree, and no bubble id collides with the marker. -/
structure Inv (st : State) : Prop where
  nonempty : ∀ b, b < st.bubbles.length → st.bubbles.getD b [] ≠ []
  mem_iff : ∀ b x, x ∈ st.bubbles.getD b [] ↔
    (bubbleOf st.invbubble x = b ∧ b < st.bubbles.length)
  size_le : st.bubbles.length ≤ NONE
  seen_lt : ∀ x, bubbleOf st.invbubble x ≠ NONE →
    bubbleOf st.invbubble x < st.bubbles.length ∧ x < NONE

/-- The state describes the signature classes of the sets `P`. -/
structure Sig (P : List Bitmap) (st : State) : Prop where
  seen_iff : ∀ x, bubbleOf st.invbubble x ≠ NONE ↔ Seen P x
  same_iff : ∀ x y, Seen P x → Seen P y →
    (bubbleOf st.invbubble x = bubbleOf st.invbubble y ↔ SameSig P x y)

/-- The relation between the old state `(inv, bub)` and the variables of the
first inner loop after the items `pre` have been staged. -/
structure Staged (inv : List Nat) (bub : List Bitmap) (pre : List Nat) (st : Staging) :
    Prop where
  length_eq : st.bubbles.length = bub.length
  mem_iff : ∀ b x, x ∈ st.bubbles.getD b [] ↔ (x ∈ bub.getD b [] ∧ x ∉ pre)
  group_iff : ∀ k x, InGroup st.new_spaces k x ↔ (x ∈ pre ∧ keyOf inv bub.length x = k)
  keys_nodup : (st.new_spaces.map Prod.fst).Nodup
  group_ne : ∀ g ∈ st.new_spaces, g.2 ≠ []
  empty_nodup : st.empty_bubbles_list.Nodup
  empty_spec : ∀ b ∈ st.empty_bubbles_list,
    b < bub.length ∧ st.bubbles.getD b [] = [] ∧ b ∈ st.new_spaces.map Prod.fst
  empty_all : ∀ b, b < bub.length → st.bubbles.getD b [] = [] → b ∈ st.empty_bubbles_list

/-- The staged groups `todo` that are still to be placed: their keys are
distinct, none is empty, and each holds exactly the elements of the current
set `S` staged under its key. -/
structure Groups (inv : List Nat) (n : Nat) (S : List Nat) (todo : List (Nat × Bitmap)) :
    Prop where
  keys : todo.Pairwise (fun g h => g.1 ≠ h.1)
  ne : ∀ g ∈ todo, g.2 ≠ []
  mem_iff : ∀ g ∈ todo, ∀ x, x ∈ g.2 ↔ (x ∈ S ∧ keyOf inv n x = g.1)

/-- The element `x` belongs to a group that is still to be placed. -/
def Pending (todo : List (Nat × Bitmap)) (x : Nat) : Prop := ∃ g ∈ todo, x ∈ g.2

/-- The relation between the old state `(inv, bub)`, the current set `S`, the
groups `todo` still to be placed and the variables of the second inner loop. -/
structure Placed (inv : List Nat) (bub : List Bitmap) (S : List Nat)
    (todo : List (Nat × Bitmap)) (st : Placing) : Prop where
  empty_nodup : st.empty_bubbles_list.Nodup
  empty_spec : ∀ b ∈ st.empty_bubbles_list, b < st.bubbles.length ∧ st.bubbles.getD b [] = []
  empty_all : ∀ b, b < st.bubbles.length → st.bubbles.getD b [] = [] →
    b ∈ st.empty_bubbles_list
  empty_le : st.empty_bubbles_list.length ≤ todo.length
  length_ge : bub.length ≤ st.bubbles.length
  untouched : ∀ x, (x ∉ S ∨ Pending todo x) → bubbleOf st.invbubble x = bubbleOf inv x
  done_lt : ∀ x, x ∈ S → ¬ Pending todo x → bubbleOf st.invbubble x < st.bubbles.length
  mem_iff : ∀ b x, x ∈ st.bubbles.getD b [] ↔
    (b < st.bubbles.length ∧ bubbleOf st.invbubble x = b ∧ ¬ Pending todo x)
  room : st.bubbles.length + todo.length ≤ NONE + st.empty_bubbles_list.length
  done_same : ∀ x y, x ∈ S → ¬ Pending todo x → y ∈ S → ¬ Pending todo y →
    (bubbleOf st.invbubble x = bubbleOf st.invbubble y ↔
      keyOf inv bub.length x = keyOf inv bub.length y)
  pure : ∀ b x y, x ∈ st.bubbles.getD b [] → y ∈ st.bubbles.getD b [] → (x ∈ S ↔ y ∈ S)

/-- Two lists of sets present the same sets, possibly in another order and
with the elements of each set listed in another order. -/
def SameSets (L1 L2 : List Bitmap) : Prop :=
  ∃ L, L1.Perm L ∧ List.Forall₂ (fun s t => ∀ x, x ∈ s ↔ x ∈ t) L L2

end splitbubble

namespace splitbubble

/-- The membership signature of the element `x` over the list `L`: for each
set of `L`, in order, whether `x` is a member. -/
def signature (L : List Bitmap) (x : Nat) : List Bool :=
  L.map (fun s => decide (x ∈ s))

/-- The number of distinct membership signatures among the elements that occur
in some set of `L`. -/
def numSignatures (L : List Bitmap) : Nat :=
  ((L.flatten.map (signature L)).dedup).length

end splitbubble

/-! ## Theorems: BlockArray -/

namespace BlockArray

variable {T : Type}

theorem upper_bound_le (bs : List (block T)) (p : Nat) : upper_bound bs p ≤ bs.length := by
  induction bs with
  | nil => simp [upper_bound]
  | cons c rest ih =>
    unfold upper_bound
    split
    · exact Nat.zero_le _
    · simpa using ih

theorem found_nil (p : Nat) : found ([] : List (block T)) p = none := by
  simp [found, upper_bound]

theorem found_cons_lt (c : block T) (rest : List (block T)) (p : Nat) (h : p < c.lb) :
    found (c :: rest) p = none := by
  simp [found, upper_bound, h]

theorem found_cons_ge (c : block T) (rest : List (block T)) (p : Nat) (h : c.lb ≤ p) :
    found (c :: rest) p = if upper_bound rest p = 0 then some c else found rest p := by
  have hn : ¬ p < c.lb := Nat.not_lt.2 h
  by_cases h0 : upper_bound rest p = 0
  · simp [found, upper_bound, hn, h0]
  · obtain ⟨k, hk⟩ := Nat.exists_eq_succ_of_ne_zero h0
    simp [found, upper_bound, hn, hk]

theorem found_isSome_of_ne_zero (bs : List (block T)) (p : Nat) (h : upper_bound bs p ≠ 0) :
    ∃ c, found bs p = some c := by
  have hle := upper_bound_le bs p
  have hlt : upper_bound bs p - 1 < bs.length := by omega
  refine ⟨bs[upper_bound bs p - 1], ?_⟩
  simp [found, h, List.getElem?_eq_getElem hlt]

theorem operator_at_eq (A : BlockArray T) (p : Nat) :
    A.operator_at p = (found A.blocks p).map (fun b => b.val) := by
  unfold operator_at found
  by_cases h : upper_bound A.blocks p = 0 <;> simp [h]

theorem get_block_at_eq (A : BlockArray T) (p : Nat) :
    A.get_block_at p =
      match found A.blocks p with
      | some b => (b.lb, b.ub)
      | none => (SIZE_MAX, SIZE_MAX) := by
  unfold get_block_at found
  by_cases h : upper_bound A.blocks p = 0 <;> simp [h]

theorem upper_bound_eq_zero_iff (bs : List (block T)) (p : Nat)
    (hs : bs.Pairwise (fun a b => a.lb ≤ b.lb)) :
    upper_bound bs p = 0 ↔ ∀ b ∈ bs, p < b.lb := by
  cases bs with
  | nil => simp [upper_bound]
  | cons c rest =>
    rw [List.pairwise_cons] at hs
    unfold upper_bound
    by_cases h : p < c.lb
    · simp only [h, if_true, true_iff]
      intro b hb
      rcases List.mem_cons.1 hb with rfl | hb
      · exact h
      · exact Nat.lt_of_lt_of_le h (hs.1 b hb)
    · simp only [h, if_false]
      constructor
      · intro h0; omega
      · intro hall
        exact absurd (hall c (List.mem_cons_self _ _)) h

theorem found_eq_none_iff (bs : List (block T)) (p : Nat)
    (hs : bs.Pairwise (fun a b => a.lb ≤ b.lb)) :
    found bs p = none ↔ ∀ b ∈ bs, p < b.lb := by
  rw [← upper_bound_eq_zero_iff bs p hs]
  constructor
  · intro h
    by_contra h0
    obtain ⟨c, hc⟩ := found_isSome_of_ne_zero bs p h0
    rw [hc] at h
    exact Option.noConfusion h
  · intro h
    simp [found, h]

theorem found_some_spec (bs : List (block T)) (p : Nat)
    (hs : bs.Pairwise (fun a b => a.lb ≤ b.lb)) (c : block T) (h : found bs p = some c) :
    c ∈ bs ∧ c.lb ≤ p ∧ ∀ b ∈ bs, b.lb ≤ p → b.lb ≤ c.lb := by
  induction bs with
  | nil => rw [found_nil] at h; exact Option.noConfusion h
  | cons d rest ih =>
    have hs2 := List.pairwise_cons.1 hs
    by_cases hd : p < d.lb
    · rw [found_cons_lt d rest p hd] at h; exact Option.noConfusion h
    · have hd2 : d.lb ≤ p := Nat.not_lt.1 hd
      rw [found_cons_ge d rest p hd2] at h
      by_cases h0 : upper_bound rest p = 0
      · rw [if_pos h0] at h
        have hcd : d = c := Option.some.inj h
        subst hcd
        refine ⟨List.mem_cons_self _ _, hd2, ?_⟩
        intro b hb hbp
        rcases List.mem_cons.1 hb with rfl | hb
        · exact Nat.le_refl _
        · have := (upper_bound_eq_zero_iff rest p hs2.2).1 h0 b hb
          omega
      · rw [if_neg h0] at h
        obtain ⟨hm, hcp, hall⟩ := ih hs2.2 h
        refine ⟨List.mem_cons_of_mem _ hm, hcp, ?_⟩
        intro b hb hbp
        rcases List.mem_cons.1 hb with rfl | hb
        · exact hs2.1 c hm
        · exact hall b hb hbp

theorem disjoint_symm : Symmetric (disjoint : block T → block T → Prop) := by
  intro a b h
  exact Or.symm h

/-- On blocks sorted by lower bound that are non-empty and pairwise disjoint,
the search finds exactly the block that covers the position. -/
theorem found_of_covering (bs : List (block T)) (p : Nat)
    (hs : bs.Pairwise (fun a b => a.lb ≤ b.lb)) (hne : ∀ b ∈ bs, b.lb < b.ub)
    (hd : bs.Pairwise disjoint) (b : block T) (hb : b ∈ bs) (hlo : b.lb ≤ p) (hhi : p < b.ub) :
    found bs p = some b := by
  cases hf : found bs p with
  | none =>
    have := (found_eq_none_iff bs p hs).1 hf b hb
    omega
  | some c =>
    obtain ⟨hc, hcp, hall⟩ := found_some_spec bs p hs c hf
    have hbc := hall b hb hlo
    by_cases heq : c = b
    · rw [heq]
    · have hdis := List.Pairwise.forall disjoint_symm hd hc hb heq
      have hcne := hne c hc
      unfold disjoint at hdis
      omega

theorem sorted_of_run (srt : StdSort T) (l : List (block T)) :
    (srt.run l).Pairwise (fun a b => a.lb ≤ b.lb) :=
  List.Pairwise.imp (fun {_ _} h => Nat.not_lt.1 h) (srt.sorted l)

theorem foldl_insert_perm (srt : StdSort T) (ops : List (block T)) (A : BlockArray T) :
    (ops.foldl (fun A o => insert srt A o.lb o.ub o.val) A).blocks.Perm (A.blocks ++ ops) := by
  induction ops generalizing A with
  | nil => simp
  | cons o rest ih =>
    simp only [List.foldl_cons]
    refine (ih _).trans ?_
    have h1 : (insert srt A o.lb o.ub o.val).blocks.Perm (A.blocks ++ [o]) := srt.perm _
    have h2 := List.Perm.append_right rest h1
    simpa using h2

theorem build_perm (srt : StdSort T) (ops : List (block T)) :
    (build srt ops).blocks.Perm ops := by
  have := foldl_insert_perm srt ops empty
  simpa [build, empty] using this

theorem foldl_insert_sorted (srt : StdSort T) (ops : List (block T)) (A : BlockArray T)
    (hA : A.blocks.Pairwise (fun a b => a.lb ≤ b.lb)) :
    (ops.foldl (fun A o => insert srt A o.lb o.ub o.val) A).blocks.Pairwise
      (fun a b => a.lb ≤ b.lb) := by
  induction ops generalizing A with
  | nil => simpa using hA
  | cons o rest ih =>
    simp only [List.foldl_cons]
    exact ih _ (sorted_of_run srt _)

theorem build_sorted (srt : StdSort T) (ops : List (block T)) :
    (build srt ops).blocks.Pairwise (fun a b => a.lb ≤ b.lb) :=
  foldl_insert_sorted srt ops empty List.Pairwise.nil

theorem tiles_cons (s : Nat) (b : block T) (rest : List (block T)) :
    tiles s (b :: rest) = true ↔ b.lb = s ∧ b.lb < b.ub ∧ tiles b.ub rest = true := by
  simp [tiles, and_assoc]

theorem tiles_facts (s : Nat) (bs : List (block T)) (h : tiles s bs = true) :
    (∀ b ∈ bs, s ≤ b.lb ∧ b.lb < b.ub) ∧ bs.Pairwise (fun a b => a.ub ≤ b.lb) := by
  induction bs generalizing s with
  | nil => simp
  | cons c rest ih =>
    obtain ⟨h1, h2, h3⟩ := (tiles_cons s c rest).1 h
    obtain ⟨ih1, ih2⟩ := ih c.ub h3
    constructor
    · intro b hb
      rcases List.mem_cons.1 hb with rfl | hb
      · omega
      · have := ih1 b hb
        omega
    · refine List.pairwise_cons.2 ⟨?_, ih2⟩
      intro b hb
      exact (ih1 b hb).1

theorem tiles_sorted (s : Nat) (bs : List (block T)) (h : tiles s bs = true) :
    bs.Pairwise (fun a b => a.lb ≤ b.lb) := by
  obtain ⟨h1, h2⟩ := tiles_facts s bs h
  have h3 : bs.Pairwise (fun a _ => a.lb < a.ub) :=
    List.pairwise_of_forall_mem_list (fun a ha _ _ => (h1 a ha).2)
  refine List.Pairwise.imp ?_ (h2.and h3)
  intro a b hab
  omega

theorem tiles_disjoint (s : Nat) (bs : List (block T)) (h : tiles s bs = true) :
    bs.Pairwise disjoint :=
  List.Pairwise.imp (fun {_ _} hab => Or.inl hab) (tiles_facts s bs h).2

theorem length_eq_getLast? (A : BlockArray T) :
    A.length = A.blocks.getLast?.map (fun b => b.ub) := by
  unfold length
  rw [List.getLast?_eq_getElem?]
  by_cases h : A.blocks.length = 0
  · have : A.blocks = [] := List.length_eq_zero.1 h
    simp [this]
  · simp [h]

theorem length_eq_getLast (A : BlockArray T) (h : A.blocks ≠ []) :
    A.length = some (A.blocks.getLast h).ub := by
  rw [length_eq_getLast?, List.getLast?_eq_getLast _ h]
  rfl

theorem tiles_cover (s : Nat) (bs : List (block T)) (h : tiles s bs = true) (len : Nat)
    (hlen : length ⟨bs⟩ = some len) (p : Nat) (h1 : s ≤ p) (h2 : p < len) :
    ∃ b ∈ bs, b.lb ≤ p ∧ p < b.ub := by
  induction bs generalizing s with
  | nil => simp [length] at hlen
  | cons c rest ih =>
    obtain ⟨t1, t2, t3⟩ := (tiles_cons s c rest).1 h
    by_cases hp : p < c.ub
    · exact ⟨c, List.mem_cons_self _ _, by omega, hp⟩
    · cases rest with
      | nil =>
        simp [length] at hlen
        omega
      | cons d rest2 =>
        have hlen2 : length ⟨d :: rest2⟩ = some len := by
          rw [length_eq_getLast?] at hlen ⊢
          simpa [List.getLast?_cons_cons] using hlen
        obtain ⟨b, hb, hb1, hb2⟩ := ih c.ub t3 hlen2 (by omega)
        exact ⟨b, List.mem_cons_of_mem _ hb, hb1, hb2⟩

theorem sorted_disjoint_ub_le (bs : List (block T))
    (hs : bs.Pairwise (fun a b => a.lb ≤ b.lb)) (hne : ∀ b ∈ bs, b.lb < b.ub)
    (hd : bs.Pairwise disjoint) : bs.Pairwise (fun a b => a.ub ≤ b.ub) := by
  have h3 : bs.Pairwise (fun _ b => b.lb < b.ub) :=
    List.pairwise_of_forall_mem_list (fun _ _ b hb => hne b hb)
  refine List.Pairwise.imp ?_ ((hs.and hd).and h3)
  intro a b hab
  obtain ⟨⟨h1, h2⟩, h4⟩ := hab
  unfold disjoint at h2
  omega

theorem le_getLast_of_pairwise (bs : List (block T)) (h : bs ≠ [])
    (hp : bs.Pairwise (fun a b => a.ub ≤ b.ub)) : ∀ b ∈ bs, b.ub ≤ (bs.getLast h).ub := by
  intro b hb
  have hsplit := List.dropLast_append_getLast h
  rw [← hsplit] at hp hb
  rcases List.mem_append.1 hb with hb | hb
  · have := (List.pairwise_append.1 hp).2.2 b hb (bs.getLast h) (List.mem_singleton_self _)
    exact this
  · rw [List.mem_singleton.1 hb]

theorem build_nonempty_of_ops (srt : StdSort T) (ops : List (block T))
    (hne : ∀ o ∈ ops, o.lb < o.ub) : ∀ b ∈ (build srt ops).blocks, b.lb < b.ub :=
  fun b hb => hne b ((build_perm srt ops).subset hb)

theorem build_disjoint_of_ops (srt : StdSort T) (ops : List (block T))
    (hd : ops.Pairwise disjoint) : (build srt ops).blocks.Pairwise disjoint :=
  (List.Perm.pairwise_iff (fun {_ _} h => disjoint_symm h) (build_perm srt ops)).2 hd

theorem sorted_perm_unique (l1 l2 : List (block T)) (hp : l1.Perm l2)
    (h1 : l1.Pairwise (fun a b => a.lb ≤ b.lb)) (h2 : l2.Pairwise (fun a b => a.lb ≤ b.lb))
    (hn : (l1.map (fun b => b.lb)).Nodup) : l1 = l2 := by
  have hn2 : (l2.map (fun b => b.lb)).Nodup := (hp.map _).nodup_iff.1 hn
  have q1 : l1.Pairwise (fun a b => a.lb ≠ b.lb) := List.pairwise_map.1 hn
  have q2 : l2.Pairwise (fun a b => a.lb ≠ b.lb) := List.pairwise_map.1 hn2
  have s1 : l1.Pairwise (fun a b => a.lb < b.lb) :=
    List.Pairwise.imp (fun {a b} h => Nat.lt_of_le_of_ne h.1 h.2) (h1.and q1)
  have s2 : l2.Pairwise (fun a b => a.lb < b.lb) :=
    List.Pairwise.imp (fun {a b} h => Nat.lt_of_le_of_ne h.1 h.2) (h2.and q2)
  haveI : IsAntisymm (block T) (fun a b => a.lb < b.lb) :=
    ⟨fun a b hab hba => absurd hab (Nat.lt_asymm hba)⟩
  exact List.eq_of_perm_of_sorted hp s1 s2

/-- C4: on an index built by inserting non-empty, pairwise non-overlapping
intervals in any order, a point query at a position `p` that lies in a stored
interval `[b.lb, b.ub)` returns the value bound to that interval. -/
theorem operator_at_correct (srt : StdSort T) (ops : List (block T))
    (hne : ∀ o ∈ ops, o.lb < o.ub) (hd : ops.Pairwise disjoint)
    (b : block T) (hb : b ∈ (build srt ops).blocks) (p : Nat)
    (hlo : b.lb ≤ p) (hhi : p < b.ub) :
    (build srt ops).operator_at p = some b.val := by
  rw [operator_at_eq,
    found_of_covering _ p (build_sorted srt ops) (build_nonempty_of_ops srt ops hne)
      (build_disjoint_of_ops srt ops hd) b hb hlo hhi]
  rfl

/-- Witness for C4: with `[5,9) -> B` and `[0,5) -> A` inserted (in this order),
positions 0 and 4 return `A` and positions 5 and 8 return `B`. -/
theorem operator_at_correct_witness :
    (build (insertionSort Char) [⟨5, 9, 'B'⟩, ⟨0, 5, 'A'⟩]).operator_at 0 = some 'A' ∧
    (build (insertionSort Char) [⟨5, 9, 'B'⟩, ⟨0, 5, 'A'⟩]).operator_at 4 = some 'A' ∧
    (build (insertionSort Char) [⟨5, 9, 'B'⟩, ⟨0, 5, 'A'⟩]).operator_at 5 = some 'B' ∧
    (build (insertionSort Char) [⟨5, 9, 'B'⟩, ⟨0, 5, 'A'⟩]).operator_at 8 = some 'B' :=
  ⟨operator_at_correct (insertionSort Char) [⟨5, 9, 'B'⟩, ⟨0, 5, 'A'⟩]
      (by decide) (by decide) ⟨0, 5, 'A'⟩ (by decide) 0 (by decide) (by decide),
   operator_at_correct (insertionSort Char) [⟨5, 9, 'B'⟩, ⟨0, 5, 'A'⟩]
      (by decide) (by decide) ⟨0, 5, 'A'⟩ (by decide) 4 (by decide) (by decide),
   operator_at_correct (insertionSort Char) [⟨5, 9, 'B'⟩, ⟨0, 5, 'A'⟩]
      (by decide) (by decide) ⟨5, 9, 'B'⟩ (by decide) 5 (by decide) (by decide),
   operator_at_correct (insertionSort Char) [⟨5, 9, 'B'⟩, ⟨0, 5, 'A'⟩]
      (by decide) (by decide) ⟨5, 9, 'B'⟩ (by decide) 8 (by decide) (by decide)⟩

/-- C8: for an index whose blocks are sorted by lower bound (as `insert` leaves
them) and a position `p`: if no stored interval has lower bound `<= p`
(in particular on the empty index) `get_block_at` returns the sentinel pair
`(size_t(-1), size_t(-1))`; otherwise it returns the bounds of a stored
interval with the greatest lower bound `<= p`; and on a well-formed index with
`p < length()` the returned pair covers `p`. -/
theorem get_block_at_spec (A : BlockArray T) (p : Nat)
    (hs : A.blocks.Pairwise (fun a b => a.lb ≤ b.lb)) :
    ((∀ b ∈ A.blocks, p < b.lb) → A.get_block_at p = (SIZE_MAX, SIZE_MAX)) ∧
    ((∃ b ∈ A.blocks, b.lb ≤ p) →
      ∃ c ∈ A.blocks, A.get_block_at p = (c.lb, c.ub) ∧ c.lb ≤ p ∧
        ∀ b ∈ A.blocks, b.lb ≤ p → b.lb ≤ c.lb) ∧
    (WellFormed A → ∀ len, A.length = some len → p < len →
      ∃ c ∈ A.blocks, A.get_block_at p = (c.lb, c.ub) ∧ c.lb ≤ p ∧ p < c.ub) := by
  refine ⟨?_, ?_, ?_⟩
  · intro h
    rw [get_block_at_eq, (found_eq_none_iff A.blocks p hs).2 h]
  · rintro ⟨b, hb, hbp⟩
    cases hf : found A.blocks p with
    | none =>
      have := (found_eq_none_iff A.blocks p hs).1 hf b hb
      omega
    | some c =>
      obtain ⟨hc, hcp, hall⟩ := found_some_spec A.blocks p hs c hf
      refine ⟨c, hc, ?_, hcp, hall⟩
      rw [get_block_at_eq, hf]
  · rintro ⟨_, ht, _⟩ len hlen hp
    obtain ⟨c, hc, hc1, hc2⟩ := tiles_cover 0 A.blocks ht len hlen p (Nat.zero_le _) hp
    have hf := found_of_covering A.blocks p hs (fun b hb => ((tiles_facts 0 _ ht).1 b hb).2)
      (tiles_disjoint 0 _ ht) c hc hc1 hc2
    refine ⟨c, hc, ?_, hc1, hc2⟩
    rw [get_block_at_eq, hf]

/-- Witness for C8: the index `[0,5) -> A, [5,9) -> B` at position 6. -/
theorem get_block_at_spec_witness :
    (∃ c ∈ (⟨[⟨0, 5, 'A'⟩, ⟨5, 9, 'B'⟩]⟩ : BlockArray Char).blocks,
      (⟨[⟨0, 5, 'A'⟩, ⟨5, 9, 'B'⟩]⟩ : BlockArray Char).get_block_at 6 = (c.lb, c.ub) ∧
      c.lb ≤ 6 ∧ 6 < c.ub) ∧
    (empty : BlockArray Char).get_block_at 6 = (SIZE_MAX, SIZE_MAX) :=
  ⟨(get_block_at_spec (⟨[⟨0, 5, 'A'⟩, ⟨5, 9, 'B'⟩]⟩ : BlockArray Char) 6
      (by decide)).2.2 ⟨by decide, by decide, by decide⟩ 9 (by decide) (by decide),
   (get_block_at_spec (empty : BlockArray Char) 6 (by decide)).1 (by decide)⟩

/-- C9: after any sequence of `insert` calls on an initially empty index the
stored blocks are in non-decreasing order of lower bound and are a permutation
of the inserted triples; when the inserted lower bounds are pairwise distinct
the stored sequence is the same for every order of the calls (and for every
conforming `std::sort`). -/
theorem insert_sorted_perm (srt : StdSort T) (ops : List (block T)) :
    (build srt ops).blocks.Pairwise (fun a b => a.lb ≤ b.lb) ∧
    (build srt ops).blocks.Perm ops ∧
    ∀ (srt2 : StdSort T) (ops2 : List (block T)), ops2.Perm ops →
      (ops.map (fun o => o.lb)).Nodup → (build srt2 ops2).blocks = (build srt ops).blocks := by
  refine ⟨build_sorted srt ops, build_perm srt ops, ?_⟩
  intro srt2 ops2 hp hn
  have hp2 : (build srt2 ops2).blocks.Perm (build srt ops).blocks :=
    ((build_perm srt2 ops2).trans hp).trans (build_perm srt ops).symm
  refine sorted_perm_unique _ _ hp2 (build_sorted srt2 ops2) (build_sorted srt ops) ?_
  exact ((((build_perm srt2 ops2).trans hp).map _).nodup_iff).2 hn

/-- Witness for C9: two orders of the same three inserts. -/
theorem insert_sorted_perm_witness :
    (build (insertionSort Char) [⟨0, 5, 'A'⟩, ⟨9, 12, 'C'⟩, ⟨5, 9, 'B'⟩]).blocks =
      (build (insertionSort Char) [⟨5, 9, 'B'⟩, ⟨9, 12, 'C'⟩, ⟨0, 5, 'A'⟩]).blocks :=
  (insert_sorted_perm (insertionSort Char) [⟨5, 9, 'B'⟩, ⟨9, 12, 'C'⟩, ⟨0, 5, 'A'⟩]).2.2
    (insertionSort Char) [⟨0, 5, 'A'⟩, ⟨9, 12, 'C'⟩, ⟨5, 9, 'B'⟩] (by decide) (by decide)

/-- C10: on a non-empty index `length` returns the upper bound of the last
stored block, and if the index was built by inserting non-empty, pairwise
non-overlapping intervals in any order, no stored interval has a larger upper
bound. -/
theorem length_spec (A : BlockArray T) (h : A.blocks ≠ []) :
    A.length = some (A.blocks.getLast h).ub ∧
    ∀ (srt : StdSort T) (ops : List (block T)), A = build srt ops →
      (∀ o ∈ ops, o.lb < o.ub) → ops.Pairwise disjoint →
      ∀ b ∈ A.blocks, b.ub ≤ (A.blocks.getLast h).ub := by
  refine ⟨length_eq_getLast A h, ?_⟩
  intro srt ops hA hne hd
  subst hA
  exact le_getLast_of_pairwise _ h
    (sorted_disjoint_ub_le _ (build_sorted srt ops) (build_nonempty_of_ops srt ops hne)
      (build_disjoint_of_ops srt ops hd))

/-- Witness for C10: after inserting `[5,9)`, `[9,12)`, `[0,5)` the length is 12. -/
theorem length_spec_witness :
    (build (insertionSort Char) [⟨5, 9, 'B'⟩, ⟨9, 12, 'C'⟩, ⟨0, 5, 'A'⟩]).length = some 12 ∧
    ∀ b ∈ (build (insertionSort Char) [⟨5, 9, 'B'⟩, ⟨9, 12, 'C'⟩, ⟨0, 5, 'A'⟩]).blocks,
      b.ub ≤ 12 :=
  ⟨(length_spec (build (insertionSort Char) [⟨5, 9, 'B'⟩, ⟨9, 12, 'C'⟩, ⟨0, 5, 'A'⟩])
      (by decide)).1,
   (length_spec (build (insertionSort Char) [⟨5, 9, 'B'⟩, ⟨9, 12, 'C'⟩, ⟨0, 5, 'A'⟩])
      (by decide)).2 (insertionSort Char) [⟨5, 9, 'B'⟩, ⟨9, 12, 'C'⟩, ⟨0, 5, 'A'⟩] rfl
      (by decide) (by decide)⟩

theorem sub64_eq (a b : Nat) (h1 : b ≤ a) (h2 : a < SIZE_MOD) : sub64 a b = a - b := by
  unfold sub64
  unfold SIZE_MOD at *
  omega

theorem slice_body_blocks (srt : StdSort T) (lb ub : Nat) (s : BlockArray T) (b : block T) :
    (slice_body srt lb ub s b).blocks = srt.run (s.blocks ++ [clip lb ub b]) := rfl

theorem slice_while_perm (srt : StdSort T) (lb ub : Nat) (rest : List (block T))
    (s : BlockArray T) :
    (slice_while srt lb ub rest s).blocks.Perm
      (s.blocks ++ (rest.takeWhile (fun b => decide (b.lb < ub))).map (clip lb ub)) := by
  induction rest generalizing s with
  | nil => simp [slice_while]
  | cons b rest ih =>
    unfold slice_while
    by_cases h : b.lb < ub
    · simp only [h, if_true, List.takeWhile_cons, decide_True, List.map_cons]
      refine (ih _).trans ?_
      rw [slice_body_blocks]
      have h1 := List.Perm.append_right
        ((rest.takeWhile (fun b => decide (b.lb < ub))).map (clip lb ub))
        (srt.perm (s.blocks ++ [clip lb ub b]))
      simpa using h1
    · simp [h, List.takeWhile_cons]

theorem slice_while_sorted (srt : StdSort T) (lb ub : Nat) (rest : List (block T))
    (s : BlockArray T) (hs : s.blocks.Pairwise (fun a b => a.lb ≤ b.lb)) :
    (slice_while srt lb ub rest s).blocks.Pairwise (fun a b => a.lb ≤ b.lb) := by
  induction rest generalizing s with
  | nil => simpa [slice_while] using hs
  | cons b rest ih =>
    unfold slice_while
    by_cases h : b.lb < ub
    · simp only [h, if_true]
      exact ih _ (by rw [slice_body_blocks]; exact sorted_of_run srt _)
    · simpa [h] using hs

theorem mem_takeWhile_of_sorted (ub : Nat) (l : List (block T))
    (hs : l.Pairwise (fun a b => a.lb ≤ b.lb)) (c : block T) (hc : c ∈ l) (h : c.lb < ub) :
    c ∈ l.takeWhile (fun b => decide (b.lb < ub)) := by
  induction l with
  | nil => exact absurd hc (List.not_mem_nil _)
  | cons d rest ih =>
    have hs2 := List.pairwise_cons.1 hs
    have hd : d.lb < ub := by
      rcases List.mem_cons.1 hc with rfl | hc
      · exact h
      · exact Nat.lt_of_le_of_lt (hs2.1 c hc) h
    rw [List.takeWhile_cons]
    simp only [hd, decide_True, if_true]
    rcases List.mem_cons.1 hc with rfl | hc
    · exact List.mem_cons_self _ _
    · exact List.mem_cons_of_mem _ (ih hs2.2 hc)

theorem clip_bounds (lb ub : Nat) (c : block T) (h1 : lb < ub) (h2 : ub < SIZE_MOD)
    (h3 : c.ub < SIZE_MOD) (h4 : c.lb < c.ub) (h5 : lb ≤ c.ub) :
    (clip lb ub c).lb = max lb c.lb - lb ∧ (clip lb ub c).ub = min ub c.ub - lb ∧
    (clip lb ub c).val = c.val := by
  refine ⟨?_, ?_, rfl⟩
  · show sub64 (max lb c.lb) lb = _
    apply sub64_eq
    · exact le_max_left _ _
    · rcases max_choice lb c.lb with h | h <;> rw [h] <;> omega
  · show sub64 (min ub c.ub) lb = _
    apply sub64_eq
    · exact le_min (Nat.le_of_lt h1) h5
    · exact Nat.lt_of_le_of_lt (min_le_left _ _) h2

/-- C5: for a well-formed index `A` and `lb < ub <= A.length()`, `get_slice`
returns a slice `S` with `S[p] = A[lb + p]` for every `p` in `[0, ub - lb)`
(both queries are defined and return the same value). -/
theorem get_slice_correct (srt : StdSort T) (A : BlockArray T) (hA : WellFormed A)
    (lb ub len : Nat) (hlen : A.length = some len) (h1 : lb < ub) (h2 : ub ≤ len) :
    ∃ S, A.get_slice srt lb ub = some S ∧
      ∀ p, p < ub - lb →
        ∃ v, A.operator_at (lb + p) = some v ∧ S.operator_at p = some v := by
  obtain ⟨hne, ht, hbd⟩ := hA
  have hfacts := tiles_facts 0 A.blocks ht
  have hsorted := tiles_sorted 0 A.blocks ht
  have hdisj := tiles_disjoint 0 A.blocks ht
  have hnonempty : ∀ b ∈ A.blocks, b.lb < b.ub := fun b hb => (hfacts.1 b hb).2
  have hlenlt : len < SIZE_MOD := by
    rw [length_eq_getLast A hne] at hlen
    have e1 := hbd _ (List.getLast_mem hne)
    have e2 := Option.some.inj hlen
    omega
  obtain ⟨b0, hb0, hb0lo, hb0hi⟩ :=
    tiles_cover 0 A.blocks ht len hlen lb (Nat.zero_le _) (by omega)
  have hf0 := found_of_covering A.blocks lb hsorted hnonempty hdisj b0 hb0 hb0lo hb0hi
  have hk : upper_bound A.blocks lb ≠ 0 := by
    intro h0
    simp [found, h0] at hf0
  have hkle := upper_bound_le A.blocks lb
  have hklt : upper_bound A.blocks lb - 1 < A.blocks.length := by omega
  have hget : A.blocks[upper_bound A.blocks lb - 1] = b0 := by
    simp only [found, hk, if_false, List.getElem?_eq_getElem hklt] at hf0
    exact Option.some.inj hf0
  have hdrop : A.blocks.drop (upper_bound A.blocks lb - 1) =
      b0 :: A.blocks.drop (upper_bound A.blocks lb - 1 + 1) := by
    rw [List.drop_eq_getElem_cons hklt, hget]
  generalize hrest : A.blocks.drop (upper_bound A.blocks lb - 1 + 1) = rest at hdrop
  generalize hpre : A.blocks.take (upper_bound A.blocks lb - 1) = pre
  have hsplit : A.blocks = pre ++ b0 :: rest := by
    rw [← hdrop, ← hpre]
    exact (List.take_append_drop _ _).symm
  refine ⟨slice_while srt lb ub rest (slice_body srt lb ub ⟨[]⟩ b0), ?_, ?_⟩
  · unfold get_slice
    simp only [hk, if_false, hdrop]
  · intro p hp
    -- the block of `A` that covers `lb + p`
    obtain ⟨c, hc, hclo, hchi⟩ :=
      tiles_cover 0 A.blocks ht len hlen (lb + p) (Nat.zero_le _) (by omega)
    have hfc := found_of_covering A.blocks (lb + p) hsorted hnonempty hdisj c hc hclo hchi
    refine ⟨c.val, by rw [operator_at_eq, hfc]; rfl, ?_⟩
    -- the blocks selected by the loop
    have hchain : (pre ++ b0 :: rest).Pairwise (fun a b => a.ub ≤ b.lb) := hsplit ▸ hfacts.2
    have hchain2 := List.pairwise_append.1 hchain
    have hsuf : (b0 :: rest).Pairwise (fun a b => a.ub ≤ b.lb) := hchain2.2.1
    have hsuf2 := List.pairwise_cons.1 hsuf
    have hrest_sub : ∀ b ∈ rest, b ∈ A.blocks := by
      intro b hb
      rw [hsplit]
      exact List.mem_append_right _ (List.mem_cons_of_mem _ hb)
    have hrest_sorted : rest.Pairwise (fun a b => a.lb ≤ b.lb) := by
      have : (b0 :: rest).Pairwise (fun a b => a.lb ≤ b.lb) := by
        have := hsplit ▸ hsorted
        exact (List.pairwise_append.1 this).2.1
      exact (List.pairwise_cons.1 this).2
    have hsel_sub : (b0 :: rest.takeWhile (fun b => decide (b.lb < ub))).Sublist (b0 :: rest) :=
      List.Sublist.cons₂ _ (List.takeWhile_sublist _)
    have hsel_chain := hsuf.sublist hsel_sub
    have hsel_facts : ∀ b ∈ b0 :: rest.takeWhile (fun b => decide (b.lb < ub)),
        b ∈ A.blocks ∧ lb < b.ub ∧ b.lb < ub := by
      intro b hb
      rcases List.mem_cons.1 hb with rfl | hb
      · exact ⟨hb0, hb0hi, by omega⟩
      · have hbr : b ∈ rest := (List.takeWhile_sublist _).subset hb
        have e1 := hsuf2.1 b hbr
        have e2 := hnonempty b (hrest_sub b hbr)
        have e3 : b.lb < ub := by simpa using List.mem_takeWhile_imp hb
        exact ⟨hrest_sub b hbr, by omega, e3⟩
    have hc_sel : c ∈ b0 :: rest.takeWhile (fun b => decide (b.lb < ub)) := by
      rw [hsplit] at hc
      rcases List.mem_append.1 hc with hc | hc
      · have := hchain2.2.2 c hc b0 (List.mem_cons_self _ _)
        omega
      · rcases List.mem_cons.1 hc with rfl | hc
        · exact List.mem_cons_self _ _
        · exact List.mem_cons_of_mem _
            (mem_takeWhile_of_sorted ub rest hrest_sorted c hc (by omega))
    have hclip : ∀ b ∈ b0 :: rest.takeWhile (fun b => decide (b.lb < ub)),
        (clip lb ub b).lb = max lb b.lb - lb ∧ (clip lb ub b).ub = min ub b.ub - lb ∧
        (clip lb ub b).val = b.val := by
      intro b hb
      obtain ⟨e1, e2, e3⟩ := hsel_facts b hb
      exact clip_bounds lb ub b h1 (by omega) (hbd b e1) (hnonempty b e1) (by omega)
    -- the blocks of the slice
    have hperm : (slice_while srt lb ub rest (slice_body srt lb ub ⟨[]⟩ b0)).blocks.Perm
        ((b0 :: rest.takeWhile (fun b => decide (b.lb < ub))).map (clip lb ub)) := by
      refine (slice_while_perm srt lb ub rest _).trans ?_
      rw [slice_body_blocks]
      have := List.Perm.append_right
        ((rest.takeWhile (fun b => decide (b.lb < ub))).map (clip lb ub))
        (srt.perm (([] : List (block T)) ++ [clip lb ub b0]))
      simpa using this
    have hSsorted := slice_while_sorted srt lb ub rest (slice_body srt lb ub ⟨[]⟩ b0)
      (by rw [slice_body_blocks]; exact sorted_of_run srt _)
    have hSne : ∀ b ∈ (slice_while srt lb ub rest (slice_body srt lb ub ⟨[]⟩ b0)).blocks,
        b.lb < b.ub := by
      intro b hb
      obtain ⟨d, hd, rfl⟩ := List.mem_map.1 (hperm.subset hb)
      obtain ⟨e1, e2, e3⟩ := hsel_facts d hd
      obtain ⟨c1, c2, _⟩ := hclip d hd
      have e4 := hnonempty d e1
      rw [c1, c2]
      rcases max_choice lb d.lb with h | h <;> rcases min_choice ub d.ub with h' | h' <;>
        rw [h, h'] <;> omega
    have hSdis : (slice_while srt lb ub rest (slice_body srt lb ub ⟨[]⟩ b0)).blocks.Pairwise
        disjoint := by
      refine (List.Perm.pairwise_iff (fun {_ _} h => disjoint_symm h) hperm).2 ?_
      rw [List.pairwise_map]
      refine List.Pairwise.imp_of_mem ?_ hsel_chain
      intro a b ha hb hab
      obtain ⟨a1, a2, _⟩ := hclip a ha
      obtain ⟨b1, b2, _⟩ := hclip b hb
      left
      rw [a2, b1]
      have m1 : min ub a.ub ≤ a.ub := min_le_right _ _
      have m2 : b.lb ≤ max lb b.lb := le_max_right _ _
      omega
    have hcS : clip lb ub c ∈ (slice_while srt lb ub rest (slice_body srt lb ub ⟨[]⟩ b0)).blocks :=
      hperm.symm.subset (List.mem_map_of_mem _ hc_sel)
    obtain ⟨c1, c2, c3⟩ := hclip c hc_sel
    have hfS := found_of_covering _ p hSsorted hSne hSdis (clip lb ub c) hcS
      (by rw [c1]; rcases max_choice lb c.lb with h | h <;> rw [h] <;> omega)
      (by rw [c2]; rcases min_choice ub c.ub with h | h <;> rw [h] <;> omega)
    rw [operator_at_eq, hfS]
    show some (clip lb ub c).val = some c.val
    rw [c3]

/-- Witness for C5: slicing `[3,8)` from `[0,5) -> A, [5,9) -> B`. -/
theorem get_slice_correct_witness :
    (∃ S, (⟨[⟨0, 5, 'A'⟩, ⟨5, 9, 'B'⟩]⟩ : BlockArray Char).get_slice (insertionSort Char) 3 8
        = some S ∧
      ∀ p, p < 8 - 3 →
        ∃ v, (⟨[⟨0, 5, 'A'⟩, ⟨5, 9, 'B'⟩]⟩ : BlockArray Char).operator_at (3 + p) = some v ∧
          S.operator_at p = some v) ∧
    (⟨[⟨0, 5, 'A'⟩, ⟨5, 9, 'B'⟩]⟩ : BlockArray Char).get_slice (insertionSort Char) 3 8
      = some ⟨[⟨0, 2, 'A'⟩, ⟨2, 5, 'B'⟩]⟩ :=
  ⟨get_slice_correct (insertionSort Char) ⟨[⟨0, 5, 'A'⟩, ⟨5, 9, 'B'⟩]⟩
      ⟨by decide, by decide, by decide⟩ 3 8 9 (by decide) (by decide) (by decide),
   by decide⟩

theorem encodeLE_length (k n : Nat) : (encodeLE k n).length = k := by
  induction k generalizing n with
  | zero => rfl
  | succ k ih => simp [encodeLE, ih]

theorem decodeLE_encodeLE (k n : Nat) : decodeLE (encodeLE k n) = n % 256 ^ k := by
  induction k generalizing n with
  | zero => simp [encodeLE, decodeLE, Nat.mod_one]
  | succ k ih =>
    simp only [encodeLE, decodeLE, ih]
    rw [Nat.pow_succ, Nat.mul_comm (256 ^ k) 256, Nat.mod_mul]

theorem decodeLE_encodeLE_8 (n : Nat) (h : n < SIZE_MOD) : decodeLE (encodeLE 8 n) = n := by
  rw [decodeLE_encodeLE]
  exact Nat.mod_eq_of_lt h

theorem read_exact (bytes tail cur : List Nat) (n : Nat) (h : bytes.length = n) :
    IStream.read ⟨bytes ++ tail, false⟩ n cur = (⟨tail, false⟩, bytes) := by
  unfold IStream.read
  simp [← h]

theorem read64_exact (v cur : Nat) (tail : List Nat) (h : v < SIZE_MOD) :
    IStream.read64 ⟨encodeLE 8 v ++ tail, false⟩ cur = (⟨tail, false⟩, v) := by
  unfold IStream.read64
  rw [read_exact _ _ _ 8 (encodeLE_length 8 v)]
  simp [decodeLE_encodeLE_8 v h]

theorem readVal_exact (P : Payload T) (v cur : T) (tail : List Nat) :
    IStream.readVal P ⟨P.encode v ++ tail, false⟩ cur = (⟨tail, false⟩, v) := by
  unfold IStream.readVal
  rw [read_exact _ _ _ P.size (P.encode_length v)]
  simp [P.decode_encode v]

theorem deserialize_loop_serialize (P : Payload T) (bs : List (block T))
    (hb : ∀ b ∈ bs, b.lb < SIZE_MOD ∧ b.ub < SIZE_MOD) (tail : List Nat)
    (lb ub : Nat) (val : T) (acc : List (block T)) :
    deserialize_loop P bs.length ⟨(bs.map (serialize_block P)).flatten ++ tail, false⟩
      lb ub val acc = acc ++ bs := by
  induction bs generalizing lb ub val acc with
  | nil => simp [deserialize_loop]
  | cons b rest ih =>
    have hb1 := hb b (List.mem_cons_self _ _)
    have hrest : ∀ c ∈ rest, c.lb < SIZE_MOD ∧ c.ub < SIZE_MOD :=
      fun c hc => hb c (List.mem_cons_of_mem _ hc)
    simp only [List.length_cons, List.map_cons, List.flatten_cons, deserialize_loop,
      serialize_block, List.append_assoc]
    rw [read64_exact b.lb lb _ hb1.1]
    simp only []
    rw [read64_exact b.ub ub _ hb1.2]
    simp only []
    rw [readVal_exact P b.val val _]
    simp only []
    have := ih hrest b.lb b.ub b.val (acc ++ [b])
    simp only [serialize_block, List.append_assoc] at this
    rw [this]
    simp

/-- C6: for every index `A` (with any number of stored blocks), any prior
contents `A0` of the target and any initial values of the locals,
`deserialize` applied to the bytes written by `serialize` (followed by
arbitrary further bytes) yields an index with the same block sequence in
the same order, hence the same result for every point query. The block
count and the bounds are `size_t` values, and `blocks.reserve` obtains the
storage for the `K` blocks (`K` is the size of a vector, so it cannot exceed
`max_size()`; the memory has to be available). -/
theorem deserialize_serialize (P : Payload T) (al : Allocator) (A A0 : BlockArray T)
    (init : Locals T) (tail : List Nat) (hlen : A.blocks.length < SIZE_MOD)
    (hb : ∀ b ∈ A.blocks, b.lb < SIZE_MOD ∧ b.ub < SIZE_MOD)
    (hres : al.reserve A.blocks.length = ReserveResult.ok) :
    deserialize P al A0 init ⟨serialize P A ++ tail, false⟩ = Loaded.ok A ∧
    ∀ B, deserialize P al A0 init ⟨serialize P A ++ tail, false⟩ = Loaded.ok B →
      ∀ p, B.operator_at p = A.operator_at p := by
  have h : deserialize P al A0 init ⟨serialize P A ++ tail, false⟩ = Loaded.ok A := by
    unfold deserialize serialize
    simp only [List.append_assoc]
    rw [read64_exact _ _ _ hlen]
    simp only [hres]
    rw [deserialize_loop_serialize P A.blocks hb]
    simp
  refine ⟨h, ?_⟩
  intro B hB p
  rw [h] at hB
  injection hB with hB
  rw [hB]

/-- Witness for C6: a two-block index with payload type `unsigned char`, read
into an index that already holds a block. -/
theorem deserialize_serialize_witness :
    deserialize bytePayload sampleAllocator ⟨[⟨7, 8, 3⟩]⟩ ⟨5, 6, 7, 8⟩
      ⟨serialize bytePayload ⟨[⟨0, 5, 65⟩, ⟨5, 9, 66⟩]⟩ ++ [1, 2], false⟩ =
      Loaded.ok ⟨[⟨0, 5, 65⟩, ⟨5, 9, 66⟩]⟩ :=
  (deserialize_serialize bytePayload sampleAllocator ⟨[⟨0, 5, 65⟩, ⟨5, 9, 66⟩]⟩
    ⟨[⟨7, 8, 3⟩]⟩ ⟨5, 6, 7, 8⟩ [1, 2] (by decide) (by decide) (by decide)).1


theorem tiles_suffix (s : Nat) (pre : List (block T)) (c : block T) (rest : List (block T))
    (h : tiles s (pre ++ c :: rest) = true) : tiles c.lb (c :: rest) = true := by
  induction pre generalizing s with
  | nil =>
    have h' := (tiles_cons s c rest).1 h
    exact (tiles_cons c.lb c rest).2 ⟨rfl, h'.2.1, h'.2.2⟩
  | cons a pre ih =>
    exact ih a.ub ((tiles_cons s a (pre ++ c :: rest)).1 h).2.2

theorem length_suffix (pre : List (block T)) (c : block T) (rest : List (block T)) :
    length ⟨pre ++ c :: rest⟩ = length ⟨c :: rest⟩ := by
  rw [length_eq_getLast?, length_eq_getLast?]
  simp only [List.getLast?_append_of_ne_nil pre (List.cons_ne_nil c rest)]

theorem length_cons_cons (c d : block T) (rest : List (block T)) :
    length ⟨c :: d :: rest⟩ = length ⟨d :: rest⟩ := by
  rw [length_eq_getLast?, length_eq_getLast?]
  simp only [List.getLast?_cons_cons]

/-- The blocks that the loop of `get_slice` produces from a contiguous run of
blocks starting with the block `c` that reaches into `[lb, ub)`: they tile
`[max lb c.lb - lb, ub - lb)`. -/
theorem clip_tiles (lb ub : Nat) (h1 : lb < ub) (h2 : ub < SIZE_MOD) (rest : List (block T))
    (c : block T) (ht : tiles c.lb (c :: rest) = true)
    (hbd : ∀ b ∈ c :: rest, b.ub < SIZE_MOD) (hc1 : lb < c.ub) (hc2 : c.lb < ub)
    (len : Nat) (hlen : length ⟨c :: rest⟩ = some len) (hub : ub ≤ len) :
    tiles (max lb c.lb - lb)
        ((c :: rest.takeWhile (fun b => decide (b.lb < ub))).map (clip lb ub)) = true ∧
      length ⟨(c :: rest.takeWhile (fun b => decide (b.lb < ub))).map (clip lb ub)⟩ =
        some (ub - lb) := by
  induction rest generalizing c with
  | nil =>
    obtain ⟨t1, t2, _⟩ := (tiles_cons c.lb c []).1 ht
    obtain ⟨e1, e2, _⟩ := clip_bounds lb ub c h1 h2 (hbd c (List.mem_cons_self _ _)) t2
      (Nat.le_of_lt hc1)
    have hlen' : c.ub = len := by
      simp [length] at hlen
      exact hlen
    have hmin : min ub c.ub = ub := min_eq_left (by omega)
    simp only [List.takeWhile_nil, List.map_cons, List.map_nil]
    constructor
    · rw [tiles_cons]
      refine ⟨e1, ?_, rfl⟩
      rw [e1, e2, hmin]
      rcases max_choice lb c.lb with h | h <;> rw [h] <;> omega
    · simp only [length, List.length_singleton]
      simp [e2, hmin]
  | cons d rest ih =>
    obtain ⟨_, t2, t3⟩ := (tiles_cons c.lb c (d :: rest)).1 ht
    obtain ⟨t4, t5, t6⟩ := (tiles_cons c.ub d rest).1 t3
    obtain ⟨e1, e2, _⟩ := clip_bounds lb ub c h1 h2 (hbd c (List.mem_cons_self _ _)) t2
      (Nat.le_of_lt hc1)
    by_cases hd : d.lb < ub
    · have htd : tiles d.lb (d :: rest) = true := (tiles_cons d.lb d rest).2 ⟨rfl, t5, t6⟩
      have hlend : length ⟨d :: rest⟩ = some len := by
        rw [← length_cons_cons c d rest]
        exact hlen
      obtain ⟨i1, i2⟩ := ih d htd (fun b hb => hbd b (List.mem_cons_of_mem _ hb))
        (by omega) hd hlend
      have hmin : min ub c.ub = c.ub := min_eq_right (by omega)
      have hmax : max lb d.lb = d.lb := max_eq_right (by omega)
      rw [hmax] at i1
      simp only [List.takeWhile_cons, hd, decide_True, if_true, List.map_cons] at i1 i2 ⊢
      constructor
      · rw [tiles_cons]
        refine ⟨e1, ?_, ?_⟩
        · rw [e1, e2, hmin]
          rcases max_choice lb c.lb with h | h <;> rw [h] <;> omega
        · rw [e2, hmin, ← t4]
          exact i1
      · rw [length_cons_cons]
        exact i2
    · have hmin : min ub c.ub = ub := min_eq_left (by omega)
      simp only [List.takeWhile_cons, hd, decide_False, if_false, List.map_cons, List.map_nil,
        Bool.false_eq_true]
      constructor
      · rw [tiles_cons]
        refine ⟨e1, ?_, rfl⟩
        rw [e1, e2, hmin]
        rcases max_choice lb c.lb with h | h <;> rw [h] <;> omega
      · simp only [length, List.length_singleton]
        simp [e2, hmin]

theorem nodup_lb_of_tiles (s : Nat) (bs : List (block T)) (h : tiles s bs = true) :
    (bs.map (fun b => b.lb)).Nodup := by
  obtain ⟨h1, h2⟩ := tiles_facts s bs h
  rw [List.Nodup, List.pairwise_map]
  have h3 : bs.Pairwise (fun a _ => a.lb < a.ub) :=
    List.pairwise_of_forall_mem_list (fun a ha _ _ => (h1 a ha).2)
  refine List.Pairwise.imp ?_ (h2.and h3)
  intro a b hab
  omega

/-- The blocks of the slice are exactly the selected blocks of the index,
clipped and shifted, in stored order. -/
theorem get_slice_blocks (srt : StdSort T) (A : BlockArray T) (hA : WellFormed A)
    (lb ub len : Nat) (hlen : A.length = some len) (h1 : lb < ub) (h2 : ub ≤ len) :
    ∃ S, A.get_slice srt lb ub = some S ∧ tiles 0 S.blocks = true ∧ S.blocks ≠ [] ∧
      S.length = some (ub - lb) ∧ ∀ b ∈ S.blocks, b.ub < SIZE_MOD := by
  obtain ⟨hne, ht, hbd⟩ := hA
  have hfacts := tiles_facts 0 A.blocks ht
  have hsorted := tiles_sorted 0 A.blocks ht
  have hdisj := tiles_disjoint 0 A.blocks ht
  have hnonempty : ∀ b ∈ A.blocks, b.lb < b.ub := fun b hb => (hfacts.1 b hb).2
  have hlenlt : len < SIZE_MOD := by
    rw [length_eq_getLast A hne] at hlen
    have e1 := hbd _ (List.getLast_mem hne)
    have e2 := Option.some.inj hlen
    omega
  obtain ⟨b0, hb0, hb0lo, hb0hi⟩ :=
    tiles_cover 0 A.blocks ht len hlen lb (Nat.zero_le _) (by omega)
  have hf0 := found_of_covering A.blocks lb hsorted hnonempty hdisj b0 hb0 hb0lo hb0hi
  have hk : upper_bound A.blocks lb ≠ 0 := by
    intro h0
    simp [found, h0] at hf0
  have hkle := upper_bound_le A.blocks lb
  have hklt : upper_bound A.blocks lb - 1 < A.blocks.length := by omega
  have hget : A.blocks[upper_bound A.blocks lb - 1] = b0 := by
    simp only [found, hk, if_false, List.getElem?_eq_getElem hklt] at hf0
    exact Option.some.inj hf0
  have hdrop : A.blocks.drop (upper_bound A.blocks lb - 1) =
      b0 :: A.blocks.drop (upper_bound A.blocks lb - 1 + 1) := by
    rw [List.drop_eq_getElem_cons hklt, hget]
  generalize hrest : A.blocks.drop (upper_bound A.blocks lb - 1 + 1) = rest at hdrop
  generalize hpre : A.blocks.take (upper_bound A.blocks lb - 1) = pre
  have hsplit : A.blocks = pre ++ b0 :: rest := by
    rw [← hdrop, ← hpre]
    exact (List.take_append_drop _ _).symm
  have htb0 : tiles b0.lb (b0 :: rest) = true := tiles_suffix 0 pre b0 rest (hsplit ▸ ht)
  have hlen0 : length ⟨b0 :: rest⟩ = some len := by
    rw [← length_suffix pre b0 rest]
    have : (⟨pre ++ b0 :: rest⟩ : BlockArray T) = A := by rw [← hsplit]
    rw [this]
    exact hlen
  have hbd0 : ∀ b ∈ b0 :: rest, b.ub < SIZE_MOD := by
    intro b hb
    apply hbd
    rw [hsplit]
    exact List.mem_append_right _ hb
  obtain ⟨c1, c2⟩ := clip_tiles lb ub h1 (by omega) rest b0 htb0 hbd0 hb0hi (by omega) len
    hlen0 h2
  have hmax : max lb b0.lb = lb := max_eq_left hb0lo
  rw [hmax, Nat.sub_self] at c1
  have hperm : (slice_while srt lb ub rest (slice_body srt lb ub ⟨[]⟩ b0)).blocks.Perm
      ((b0 :: rest.takeWhile (fun b => decide (b.lb < ub))).map (clip lb ub)) := by
    refine (slice_while_perm srt lb ub rest _).trans ?_
    rw [slice_body_blocks]
    have := List.Perm.append_right
      ((rest.takeWhile (fun b => decide (b.lb < ub))).map (clip lb ub))
      (srt.perm (([] : List (block T)) ++ [clip lb ub b0]))
    simpa using this
  have hSsorted := slice_while_sorted srt lb ub rest (slice_body srt lb ub ⟨[]⟩ b0)
    (by rw [slice_body_blocks]; exact sorted_of_run srt _)
  have heq : (b0 :: rest.takeWhile (fun b => decide (b.lb < ub))).map (clip lb ub) =
      (slice_while srt lb ub rest (slice_body srt lb ub ⟨[]⟩ b0)).blocks :=
    sorted_perm_unique _ _ hperm.symm (tiles_sorted 0 _ c1) hSsorted (nodup_lb_of_tiles 0 _ c1)
  refine ⟨slice_while srt lb ub rest (slice_body srt lb ub ⟨[]⟩ b0), ?_, ?_, ?_, ?_, ?_⟩
  · unfold get_slice
    simp only [hk, if_false, hdrop]
  · rw [← heq]
    exact c1
  · rw [← heq]
    simp
  · have : (slice_while srt lb ub rest (slice_body srt lb ub ⟨[]⟩ b0)) =
        ⟨(b0 :: rest.takeWhile (fun b => decide (b.lb < ub))).map (clip lb ub)⟩ := by
      rw [heq]
    rw [this]
    exact c2
  · -- every upper bound is at most `ub - lb`
    have hS1 : tiles 0 (slice_while srt lb ub rest (slice_body srt lb ub ⟨[]⟩ b0)).blocks
        = true := by
      rw [← heq]
      exact c1
    have hSne : (slice_while srt lb ub rest (slice_body srt lb ub ⟨[]⟩ b0)).blocks ≠ [] := by
      rw [← heq]
      simp
    have hSlen : (slice_while srt lb ub rest (slice_body srt lb ub ⟨[]⟩ b0)).length =
        some (ub - lb) := by
      have : (slice_while srt lb ub rest (slice_body srt lb ub ⟨[]⟩ b0)) =
          ⟨(b0 :: rest.takeWhile (fun b => decide (b.lb < ub))).map (clip lb ub)⟩ := by
        rw [heq]
      rw [this]
      exact c2
    intro b hb
    have hfs := tiles_facts 0 _ hS1
    have hle := le_getLast_of_pairwise _ hSne
      (sorted_disjoint_ub_le _ (tiles_sorted 0 _ hS1) (fun b hb => (hfs.1 b hb).2)
        (tiles_disjoint 0 _ hS1)) b hb
    rw [length_eq_getLast _ hSne] at hSlen
    have := Option.some.inj hSlen
    omega

theorem tiles_chain (s : Nat) (bs : List (block T)) (h : tiles s bs = true) :
    List.Chain' (fun a b => a.ub = b.lb) bs ∧ ∀ c ∈ bs.head?, c.lb = s := by
  induction bs generalizing s with
  | nil => simp
  | cons c rest ih =>
    obtain ⟨t1, _, t3⟩ := (tiles_cons s c rest).1 h
    obtain ⟨i1, i2⟩ := ih c.ub t3
    constructor
    · rw [List.chain'_cons']
      refine ⟨?_, i1⟩
      intro d hd
      exact (i2 d hd).symm
    · intro d hd
      simp only [List.head?_cons, Option.mem_def, Option.some.injEq] at hd
      rw [← hd]
      exact t1

/-- C11: for a well-formed index `A` and `lb < ub <= A.length()`, the result of
`get_slice(lb, ub)` is itself a well-formed index occupying `[0, ub - lb)`: its
blocks are non-empty, sorted by lower bound, pairwise non-overlapping, the
first one starts at 0, each block ends where the next one begins, and its
`length()` is `ub - lb`. -/
theorem get_slice_valid (srt : StdSort T) (A : BlockArray T) (hA : WellFormed A)
    (lb ub len : Nat) (hlen : A.length = some len) (h1 : lb < ub) (h2 : ub ≤ len) :
    ∃ S, A.get_slice srt lb ub = some S ∧
      (∀ b ∈ S.blocks, b.lb < b.ub) ∧
      S.blocks.Pairwise (fun a b => a.lb ≤ b.lb) ∧
      S.blocks.Pairwise disjoint ∧
      (∀ c ∈ S.blocks.head?, c.lb = 0) ∧
      List.Chain' (fun a b => a.ub = b.lb) S.blocks ∧
      S.length = some (ub - lb) ∧
      WellFormed S := by
  obtain ⟨S, hS, ht, hne, hl, hbd⟩ := get_slice_blocks srt A hA lb ub len hlen h1 h2
  exact ⟨S, hS, fun b hb => ((tiles_facts 0 _ ht).1 b hb).2, tiles_sorted 0 _ ht,
    tiles_disjoint 0 _ ht, (tiles_chain 0 _ ht).2, (tiles_chain 0 _ ht).1, hl, hne, ht, hbd⟩

/-- Witness for C11: slicing `[3,8)` from `[0,5) -> A, [5,9) -> B`. -/
theorem get_slice_valid_witness :
    ∃ S, (⟨[⟨0, 5, 'A'⟩, ⟨5, 9, 'B'⟩]⟩ : BlockArray Char).get_slice (insertionSort Char) 3 8
        = some S ∧
      (∀ b ∈ S.blocks, b.lb < b.ub) ∧
      S.blocks.Pairwise (fun a b => a.lb ≤ b.lb) ∧
      S.blocks.Pairwise disjoint ∧
      (∀ c ∈ S.blocks.head?, c.lb = 0) ∧
      List.Chain' (fun a b => a.ub = b.lb) S.blocks ∧
      S.length = some (8 - 3) ∧
      WellFormed S :=
  get_slice_valid (insertionSort Char) ⟨[⟨0, 5, 'A'⟩, ⟨5, 9, 'B'⟩]⟩
    ⟨by decide, by decide, by decide⟩ 3 8 9 (by decide) (by decide) (by decide)

/-- C13 (behaviour of the code): when no stored block has a lower bound
`<= p`, `std::upper_bound` returns `begin()`; the branch of `operator[]` that
detects this is empty, and the following `--ub` steps before the first block:
the read is outside the stored blocks (undefined behaviour, `none`) and no
error is signalled. Shown on the index `[5,9) -> B` at position 3 and on the
empty index at position 0; `get_block_at` returns its sentinel there. -/
theorem operator_at_below_domain :
    upper_bound [(⟨5, 9, 'B'⟩ : block Char)] 3 = 0 ∧
    (⟨[⟨5, 9, 'B'⟩]⟩ : BlockArray Char).operator_at 3 = none ∧
    (⟨[⟨5, 9, 'B'⟩]⟩ : BlockArray Char).get_block_at 3 = (SIZE_MAX, SIZE_MAX) ∧
    (empty : BlockArray Char).operator_at 0 = none := by
  decide

theorem upper_bound_eq_length (bs : List (block T)) (p : Nat) (h : ∀ b ∈ bs, b.lb ≤ p) :
    upper_bound bs p = bs.length := by
  induction bs with
  | nil => rfl
  | cons c rest ih =>
    have hc := h c (List.mem_cons_self _ _)
    unfold upper_bound
    rw [if_neg (Nat.not_lt.2 hc), ih (fun b hb => h b (List.mem_cons_of_mem _ hb))]
    rfl

/-- Counterexample to C14 as stated: on the well-formed index
`[0,5) -> A, [5,9) -> B`, whose length is 9, the query at position 9 returns
the value `B` of a stored interval. -/
theorem query_beyond_length_counterexample :
    ¬ ∀ (A : BlockArray Char) (p len : Nat), WellFormed A → A.length = some len → len ≤ p →
      ∀ b ∈ A.blocks, A.operator_at p ≠ some b.val := by
  intro h
  exact h ⟨[⟨0, 5, 'A'⟩, ⟨5, 9, 'B'⟩]⟩ 9 9 ⟨by decide, by decide, by decide⟩ (by decide)
    (by decide) ⟨5, 9, 'B'⟩ (by decide) (by decide)

/-- C14 (amended): `operator[]` has no check on the upper side. On an index
whose blocks are sorted by lower bound, for every position `p` that is not
below all lower bounds, it returns the value of a stored block with the
greatest lower bound `<= p`, whether or not that block contains `p`; on a
well-formed index and `p >= length()` this is the value of the last block. -/
theorem operator_at_beyond (A : BlockArray T) (p : Nat)
    (hs : A.blocks.Pairwise (fun a b => a.lb ≤ b.lb)) (hex : ∃ b ∈ A.blocks, b.lb ≤ p) :
    (∃ c ∈ A.blocks, A.operator_at p = some c.val ∧ c.lb ≤ p ∧
      ∀ b ∈ A.blocks, b.lb ≤ p → b.lb ≤ c.lb) ∧
    (WellFormed A → ∀ len, A.length = some len → len ≤ p →
      ∀ h : A.blocks ≠ [], A.operator_at p = some (A.blocks.getLast h).val) := by
  constructor
  · obtain ⟨b, hb, hbp⟩ := hex
    cases hf : found A.blocks p with
    | none =>
      have := (found_eq_none_iff A.blocks p hs).1 hf b hb
      omega
    | some c =>
      obtain ⟨hc, hcp, hall⟩ := found_some_spec A.blocks p hs c hf
      refine ⟨c, hc, ?_, hcp, hall⟩
      rw [operator_at_eq, hf]
      rfl
  · rintro ⟨_, ht, _⟩ len hlen hp hne
    have hfs := tiles_facts 0 _ ht
    have hle := le_getLast_of_pairwise _ hne
      (sorted_disjoint_ub_le _ hs (fun b hb => (hfs.1 b hb).2) (tiles_disjoint 0 _ ht))
    rw [length_eq_getLast _ hne] at hlen
    have hlen' := Option.some.inj hlen
    have hall : ∀ b ∈ A.blocks, b.lb ≤ p := by
      intro b hb
      have e1 := hle b hb
      have e2 := (hfs.1 b hb).2
      omega
    have hub := upper_bound_eq_length A.blocks p hall
    have hpos : A.blocks.length ≠ 0 := fun e => hne (List.length_eq_zero.1 e)
    unfold operator_at
    simp only [hub, hpos, if_false]
    rw [← List.getLast?_eq_getElem?, List.getLast?_eq_getLast _ hne]
    rfl

/-- Witness for C14 (amended): position 9 on `[0,5) -> A, [5,9) -> B`. -/
theorem operator_at_beyond_witness :
    (⟨[⟨0, 5, 'A'⟩, ⟨5, 9, 'B'⟩]⟩ : BlockArray Char).operator_at 9 = some 'B' :=
  (operator_at_beyond (⟨[⟨0, 5, 'A'⟩, ⟨5, 9, 'B'⟩]⟩ : BlockArray Char) 9 (by decide)
    ⟨⟨0, 5, 'A'⟩, by decide, by decide⟩).2 ⟨by decide, by decide, by decide⟩ 9 (by decide)
    (by decide) (by decide)

theorem serialize_block_length (P : Payload T) (b : block T) :
    (serialize_block P b).length = 16 + P.size := by
  unfold serialize_block
  simp only [List.length_append, encodeLE_length, P.encode_length]

theorem flatten_map_length (P : Payload T) (bs : List (block T)) :
    ((bs.map (serialize_block P)).flatten).length = bs.length * (16 + P.size) := by
  induction bs with
  | nil => simp
  | cons b rest ih =>
    simp only [List.map_cons, List.flatten_cons, List.length_append, List.length_cons, ih,
      serialize_block_length]
    rw [Nat.succ_mul]
    omega

theorem flatten_map_slice (P : Payload T) (bs : List (block T)) (k : Nat) (b : block T)
    (h : bs[k]? = some b) :
    (((bs.map (serialize_block P)).flatten).drop (k * (16 + P.size))).take (16 + P.size) =
      serialize_block P b := by
  induction bs generalizing k with
  | nil => simp at h
  | cons c rest ih =>
    cases k with
    | zero =>
      simp only [List.getElem?_cons_zero, Option.some.injEq] at h
      subst h
      simp only [Nat.zero_mul, List.drop_zero, List.map_cons, List.flatten_cons]
      exact List.take_left' (serialize_block_length P c)
    | succ k =>
      simp only [List.getElem?_cons_succ] at h
      have e : (k + 1) * (16 + P.size) = (serialize_block P c).length + k * (16 + P.size) := by
        rw [serialize_block_length, Nat.succ_mul]
        omega
      simp only [List.map_cons, List.flatten_cons]
      rw [e, List.drop_append]
      exact ih k h

/-- C17: for an index with `K` stored blocks, the output of `serialize` is the
8-byte encoding of `K` followed, for each block in stored order, by the 8-byte
lower bound, the 8-byte upper bound and the `sizeof(T)`-byte value, with no
padding: block number `k` occupies the `16 + sizeof(T)` bytes from offset
`8 + k * (16 + sizeof(T))` on, the output has `8 + K * (16 + sizeof(T))` bytes,
and the empty index serializes to the 8-byte encoding of 0. -/
theorem serialize_layout (P : Payload T) (A : BlockArray T) :
    (serialize P A).length = 8 + A.blocks.length * (16 + P.size) ∧
    (serialize P A).take 8 = encodeLE 8 A.blocks.length ∧
    (∀ k b, A.blocks[k]? = some b →
      ((serialize P A).drop (8 + k * (16 + P.size))).take (16 + P.size) =
        encodeLE 8 b.lb ++ encodeLE 8 b.ub ++ P.encode b.val ∧
      (encodeLE 8 b.lb).length = 8 ∧ (encodeLE 8 b.ub).length = 8 ∧
      (P.encode b.val).length = P.size) ∧
    serialize P (empty : BlockArray T) = [0, 0, 0, 0, 0, 0, 0, 0] := by
  refine ⟨?_, ?_, ?_, ?_⟩
  · unfold serialize
    rw [List.length_append, encodeLE_length, flatten_map_length]
  · unfold serialize
    exact List.take_left' (encodeLE_length 8 _)
  · intro k b hb
    refine ⟨?_, encodeLE_length 8 _, encodeLE_length 8 _, P.encode_length _⟩
    unfold serialize
    have e : 8 + k * (16 + P.size) = (encodeLE 8 A.blocks.length).length + k * (16 + P.size) := by
      rw [encodeLE_length]
    rw [e, List.drop_append]
    exact flatten_map_slice P A.blocks k b hb
  · simp [serialize, empty, encodeLE]

/-- Witness for C17: the bytes of a two-block index with payload type
`unsigned char`. -/
theorem serialize_layout_witness :
    serialize bytePayload ⟨[⟨0, 5, 65⟩, ⟨5, 9, 66⟩]⟩ =
      [2, 0, 0, 0, 0, 0, 0, 0,
       0, 0, 0, 0, 0, 0, 0, 0, 5, 0, 0, 0, 0, 0, 0, 0, 65,
       5, 0, 0, 0, 0, 0, 0, 0, 9, 0, 0, 0, 0, 0, 0, 0, 66] ∧
    ((serialize bytePayload ⟨[⟨0, 5, 65⟩, ⟨5, 9, 66⟩]⟩).drop
        (8 + 1 * (16 + bytePayload.size))).take (16 + bytePayload.size) =
      encodeLE 8 5 ++ encodeLE 8 9 ++ bytePayload.encode 66 :=
  ⟨by decide,
   ((serialize_layout bytePayload ⟨[⟨0, 5, 65⟩, ⟨5, 9, 66⟩]⟩).2.2.1 1 ⟨5, 9, 66⟩
      (by decide)).1⟩

theorem deserialize_loop_length (P : Payload T) (n : Nat) (s : IStream) (lb ub : Nat) (val : T)
    (acc : List (block T)) :
    (deserialize_loop P n s lb ub val acc).length = acc.length + n := by
  induction n generalizing s lb ub val acc with
  | zero => rfl
  | succ n ih =>
    unfold deserialize_loop
    simp only [ih, List.length_append, List.length_singleton]
    omega

theorem read_exhausted (s : IStream) (hs : s.data = []) (n : Nat) (cur : List Nat)
    (hc : cur.length = n) : (s.read n cur).1.data = [] ∧ (s.read n cur).2 = cur := by
  unfold IStream.read
  by_cases hf : s.fail = true
  · simp [hf, hs]
  · by_cases hn : n ≤ s.data.length
    · have hn0 : n = 0 := by
        rw [hs] at hn
        exact Nat.le_zero.1 hn
      have hc0 : cur = [] := List.length_eq_zero.1 (hc.trans hn0)
      simp [hf, hs, hn0, hc0]
    · rw [hs] at hn
      have hn0 : n ≠ 0 := fun e => hn (by rw [e]; exact Nat.le_refl _)
      simp [hf, hs, hn0]

theorem deserialize_loop_exhausted (P : Payload T) (n : Nat) (s : IStream) (hs : s.data = [])
    (lb ub : Nat) (hlb : lb < SIZE_MOD) (hub : ub < SIZE_MOD) (val : T)
    (acc : List (block T)) :
    deserialize_loop P n s lb ub val acc = acc ++ List.replicate n ⟨lb, ub, val⟩ := by
  induction n generalizing s acc with
  | zero => simp [deserialize_loop]
  | succ n ih =>
    obtain ⟨a1, a2⟩ := read_exhausted s hs 8 (encodeLE 8 lb) (encodeLE_length 8 lb)
    have r1 : (s.read64 lb).2 = lb := by
      unfold IStream.read64
      simp only [a2]
      exact decodeLE_encodeLE_8 lb hlb
    have d1 : (s.read64 lb).1.data = [] := a1
    obtain ⟨b1, b2⟩ := read_exhausted (s.read64 lb).1 d1 8 (encodeLE 8 ub) (encodeLE_length 8 ub)
    have r2 : ((s.read64 lb).1.read64 ub).2 = ub := by
      unfold IStream.read64 at b2 ⊢
      simp only [b2]
      exact decodeLE_encodeLE_8 ub hub
    have d2 : ((s.read64 lb).1.read64 ub).1.data = [] := b1
    obtain ⟨c1, c2⟩ := read_exhausted ((s.read64 lb).1.read64 ub).1 d2 P.size (P.encode val)
      (P.encode_length val)
    have r3 : (((s.read64 lb).1.read64 ub).1.readVal P val).2 = val := by
      unfold IStream.readVal
      simp only [c2]
      exact P.decode_encode val
    have d3 : (((s.read64 lb).1.read64 ub).1.readVal P val).1.data = [] := c1
    unfold deserialize_loop
    simp only [r1, r2, r3]
    rw [ih _ d3]
    simp [List.replicate_succ]

/-- Counterexample to C15 as stated: the 8-byte stream that announces one block
and then ends is shorter than `8 + 1 * (16 + sizeof(T))` bytes, yet
`deserialize` reports nothing and returns an index with one block, whose
contents are the initial values of the locals (they differ between the two
runs on the same stream); a 1-byte stream gives two such blocks. -/
theorem deserialize_truncated_counterexample :
    ([1, 0, 0, 0, 0, 0, 0, 0] : List Nat).length < 8 + 1 * (16 + bytePayload.size) ∧
    BlockArray.deserialize bytePayload sampleAllocator ⟨[]⟩ ⟨0, 7, 9, 3⟩
        ⟨[1, 0, 0, 0, 0, 0, 0, 0], false⟩ = Loaded.ok ⟨[⟨7, 9, 3⟩]⟩ ∧
    BlockArray.deserialize bytePayload sampleAllocator ⟨[]⟩ ⟨0, 1, 2, 4⟩
        ⟨[1, 0, 0, 0, 0, 0, 0, 0], false⟩ = Loaded.ok ⟨[⟨1, 2, 4⟩]⟩ ∧
    BlockArray.deserialize bytePayload sampleAllocator ⟨[]⟩ ⟨0, 7, 9, 3⟩ ⟨[2], false⟩ =
      Loaded.ok ⟨[⟨7, 9, 3⟩, ⟨7, 9, 3⟩]⟩ := by
  decide

/-- C15 (amended): `deserialize` does not validate the stream. Its only
failure is the exception of `blocks.reserve(tmp_size)`, which depends on the
value of `tmp_size` after the first read and not on the length of the stream:
`std::length_error` when that value exceeds `max_size()`, `std::bad_alloc` when
the storage cannot be obtained. Whenever `reserve` returns normally,
`deserialize` returns an index with exactly `tmp_size` blocks; on a stream
that ends right after an 8-byte count `n` these are `n` blocks, each built from
the values that the locals `lb`, `ub`, `val` held before the loop. -/
theorem deserialize_no_validation (P : Payload T) (al : Allocator) (A : BlockArray T)
    (init : Locals T) :
    (∀ s : IStream, al.reserve (s.read64 init.tmp_size).2 = ReserveResult.ok →
      ∃ B, deserialize P al A init s = Loaded.ok B ∧
        B.blocks.length = (s.read64 init.tmp_size).2) ∧
    (∀ s : IStream, al.reserve (s.read64 init.tmp_size).2 = ReserveResult.length_error →
      deserialize P al A init s = Loaded.length_error) ∧
    (∀ s : IStream, al.reserve (s.read64 init.tmp_size).2 = ReserveResult.bad_alloc →
      deserialize P al A init s = Loaded.bad_alloc) ∧
    (∀ n, n < SIZE_MOD → al.reserve n = ReserveResult.ok →
      init.lb < SIZE_MOD → init.ub < SIZE_MOD →
      deserialize P al A init ⟨encodeLE 8 n, false⟩ =
        Loaded.ok ⟨List.replicate n ⟨init.lb, init.ub, init.val⟩⟩) := by
  refine ⟨?_, ?_, ?_, ?_⟩
  · intro s hres
    refine ⟨⟨deserialize_loop P (s.read64 init.tmp_size).2 (s.read64 init.tmp_size).1
      init.lb init.ub init.val []⟩, ?_, ?_⟩
    · unfold deserialize
      simp only [hres]
    · simp only [deserialize_loop_length, List.length_nil, Nat.zero_add]
  · intro s hres
    unfold deserialize
    simp only [hres]
  · intro s hres
    unfold deserialize
    simp only [hres]
  · intro n hn hres hlb hub
    unfold deserialize
    have := read64_exact n init.tmp_size [] hn
    rw [List.append_nil] at this
    simp only [this, hres]
    rw [deserialize_loop_exhausted P n ⟨[], false⟩ rfl init.lb init.ub hlb hub]
    simp

/-- Witness for C15 (amended): a stream that announces three blocks and ends,
and a stream that announces `2^64 - 1` blocks. -/
theorem deserialize_no_validation_witness :
    deserialize bytePayload sampleAllocator ⟨[]⟩ ⟨0, 7, 9, 3⟩ ⟨encodeLE 8 3, false⟩ =
      Loaded.ok ⟨List.replicate 3 ⟨7, 9, 3⟩⟩ ∧
    deserialize bytePayload sampleAllocator ⟨[]⟩ ⟨0, 7, 9, 3⟩
      ⟨[255, 255, 255, 255, 255, 255, 255, 255], false⟩ = Loaded.length_error :=
  ⟨(deserialize_no_validation bytePayload sampleAllocator ⟨[]⟩ ⟨0, 7, 9, 3⟩).2.2.2 3
      (by decide) (by decide) (by decide) (by decide),
   (deserialize_no_validation bytePayload sampleAllocator ⟨[]⟩ ⟨0, 7, 9, 3⟩).2.1
      ⟨[255, 255, 255, 255, 255, 255, 255, 255], false⟩ (by decide)⟩

end BlockArray

/-! ## Theorems: splitbubble -/

namespace splitbubble

theorem mem_add (b : Bitmap) (i x : Nat) : x ∈ Bitmap.add b i ↔ (x = i ∨ x ∈ b) := by
  unfold Bitmap.add
  split
  · rename_i h
    constructor
    · exact fun hx => Or.inr hx
    · rintro (rfl | hx)
      · exact h
      · exact hx
  · exact List.mem_orderedInsert _

theorem mem_remove (b : Bitmap) (i x : Nat) : x ∈ Bitmap.remove b i ↔ (x ∈ b ∧ x ≠ i) := by
  unfold Bitmap.remove
  simp [List.mem_filter]

theorem mem_union (a b : Bitmap) (x : Nat) : x ∈ Bitmap.union a b ↔ (x ∈ a ∨ x ∈ b) := by
  unfold Bitmap.union
  induction b generalizing a with
  | nil => simp
  | cons i rest ih =>
    simp only [List.foldl_cons, ih, mem_add, List.mem_cons]
    constructor
    · rintro ((h | h) | h)
      · exact Or.inr (Or.inl h)
      · exact Or.inl h
      · exact Or.inr (Or.inr h)
    · rintro (h | h | h)
      · exact Or.inl (Or.inr h)
      · exact Or.inl (Or.inl h)
      · exact Or.inr h

theorem isEmpty_iff (b : Bitmap) : Bitmap.isEmpty b = true ↔ b = [] := by
  unfold Bitmap.isEmpty
  exact List.isEmpty_iff

theorem eq_nil_of_no_mem (b : Bitmap) (h : ∀ x, x ∉ b) : b = [] :=
  List.eq_nil_iff_forall_not_mem.2 h

theorem getD_set_bitmap (l : List Bitmap) (i j : Nat) (v : Bitmap) :
    (l.set i v).getD j [] = if i = j ∧ i < l.length then v else l.getD j [] := by
  simp only [List.getD_eq_getElem?_getD, List.getElem?_set]
  by_cases h : i = j
  · subst h
    by_cases h2 : i < l.length
    · simp [h2]
    · simp [h2, List.getElem?_eq_none (Nat.le_of_not_lt h2)]
  · simp [h]

theorem getD_set_nat (l : List Nat) (i j : Nat) (v : Nat) :
    (l.set i v).getD j NONE = if i = j ∧ i < l.length then v else l.getD j NONE := by
  simp only [List.getD_eq_getElem?_getD, List.getElem?_set]
  by_cases h : i = j
  · subst h
    by_cases h2 : i < l.length
    · simp [h2]
    · simp [h2, List.getElem?_eq_none (Nat.le_of_not_lt h2)]
  · simp [h]

theorem getD_of_length_le (l : List Nat) (j : Nat) (h : l.length ≤ j) : l.getD j NONE = NONE := by
  simp [List.getD_eq_getElem?_getD, List.getElem?_eq_none h]

theorem getD_nil_of_length_le (l : List Bitmap) (j : Nat) (h : l.length ≤ j) :
    l.getD j [] = [] := by
  simp [List.getD_eq_getElem?_getD, List.getElem?_eq_none h]

theorem resize_length (v : List Nat) (n fill : Nat) : (resize v n fill).length = n := by
  unfold resize
  simp only [List.length_append, List.length_take, List.length_replicate]
  omega

theorem getD_resize (v : List Nat) (n j : Nat) :
    (resize v n NONE).getD j NONE = if j < n then v.getD j NONE else NONE := by
  unfold resize
  simp only [List.getD_eq_getElem?_getD, List.getElem?_append, List.length_take,
    List.getElem?_take, List.getElem?_replicate]
  by_cases h1 : j < n
  · by_cases h2 : j < v.length
    · have : j < min n v.length := by omega
      simp [h1, this]
    · have : ¬ j < min n v.length := by omega
      simp only [h1, this, if_false, if_true, List.getElem?_eq_none (Nat.le_of_not_lt h2)]
      split <;> rfl
  · have : ¬ j < min n v.length := by omega
    simp only [h1, this, if_false]
    split <;> rfl

theorem bubbleOf_assign_item (t : Nat) (inv : List Nat) (i : Nat) (hi : i < NONE) (j : Nat) :
    bubbleOf (assign_item t inv i) j = if j = i then t else bubbleOf inv j := by
  unfold bubbleOf assign_item
  have hmod : (i + 1) % SIZE_MOD = i + 1 := by
    apply Nat.mod_eq_of_lt
    unfold NONE SIZE_MAX at hi
    unfold SIZE_MOD
    omega
  rw [getD_set_nat, resize_length, getD_resize, hmod]
  by_cases h : j = i
  · subst h
    have : j < if j ≥ inv.length then j + 1 else inv.length := by
      split <;> omega
    simp [this]
  · have h' : ¬ i = j := fun e => h e.symm
    simp only [h, h', false_and, if_false]
    by_cases hj : j < inv.length
    · have : j < (if i ≥ inv.length then i + 1 else inv.length) := by
        split <;> omega
      rw [if_pos this]
    · rw [getD_of_length_le inv j (by omega)]
      exact ite_self _

theorem bubbleOf_assign_items (t : Nat) (items : Bitmap) (inv : List Nat)
    (hi : ∀ i ∈ items, i < NONE) (j : Nat) :
    bubbleOf (assign_items t inv items) j = if j ∈ items then t else bubbleOf inv j := by
  unfold assign_items
  induction items generalizing inv with
  | nil => simp
  | cons i rest ih =>
    simp only [List.foldl_cons]
    rw [ih _ (fun x hx => hi x (List.mem_cons_of_mem _ hx)),
      bubbleOf_assign_item t inv i (hi i (List.mem_cons_self _ _))]
    by_cases h1 : j ∈ rest
    · simp [h1]
    · by_cases h2 : j = i
      · simp [h2]
      · simp [h1, h2]

theorem inGroup_cons (k0 : Nat) (it0 : Bitmap) (rest : List (Nat × Bitmap)) (k x : Nat) :
    InGroup ((k0, it0) :: rest) k x ↔ ((k = k0 ∧ x ∈ it0) ∨ InGroup rest k x) := by
  unfold InGroup
  constructor
  · rintro ⟨items, hm, hx⟩
    rcases List.mem_cons.1 hm with h | h
    · injection h with h1 h2
      subst h1 h2
      exact Or.inl ⟨rfl, hx⟩
    · exact Or.inr ⟨items, h, hx⟩
  · rintro (⟨rfl, hx⟩ | ⟨items, hm, hx⟩)
    · exact ⟨it0, List.mem_cons_self _ _, hx⟩
    · exact ⟨items, List.mem_cons_of_mem _ hm, hx⟩

theorem inGroup_nil (k x : Nat) : ¬ InGroup [] k x := by
  rintro ⟨items, hm, _⟩
  exact absurd hm (List.not_mem_nil _)

theorem inGroup_new_spaces_add (ns : List (Nat × Bitmap)) (k i k' x : Nat) :
    InGroup (new_spaces_add ns k i) k' x ↔ (InGroup ns k' x ∨ (k' = k ∧ x = i)) := by
  induction ns with
  | nil =>
    simp only [new_spaces_add, inGroup_cons, mem_add]
    constructor
    · rintro (⟨h1, h2 | h2⟩ | h)
      · exact Or.inr ⟨h1, h2⟩
      · exact absurd h2 (List.not_mem_nil _)
      · exact absurd h (inGroup_nil _ _)
    · rintro (h | ⟨h1, h2⟩)
      · exact absurd h (inGroup_nil _ _)
      · exact Or.inl ⟨h1, Or.inl h2⟩
  | cons g rest ih =>
    obtain ⟨k0, it0⟩ := g
    unfold new_spaces_add
    by_cases h : k0 = k
    · subst h
      simp only [if_true, inGroup_cons, mem_add]
      constructor
      · rintro (⟨h1, h2 | h2⟩ | h)
        · exact Or.inr ⟨h1, h2⟩
        · exact Or.inl (Or.inl ⟨h1, h2⟩)
        · exact Or.inl (Or.inr h)
      · rintro ((⟨h1, h2⟩ | h) | ⟨h1, h2⟩)
        · exact Or.inl ⟨h1, Or.inr h2⟩
        · exact Or.inr h
        · exact Or.inl ⟨h1, Or.inl h2⟩
    · simp only [h, if_false, inGroup_cons, ih]
      constructor
      · rintro (h1 | h1 | h1)
        · exact Or.inl (Or.inl h1)
        · exact Or.inl (Or.inr h1)
        · exact Or.inr h1
      · rintro ((h1 | h1) | h1)
        · exact Or.inl h1
        · exact Or.inr (Or.inl h1)
        · exact Or.inr (Or.inr h1)

theorem keys_new_spaces_add (ns : List (Nat × Bitmap)) (k i : Nat) :
    (new_spaces_add ns k i).map Prod.fst =
      if k ∈ ns.map Prod.fst then ns.map Prod.fst else ns.map Prod.fst ++ [k] := by
  induction ns with
  | nil => simp [new_spaces_add]
  | cons g rest ih =>
    obtain ⟨k0, it0⟩ := g
    unfold new_spaces_add
    by_cases h : k0 = k
    · subst h
      simp
    · have h' : ¬ k = k0 := fun e => h e.symm
      simp only [h, if_false, List.map_cons, ih, List.mem_cons, h', false_or]
      split <;> simp

theorem keys_nodup_new_spaces_add (ns : List (Nat × Bitmap)) (k i : Nat)
    (h : (ns.map Prod.fst).Nodup) : ((new_spaces_add ns k i).map Prod.fst).Nodup := by
  rw [keys_new_spaces_add]
  split
  · exact h
  · rename_i hk
    exact List.nodup_append.2 ⟨h, List.nodup_singleton _, by
      intro a ha hb
      rw [List.mem_singleton.1 hb] at ha
      exact hk ha⟩

theorem mem_keys_new_spaces_add (ns : List (Nat × Bitmap)) (k i k' : Nat) :
    k' ∈ (new_spaces_add ns k i).map Prod.fst ↔ (k' ∈ ns.map Prod.fst ∨ k' = k) := by
  rw [keys_new_spaces_add]
  split
  · rename_i hk
    constructor
    · exact fun h => Or.inl h
    · rintro (h | rfl)
      · exact h
      · exact hk
  · simp

theorem group_ne_new_spaces_add (ns : List (Nat × Bitmap)) (k i : Nat)
    (h : ∀ g ∈ ns, g.2 ≠ []) : ∀ g ∈ new_spaces_add ns k i, g.2 ≠ [] := by
  induction ns with
  | nil =>
    intro g hg
    simp only [new_spaces_add, List.mem_singleton] at hg
    subst hg
    intro he
    have : i ∈ Bitmap.add [] i := (mem_add _ _ _).2 (Or.inl rfl)
    have he' : Bitmap.add [] i = [] := he
    rw [he'] at this
    exact absurd this (List.not_mem_nil _)
  | cons g0 rest ih =>
    obtain ⟨k0, it0⟩ := g0
    intro g hg
    unfold new_spaces_add at hg
    by_cases hk : k0 = k
    · simp only [hk, if_true] at hg
      rcases List.mem_cons.1 hg with rfl | hg
      · intro he
        have : i ∈ Bitmap.add it0 i := (mem_add _ _ _).2 (Or.inl rfl)
        have he' : Bitmap.add it0 i = [] := he
        rw [he'] at this
        exact absurd this (List.not_mem_nil _)
      · exact h g (List.mem_cons_of_mem _ hg)
    · simp only [hk, if_false] at hg
      rcases List.mem_cons.1 hg with rfl | hg
      · exact h _ (List.mem_cons_self _ _)
      · exact ih (fun g hg => h g (List.mem_cons_of_mem _ hg)) g hg

theorem mem_set_insert (s : List Nat) (b x : Nat) : x ∈ set_insert s b ↔ (x = b ∨ x ∈ s) := by
  unfold set_insert
  split
  · rename_i h
    constructor
    · exact fun hx => Or.inr hx
    · rintro (rfl | hx)
      · exact h
      · exact hx
  · simp [or_comm]

theorem nodup_set_insert (s : List Nat) (b : Nat) (h : s.Nodup) : (set_insert s b).Nodup := by
  unfold set_insert
  split
  · exact h
  · rename_i hb
    exact List.nodup_append.2 ⟨h, List.nodup_singleton _, by
      intro a ha hb'
      rw [List.mem_singleton.1 hb'] at ha
      exact hb ha⟩

theorem stage_cond_iff (inv : List Nat) (i : Nat) :
    (i < inv.length ∧ inv.getD i NONE ≠ NONE) ↔ bubbleOf inv i ≠ NONE := by
  unfold bubbleOf
  constructor
  · exact fun h => h.2
  · intro h
    refine ⟨?_, h⟩
    by_contra hlt
    exact h (getD_of_length_le inv i (Nat.le_of_not_lt hlt))

theorem stage_item_seen (inv : List Nat) (st : Staging) (i : Nat) (h : bubbleOf inv i ≠ NONE) :
    stage_item inv st i =
      { bubbles := st.bubbles.set (bubbleOf inv i)
          (Bitmap.remove (st.bubbles.getD (bubbleOf inv i) []) i)
        new_spaces := new_spaces_add st.new_spaces (bubbleOf inv i) i
        empty_bubbles_list :=
          if Bitmap.isEmpty (Bitmap.remove (st.bubbles.getD (bubbleOf inv i) []) i) then
            set_insert st.empty_bubbles_list (bubbleOf inv i)
          else st.empty_bubbles_list } := by
  unfold stage_item
  rw [if_pos ((stage_cond_iff inv i).2 h)]
  rfl

theorem stage_item_unseen (inv : List Nat) (st : Staging) (i : Nat) (h : bubbleOf inv i = NONE) :
    stage_item inv st i =
      { st with new_spaces := new_spaces_add st.new_spaces st.bubbles.length i } := by
  unfold stage_item
  rw [if_neg (fun hc => (stage_cond_iff inv i).1 hc h)]

theorem keyOf_seen (inv : List Nat) (n x : Nat) (h : bubbleOf inv x ≠ NONE) :
    keyOf inv n x = bubbleOf inv x := by
  unfold keyOf
  rw [if_pos h]

theorem keyOf_unseen (inv : List Nat) (n x : Nat) (h : bubbleOf inv x = NONE) :
    keyOf inv n x = n := by
  unfold keyOf
  rw [if_neg (fun hc => hc h)]

theorem staged_init (inv : List Nat) (bub : List Bitmap) (hI : Inv ⟨inv, bub⟩) :
    Staged inv bub [] ⟨bub, [], []⟩ where
  length_eq := rfl
  mem_iff b x := by simp
  group_iff k x := by
    constructor
    · exact fun h => absurd h (inGroup_nil _ _)
    · exact fun h => absurd h.1 (List.not_mem_nil _)
  keys_nodup := List.nodup_nil
  group_ne g hg := absurd hg (List.not_mem_nil _)
  empty_nodup := List.nodup_nil
  empty_spec b hb := absurd hb (List.not_mem_nil _)
  empty_all b hb he := absurd he (hI.nonempty b hb)

theorem staged_step (inv : List Nat) (bub : List Bitmap) (hI : Inv ⟨inv, bub⟩)
    (pre : List Nat) (st : Staging) (i : Nat) (h : Staged inv bub pre st) :
    Staged inv bub (pre ++ [i]) (stage_item inv st i) := by
  by_cases hs : bubbleOf inv i ≠ NONE
  · -- the item already has a bubble
    rw [stage_item_seen inv st i hs]
    have hb0 : bubbleOf inv i < bub.length := (hI.seen_lt i hs).1
    have hb0' : bubbleOf inv i < st.bubbles.length := by rw [h.length_eq]; exact hb0
    have hget : ∀ b, (st.bubbles.set (bubbleOf inv i)
        (Bitmap.remove (st.bubbles.getD (bubbleOf inv i) []) i)).getD b [] =
        if bubbleOf inv i = b then Bitmap.remove (st.bubbles.getD (bubbleOf inv i) []) i
        else st.bubbles.getD b [] := by
      intro b
      rw [getD_set_bitmap]
      by_cases e : bubbleOf inv i = b
      · rw [if_pos ⟨e, hb0'⟩, if_pos e]
      · rw [if_neg (fun hc => e hc.1), if_neg e]
    refine
      { length_eq := ?_, mem_iff := ?_, group_iff := ?_, keys_nodup := ?_, group_ne := ?_,
        empty_nodup := ?_, empty_spec := ?_, empty_all := ?_ }
    · simp only [List.length_set]
      exact h.length_eq
    · intro b x
      simp only [hget, List.mem_append, List.mem_singleton, not_or]
      by_cases e : bubbleOf inv i = b
      · subst e
        simp only [if_true, mem_remove, h.mem_iff]
        tauto
      · simp only [e, if_false, h.mem_iff]
        constructor
        · rintro ⟨h1, h2⟩
          refine ⟨h1, h2, ?_⟩
          rintro rfl
          exact e ((hI.mem_iff b x).1 h1).1
        · rintro ⟨h1, h2, _⟩
          exact ⟨h1, h2⟩
    · intro k x
      simp only [inGroup_new_spaces_add, h.group_iff, List.mem_append, List.mem_singleton]
      constructor
      · rintro (⟨h1, h2⟩ | ⟨h1, h2⟩)
        · exact ⟨Or.inl h1, h2⟩
        · subst h2
          exact ⟨Or.inr rfl, by rw [keyOf_seen inv _ x hs, h1]⟩
      · rintro ⟨h1 | h1, h2⟩
        · exact Or.inl ⟨h1, h2⟩
        · subst h1
          rw [keyOf_seen inv _ x hs] at h2
          exact Or.inr ⟨h2.symm, rfl⟩
    · exact keys_nodup_new_spaces_add _ _ _ h.keys_nodup
    · exact group_ne_new_spaces_add _ _ _ h.group_ne
    · simp only []
      split
      · exact nodup_set_insert _ _ h.empty_nodup
      · exact h.empty_nodup
    · intro b hb
      simp only [] at hb
      simp only [hget, mem_keys_new_spaces_add]
      by_cases hemp : Bitmap.isEmpty (Bitmap.remove (st.bubbles.getD (bubbleOf inv i) []) i) = true
      · rw [if_pos hemp] at hb
        rcases (mem_set_insert _ _ _).1 hb with rfl | hb
        · refine ⟨hb0, ?_, Or.inr rfl⟩
          simp only [if_true]
          exact (isEmpty_iff _).1 hemp
        · obtain ⟨h1, h2, h3⟩ := h.empty_spec b hb
          refine ⟨h1, ?_, Or.inl h3⟩
          by_cases e : bubbleOf inv i = b
          · simp only [e, if_true]
            exact (isEmpty_iff _).1 (e ▸ hemp)
          · simp only [e, if_false]
            exact h2
      · rw [if_neg hemp] at hb
        obtain ⟨h1, h2, h3⟩ := h.empty_spec b hb
        refine ⟨h1, ?_, Or.inl h3⟩
        by_cases e : bubbleOf inv i = b
        · simp only [e, if_true]
          apply eq_nil_of_no_mem
          intro x hx
          rw [mem_remove, h2] at hx
          exact absurd hx.1 (List.not_mem_nil _)
        · simp only [e, if_false]
          exact h2
    · intro b hb he
      simp only [hget] at he
      simp only []
      by_cases e : bubbleOf inv i = b
      · simp only [e, if_true] at he
        have hemp : Bitmap.isEmpty (Bitmap.remove (st.bubbles.getD (bubbleOf inv i) []) i) = true :=
          (isEmpty_iff _).2 (e ▸ he)
        rw [if_pos hemp]
        exact (mem_set_insert _ _ _).2 (Or.inl e.symm)
      · simp only [e, if_false] at he
        have := h.empty_all b hb he
        split
        · exact (mem_set_insert _ _ _).2 (Or.inr this)
        · exact this
  · -- the item has no bubble yet
    have hs' : bubbleOf inv i = NONE := not_not.1 hs
    rw [stage_item_unseen inv st i hs']
    refine
      { length_eq := h.length_eq, mem_iff := ?_, group_iff := ?_, keys_nodup := ?_,
        group_ne := ?_, empty_nodup := h.empty_nodup, empty_spec := ?_,
        empty_all := h.empty_all }
    · intro b x
      simp only [h.mem_iff, List.mem_append, List.mem_singleton, not_or]
      constructor
      · rintro ⟨h1, h2⟩
        refine ⟨h1, h2, ?_⟩
        rintro rfl
        have := (hI.mem_iff b x).1 h1
        have hle := hI.size_le
        simp only [] at this hle
        rw [hs'] at this
        omega
      · rintro ⟨h1, h2, _⟩
        exact ⟨h1, h2⟩
    · intro k x
      simp only [inGroup_new_spaces_add, h.group_iff, List.mem_append, List.mem_singleton,
        h.length_eq]
      constructor
      · rintro (⟨h1, h2⟩ | ⟨h1, h2⟩)
        · exact ⟨Or.inl h1, h2⟩
        · subst h2
          exact ⟨Or.inr rfl, by rw [keyOf_unseen inv _ x hs', h1]⟩
      · rintro ⟨h1 | h1, h2⟩
        · exact Or.inl ⟨h1, h2⟩
        · subst h1
          rw [keyOf_unseen inv _ x hs'] at h2
          exact Or.inr ⟨h2.symm, rfl⟩
    · exact keys_nodup_new_spaces_add _ _ _ h.keys_nodup
    · exact group_ne_new_spaces_add _ _ _ h.group_ne
    · intro b hb
      obtain ⟨h1, h2, h3⟩ := h.empty_spec b hb
      exact ⟨h1, h2, (mem_keys_new_spaces_add _ _ _ _).2 (Or.inl h3)⟩

theorem staged_foldl (inv : List Nat) (bub : List Bitmap) (hI : Inv ⟨inv, bub⟩)
    (xs pre : List Nat) (st : Staging) (h : Staged inv bub pre st) :
    Staged inv bub (pre ++ xs) (xs.foldl (stage_item inv) st) := by
  induction xs generalizing pre st with
  | nil => simpa using h
  | cons i rest ih =>
    have := ih (pre ++ [i]) (stage_item inv st i) (staged_step inv bub hI pre st i h)
    simpa using this

theorem staged_all (inv : List Nat) (bub : List Bitmap) (hI : Inv ⟨inv, bub⟩) (S : List Nat) :
    Staged inv bub S (S.foldl (stage_item inv) ⟨bub, [], []⟩) := by
  have := staged_foldl inv bub hI S [] _ (staged_init inv bub hI)
  simpa using this

theorem getD_append_nil (l : List Bitmap) (b : Nat) : (l ++ [[]]).getD b [] = l.getD b [] := by
  simp only [List.getD_eq_getElem?_getD, List.getElem?_append]
  by_cases h : b < l.length
  · simp [h]
  · rw [if_neg h, List.getElem?_eq_none (Nat.le_of_not_lt h)]
    by_cases h2 : b - l.length = 0
    · simp [h2]
    · have : ([[]] : List Bitmap).length ≤ b - l.length := by
        simp only [List.length_singleton]
        omega
      rw [List.getElem?_eq_none this]

/-- What one pass through the body of the second inner loop does: it chooses
a target bubble `t` that is empty (an emptied bubble or a fresh one), stores
the group there and points the inverse map of the group's items at `t`. -/
theorem place_group_spec (sch : Sched) (k j : Nat) (st : Placing) (items : Bitmap)
    (hitems : ∀ i ∈ items, i < NONE)
    (hspec : ∀ b ∈ st.empty_bubbles_list, b < st.bubbles.length ∧ st.bubbles.getD b [] = []) :
    ∃ t, st.bubbles.getD t [] = [] ∧
      (∀ x, bubbleOf (place_group sch k j st items).invbubble x =
        if x ∈ items then t else bubbleOf st.invbubble x) ∧
      (∀ x, x ∈ (place_group sch k j st items).bubbles.getD t [] ↔ x ∈ items) ∧
      (∀ b, b ≠ t → (place_group sch k j st items).bubbles.getD b [] = st.bubbles.getD b []) ∧
      ((t ∈ st.empty_bubbles_list ∧
          (place_group sch k j st items).empty_bubbles_list = st.empty_bubbles_list.erase t ∧
          (place_group sch k j st items).bubbles.length = st.bubbles.length) ∨
        (st.empty_bubbles_list = [] ∧ t = st.bubbles.length ∧
          (place_group sch k j st items).empty_bubbles_list = [] ∧
          (place_group sch k j st items).bubbles.length = st.bubbles.length + 1)) := by
  by_cases he : st.empty_bubbles_list.length ≠ 0
  · have hne : st.empty_bubbles_list ≠ [] := fun e => he (by rw [e]; rfl)
    have hpick := sch.pick_mem k j st.empty_bubbles_list hne
    obtain ⟨hlt, hemp⟩ := hspec _ hpick
    have hpg : place_group sch k j st items =
        { invbubble := assign_items (sch.pick k j st.empty_bubbles_list) st.invbubble items
          bubbles := st.bubbles.set (sch.pick k j st.empty_bubbles_list)
            (Bitmap.union (st.bubbles.getD (sch.pick k j st.empty_bubbles_list) []) items)
          empty_bubbles_list :=
            st.empty_bubbles_list.erase (sch.pick k j st.empty_bubbles_list) } := by
      unfold place_group
      rw [if_pos he]
    rw [hpg]
    refine ⟨sch.pick k j st.empty_bubbles_list, hemp, ?_, ?_, ?_, Or.inl ⟨hpick, rfl, ?_⟩⟩
    · intro x
      exact bubbleOf_assign_items _ _ _ hitems x
    · intro x
      simp only [getD_set_bitmap, hlt, and_self, if_true, hemp, mem_union]
      constructor
      · rintro (h | h)
        · exact absurd h (List.not_mem_nil _)
        · exact h
      · exact fun h => Or.inr h
    · intro b hb
      simp only [getD_set_bitmap]
      rw [if_neg (fun hc => hb hc.1.symm)]
    · simp only [List.length_set]
  · have he' : st.empty_bubbles_list = [] := by
      apply List.length_eq_zero.1
      exact not_not.1 he
    have hpg : place_group sch k j st items =
        { invbubble := assign_items st.bubbles.length st.invbubble items
          bubbles := (st.bubbles ++ [[]]).set st.bubbles.length
            (Bitmap.union ((st.bubbles ++ [[]]).getD st.bubbles.length []) items)
          empty_bubbles_list := st.empty_bubbles_list } := by
      unfold place_group
      rw [if_neg he]
    rw [hpg]
    have hout : st.bubbles.getD st.bubbles.length [] = [] :=
      getD_nil_of_length_le _ _ (Nat.le_refl _)
    refine ⟨st.bubbles.length, hout, ?_, ?_, ?_, Or.inr ⟨he', rfl, he', ?_⟩⟩
    · intro x
      exact bubbleOf_assign_items _ _ _ hitems x
    · intro x
      have hl : st.bubbles.length < (st.bubbles ++ [[]]).length := by simp
      simp only [getD_set_bitmap, hl, and_self, if_true, getD_append_nil, hout, mem_union]
      constructor
      · rintro (h | h)
        · exact absurd h (List.not_mem_nil _)
        · exact h
      · exact fun h => Or.inr h
    · intro b hb
      simp only [getD_set_bitmap]
      rw [if_neg (fun hc => hb hc.1.symm), getD_append_nil]
    · simp

theorem pending_cons (g : Nat × Bitmap) (rest : List (Nat × Bitmap)) (x : Nat) :
    Pending (g :: rest) x ↔ (x ∈ g.2 ∨ Pending rest x) := by
  unfold Pending
  simp

theorem pending_nil (x : Nat) : ¬ Pending [] x := by
  unfold Pending
  simp

theorem groups_tail (inv : List Nat) (n : Nat) (S : List Nat) (g : Nat × Bitmap)
    (rest : List (Nat × Bitmap)) (h : Groups inv n S (g :: rest)) : Groups inv n S rest where
  keys := (List.pairwise_cons.1 h.keys).2
  ne g' hg' := h.ne g' (List.mem_cons_of_mem _ hg')
  mem_iff g' hg' := h.mem_iff g' (List.mem_cons_of_mem _ hg')

theorem groups_head_not_pending (inv : List Nat) (n : Nat) (S : List Nat) (g : Nat × Bitmap)
    (rest : List (Nat × Bitmap)) (h : Groups inv n S (g :: rest)) (x : Nat) (hx : x ∈ g.2) :
    ¬ Pending rest x := by
  rintro ⟨g', hg', hx'⟩
  have h1 := ((h.mem_iff g (List.mem_cons_self _ _) x).1 hx).2
  have h2 := ((h.mem_iff g' (List.mem_cons_of_mem _ hg') x).1 hx').2
  exact (List.pairwise_cons.1 h.keys).1 g' hg' (h1.symm.trans h2)

theorem placed_step (sch : Sched) (k j : Nat) (inv : List Nat) (bub : List Bitmap)
    (hI : Inv ⟨inv, bub⟩) (S : List Nat) (hS : ∀ i ∈ S, i < NONE) (g : Nat × Bitmap)
    (rest : List (Nat × Bitmap)) (hG : Groups inv bub.length S (g :: rest)) (st : Placing)
    (h : Placed inv bub S (g :: rest) st) :
    Placed inv bub S rest (place_group sch k j st g.2) := by
  have hgS : ∀ x, x ∈ g.2 ↔ (x ∈ S ∧ keyOf inv bub.length x = g.1) :=
    hG.mem_iff g (List.mem_cons_self _ _)
  have hitems : ∀ i ∈ g.2, i < NONE := fun i hi => hS i ((hgS i).1 hi).1
  obtain ⟨t, ht0, hinv, hbt, hbne, hcase⟩ :=
    place_group_spec sch k j st g.2 hitems h.empty_spec
  generalize place_group sch k j st g.2 = st' at hinv hbt hbne hcase ⊢
  have hnp := groups_head_not_pending inv bub.length S g rest hG
  have hpend : ∀ x, Pending (g :: rest) x ↔ (x ∈ g.2 ∨ Pending rest x) := pending_cons g rest
  have hroom := h.room
  have hel := h.empty_le
  simp only [List.length_cons] at hroom hel
  have hlen : st.bubbles.length ≤ st'.bubbles.length := by
    rcases hcase with ⟨_, _, h3⟩ | ⟨_, _, _, h4⟩ <;> omega
  have htlt : t < st'.bubbles.length := by
    rcases hcase with ⟨h1, _, h3⟩ | ⟨_, h2, _, h4⟩
    · have := (h.empty_spec t h1).1
      omega
    · omega
  have hIlen : bub.length ≤ NONE := hI.size_le
  have hfresh : ∀ x, ¬ Pending (g :: rest) x → bubbleOf st.invbubble x ≠ t := by
    intro x hx he
    rcases hcase with ⟨h1, _, _⟩ | ⟨h1, h2, _, _⟩
    · have hlt := (h.empty_spec t h1).1
      have := (h.mem_iff t x).2 ⟨hlt, he, hx⟩
      rw [ht0] at this
      exact absurd this (List.not_mem_nil _)
    · by_cases hxS : x ∈ S
      · have := h.done_lt x hxS hx
        omega
      · have hu := h.untouched x (Or.inl hxS)
        have hlg := h.length_ge
        have hem : st.empty_bubbles_list.length = 0 := by rw [h1]; rfl
        by_cases hn : bubbleOf inv x = NONE
        · omega
        · have := (hI.seen_lt x hn).1
          simp only [] at this
          omega
  have hitems_ne : g.2 ≠ [] := hG.ne g (List.mem_cons_self _ _)
  obtain ⟨x0, hx0⟩ := List.exists_mem_of_ne_nil _ hitems_ne
  refine
    { empty_nodup := ?_, empty_spec := ?_, empty_all := ?_, empty_le := ?_, length_ge := ?_,
      untouched := ?_, done_lt := ?_, mem_iff := ?_, room := ?_, done_same := ?_, pure := ?_ }
  · rcases hcase with ⟨_, h2, _⟩ | ⟨_, _, h3, _⟩
    · rw [h2]
      exact h.empty_nodup.erase t
    · rw [h3]
      exact List.nodup_nil
  · intro b hb
    rcases hcase with ⟨_, h2, h3⟩ | ⟨_, _, h3, _⟩
    · rw [h2] at hb
      obtain ⟨hbt', hbm⟩ := (List.Nodup.mem_erase_iff h.empty_nodup).1 hb
      obtain ⟨e1, e2⟩ := h.empty_spec b hbm
      rw [hbne b hbt', h3]
      exact ⟨e1, e2⟩
    · rw [h3] at hb
      exact absurd hb (List.not_mem_nil _)
  · intro b hb he
    have hbt' : b ≠ t := by
      rintro rfl
      have := (hbt x0).2 hx0
      rw [he] at this
      exact absurd this (List.not_mem_nil _)
    rw [hbne b hbt'] at he
    rcases hcase with ⟨_, h2, h3⟩ | ⟨h1, h2, _, h4⟩
    · rw [h2]
      exact (List.Nodup.mem_erase_iff h.empty_nodup).2 ⟨hbt', h.empty_all b (by omega) he⟩
    · have := h.empty_all b (by omega) he
      rw [h1] at this
      exact absurd this (List.not_mem_nil _)
  · rcases hcase with ⟨h1, h2, _⟩ | ⟨_, _, h3, _⟩
    · rw [h2, List.length_erase_of_mem h1]
      omega
    · rw [h3]
      exact Nat.zero_le _
  · have := h.length_ge
    omega
  · intro x hx
    have hxg : x ∉ g.2 := by
      intro hxg
      rcases hx with hx | hx
      · exact hx ((hgS x).1 hxg).1
      · exact hnp x hxg hx
    rw [hinv x, if_neg hxg]
    apply h.untouched
    rcases hx with hx | hx
    · exact Or.inl hx
    · exact Or.inr ((hpend x).2 (Or.inr hx))
  · intro x hxS hx
    rw [hinv x]
    by_cases hxg : x ∈ g.2
    · rw [if_pos hxg]
      exact htlt
    · rw [if_neg hxg]
      have := h.done_lt x hxS (fun hp => ((hpend x).1 hp).elim hxg hx)
      omega
  · intro b x
    by_cases hbt' : b = t
    · subst hbt'
      rw [hbt x, hinv x]
      constructor
      · intro hxg
        rw [if_pos hxg]
        exact ⟨htlt, rfl, hnp x hxg⟩
      · rintro ⟨_, h2, h3⟩
        by_contra hxg
        rw [if_neg hxg] at h2
        exact hfresh x (fun hp => ((hpend x).1 hp).elim hxg h3) h2
    · rw [hbne b hbt', h.mem_iff b x, hinv x]
      constructor
      · rintro ⟨h1, h2, h3⟩
        have hxg : x ∉ g.2 := fun hxg => h3 ((hpend x).2 (Or.inl hxg))
        rw [if_neg hxg]
        exact ⟨by omega, h2, fun hp => h3 ((hpend x).2 (Or.inr hp))⟩
      · rintro ⟨h1, h2, h3⟩
        by_cases hxg : x ∈ g.2
        · rw [if_pos hxg] at h2
          exact absurd h2.symm hbt'
        · rw [if_neg hxg] at h2
          refine ⟨?_, h2, fun hp => ((hpend x).1 hp).elim hxg h3⟩
          rcases hcase with ⟨_, _, h3'⟩ | ⟨_, h2', _, h4⟩
          · omega
          · omega
  · rcases hcase with ⟨h1, h2, h3⟩ | ⟨h1, _, h3, h4⟩
    · rw [h2, List.length_erase_of_mem h1, h3]
      have : 0 < st.empty_bubbles_list.length := List.length_pos_of_mem h1
      omega
    · have hem : st.empty_bubbles_list.length = 0 := by rw [h1]; rfl
      rw [h3, h4]
      simp only [List.length_nil]
      omega
  · intro x y hxS hx hyS hy
    rw [hinv x, hinv y]
    by_cases hxg : x ∈ g.2
    · by_cases hyg : y ∈ g.2
      · rw [if_pos hxg, if_pos hyg, ((hgS x).1 hxg).2, ((hgS y).1 hyg).2]
        exact ⟨fun _ => rfl, fun _ => rfl⟩
      · rw [if_pos hxg, if_neg hyg, ((hgS x).1 hxg).2]
        have hy' : ¬ Pending (g :: rest) y := fun hp => ((hpend y).1 hp).elim hyg hy
        constructor
        · intro e
          exact absurd e.symm (hfresh y hy')
        · intro e
          exact absurd ((hgS y).2 ⟨hyS, e.symm⟩) hyg
    · by_cases hyg : y ∈ g.2
      · rw [if_neg hxg, if_pos hyg, ((hgS y).1 hyg).2]
        have hx' : ¬ Pending (g :: rest) x := fun hp => ((hpend x).1 hp).elim hxg hx
        constructor
        · intro e
          exact absurd e (hfresh x hx')
        · intro e
          exact absurd ((hgS x).2 ⟨hxS, e⟩) hxg
      · rw [if_neg hxg, if_neg hyg]
        exact h.done_same x y hxS (fun hp => ((hpend x).1 hp).elim hxg hx) hyS
          (fun hp => ((hpend y).1 hp).elim hyg hy)
  · intro b x y hx hy
    by_cases hbt' : b = t
    · subst hbt'
      have hx' := ((hgS x).1 ((hbt x).1 hx)).1
      have hy' := ((hgS y).1 ((hbt y).1 hy)).1
      exact ⟨fun _ => hy', fun _ => hx'⟩
    · rw [hbne b hbt'] at hx hy
      exact h.pure b x y hx hy

theorem placed_all (sch : Sched) (k : Nat) (inv : List Nat) (bub : List Bitmap)
    (hI : Inv ⟨inv, bub⟩) (S : List Nat) (hS : ∀ i ∈ S, i < NONE)
    (todo : List (Nat × Bitmap)) (j : Nat) (hG : Groups inv bub.length S todo) (st : Placing)
    (h : Placed inv bub S todo st) :
    Placed inv bub S [] (place_all sch k j todo st) := by
  induction todo generalizing j st with
  | nil => exact h
  | cons g rest ih =>
    unfold place_all
    exact ih (j + 1) (groups_tail inv bub.length S g rest hG) _
      (placed_step sch k j inv bub hI S hS g rest hG st h)

theorem keys_unique (ns : List (Nat × Bitmap)) (h : (ns.map Prod.fst).Nodup)
    (g g' : Nat × Bitmap) (hg : g ∈ ns) (hg' : g' ∈ ns) (e : g.1 = g'.1) : g = g' := by
  have hp : ns.Pairwise (fun a b => a.1 ≠ b.1) := List.pairwise_map.1 h
  by_contra hne
  exact List.Pairwise.forall (fun a b hab => Ne.symm hab) hp hg hg' hne e

theorem groups_of_staged (inv : List Nat) (bub : List Bitmap) (S : List Nat) (st1 : Staging)
    (h : Staged inv bub S st1) (gs : List (Nat × Bitmap)) (hp : gs.Perm st1.new_spaces) :
    Groups inv bub.length S gs where
  keys := by
    have h1 : st1.new_spaces.Pairwise (fun a b => a.1 ≠ b.1) := List.pairwise_map.1 h.keys_nodup
    exact (List.Perm.pairwise_iff (fun {_ _} hab => Ne.symm hab) hp).2 h1
  ne g hg := h.group_ne g (hp.subset hg)
  mem_iff g hg x := by
    have hg' := hp.subset hg
    constructor
    · intro hx
      exact (h.group_iff g.1 x).1 ⟨g.2, hg', hx⟩
    · intro hx
      obtain ⟨items, hm, hxi⟩ := (h.group_iff g.1 x).2 hx
      have := keys_unique _ h.keys_nodup (g.1, items) g hm hg' rfl
      rw [← this]
      exact hxi

theorem pending_iff_mem (inv : List Nat) (bub : List Bitmap) (S : List Nat) (st1 : Staging)
    (h : Staged inv bub S st1) (gs : List (Nat × Bitmap)) (hp : gs.Perm st1.new_spaces)
    (x : Nat) : Pending gs x ↔ x ∈ S := by
  constructor
  · rintro ⟨g, hg, hx⟩
    exact ((h.group_iff g.1 x).1 ⟨g.2, hp.subset hg, hx⟩).1
  · intro hx
    obtain ⟨items, hm, hxi⟩ := (h.group_iff _ x).2 ⟨hx, rfl⟩
    exact ⟨_, hp.symm.subset hm, hxi⟩

theorem headD_mem (l : List Nat) (h : l ≠ []) : l.headD 0 ∈ l := by
  cases l with
  | nil => exact absurd rfl h
  | cons a t => simp

theorem length_le_of_nodup_lt (l : List Nat) (N : Nat) (hn : l.Nodup) (hl : ∀ x ∈ l, x < N) :
    l.length ≤ N := by
  have hsub : l ⊆ List.range N := fun x hx => List.mem_range.2 (hl x hx)
  have := (List.subperm_of_subset hn hsub).length_le
  simpa using this

/-- The counting argument behind the absence of a collision with the marker:
the non-empty bubbles left by the first loop and the staged groups are
pairwise disjoint non-empty sets of elements below the marker. -/
theorem staged_room (inv : List Nat) (bub : List Bitmap) (hI : Inv ⟨inv, bub⟩) (S : List Nat)
    (hS : ∀ i ∈ S, i < NONE) (st1 : Staging) (h : Staged inv bub S st1) :
    bub.length + st1.new_spaces.length ≤ NONE + st1.empty_bubbles_list.length := by
  let p : Nat → Bool := fun b => !(List.isEmpty (st1.bubbles.getD b []))
  let l1 := (List.range bub.length).filter p
  let l2 := (List.range bub.length).filter (fun b => !p b)
  let reps1 := l1.map (fun b => (st1.bubbles.getD b []).headD 0)
  let reps2 := st1.new_spaces.map (fun g => g.2.headD 0)
  have hp_ne : ∀ b, p b = true → st1.bubbles.getD b [] ≠ [] := by
    intro b hb he
    simp only [p, he, List.isEmpty_nil, Bool.not_true] at hb
    exact Bool.noConfusion hb
  have hl1 : ∀ b ∈ l1, st1.bubbles.getD b [] ≠ [] := by
    intro b hb
    exact hp_ne b (List.mem_filter.1 hb).2
  have hrep1 : ∀ b ∈ l1, (st1.bubbles.getD b []).headD 0 ∈ bub.getD b [] ∧
      (st1.bubbles.getD b []).headD 0 ∉ S := by
    intro b hb
    exact (h.mem_iff b _).1 (headD_mem _ (hl1 b hb))
  have hrep2 : ∀ g ∈ st1.new_spaces, g.2.headD 0 ∈ S ∧
      keyOf inv bub.length (g.2.headD 0) = g.1 := by
    intro g hg
    exact (h.group_iff g.1 _).1 ⟨g.2, hg, headD_mem _ (h.group_ne g hg)⟩
  have hnd1 : reps1.Nodup := by
    refine List.Nodup.map_on ?_ ((List.nodup_range _).filter _)
    intro b hb b' hb' e
    have e1 := ((hI.mem_iff b _).1 (hrep1 b hb).1).1
    have e2 := ((hI.mem_iff b' _).1 (hrep1 b' hb').1).1
    simp only [] at e1 e2
    rw [e] at e1
    exact e1.symm.trans e2
  have hnd2 : reps2.Nodup := by
    refine List.Nodup.map_on ?_ (List.Nodup.of_map _ h.keys_nodup)
    intro g hg g' hg' e
    have e1 := (hrep2 g hg).2
    have e2 := (hrep2 g' hg').2
    rw [e] at e1
    exact keys_unique _ h.keys_nodup g g' hg hg' (e1.symm.trans e2)
  have hnd : (reps1 ++ reps2).Nodup := by
    refine List.nodup_append.2 ⟨hnd1, hnd2, ?_⟩
    intro x hx1 hx2
    obtain ⟨b, hb, rfl⟩ := List.mem_map.1 hx1
    obtain ⟨g, hg, e⟩ := List.mem_map.1 hx2
    have := (hrep2 g hg).1
    rw [e] at this
    exact (hrep1 b hb).2 this
  have hlt : ∀ x ∈ reps1 ++ reps2, x < NONE := by
    intro x hx
    rcases List.mem_append.1 hx with hx | hx
    · obtain ⟨b, hb, rfl⟩ := List.mem_map.1 hx
      have e1 := (hI.mem_iff b _).1 (hrep1 b hb).1
      have hle := hI.size_le
      simp only [] at e1 hle
      refine (hI.seen_lt _ ?_).2
      simp only []
      omega
    · obtain ⟨g, hg, rfl⟩ := List.mem_map.1 hx
      exact hS _ (hrep2 g hg).1
  have hcount := length_le_of_nodup_lt _ NONE hnd hlt
  have hsplit : l1.length + l2.length = bub.length := by
    have := (List.filter_append_perm p (List.range bub.length)).length_eq
    simpa using this
  have hl2 : l2.length ≤ st1.empty_bubbles_list.length := by
    have hnd2' : l2.Nodup := (List.nodup_range _).filter _
    have hsub : l2 ⊆ st1.empty_bubbles_list := by
      intro b hb
      obtain ⟨hb1, hb2⟩ := List.mem_filter.1 hb
      apply h.empty_all b (List.mem_range.1 hb1)
      simp only [p, Bool.not_not] at hb2
      exact List.isEmpty_iff.1 hb2
    exact (List.subperm_of_subset hnd2' hsub).length_le
  have hlen : (reps1 ++ reps2).length = l1.length + st1.new_spaces.length := by
    simp [reps1, reps2]
  omega

theorem placed_init (inv : List Nat) (bub : List Bitmap) (hI : Inv ⟨inv, bub⟩) (S : List Nat)
    (hS : ∀ i ∈ S, i < NONE) (st1 : Staging) (h : Staged inv bub S st1)
    (gs : List (Nat × Bitmap)) (hp : gs.Perm st1.new_spaces) :
    Placed inv bub S gs ⟨inv, st1.bubbles, st1.empty_bubbles_list⟩ where
  empty_nodup := h.empty_nodup
  empty_spec b hb := by
    obtain ⟨h1, h2, _⟩ := h.empty_spec b hb
    exact ⟨by simp only [h.length_eq]; exact h1, h2⟩
  empty_all b hb he := h.empty_all b (by simpa only [h.length_eq] using hb) he
  empty_le := by
    have hsub : st1.empty_bubbles_list ⊆ st1.new_spaces.map Prod.fst :=
      fun b hb => (h.empty_spec b hb).2.2
    have := (List.subperm_of_subset h.empty_nodup hsub).length_le
    simp only [List.length_map] at this
    rw [hp.length_eq]
    exact this
  length_ge := by simp only [h.length_eq]; exact Nat.le_refl _
  untouched x _ := rfl
  done_lt x hx hnp := absurd ((pending_iff_mem inv bub S st1 h gs hp x).2 hx) hnp
  mem_iff b x := by
    simp only [h.mem_iff, hI.mem_iff b x, h.length_eq, pending_iff_mem inv bub S st1 h gs hp x]
    tauto
  room := by
    have := staged_room inv bub hI S hS st1 h
    simp only [h.length_eq, hp.length_eq]
    exact this
  done_same x y hx hnp := absurd ((pending_iff_mem inv bub S st1 h gs hp x).2 hx) hnp
  pure b x y hx hy := by
    have h1 := ((h.mem_iff b x).1 hx).2
    have h2 := ((h.mem_iff b y).1 hy).2
    exact ⟨fun e => absurd e h1, fun e => absurd e h2⟩

/-- The variables of the second inner loop when the body of the outer loop
ends, related to the state before the body. -/
theorem refine_set_placed (sch : Sched) (k : Nat) (st : State) (hI : Inv st) (S : List Nat)
    (hS : ∀ i ∈ S, i < NONE) :
    ∃ em, Placed st.invbubble st.bubbles S []
      ⟨(refine_set sch k st S).invbubble, (refine_set sch k st S).bubbles, em⟩ := by
  have hst := staged_all st.invbubble st.bubbles hI S
  have hperm := sch.order_perm k (S.foldl (stage_item st.invbubble) ⟨st.bubbles, [], []⟩).new_spaces
  have hG := groups_of_staged _ _ S _ hst _ hperm
  have hP := placed_init _ _ hI S hS _ hst _ hperm
  have hfin := placed_all sch k _ _ hI S hS _ 0 hG _ hP
  exact ⟨_, hfin⟩

theorem inv_init : Inv State.init where
  nonempty b hb := absurd hb (Nat.not_lt_zero _)
  mem_iff b x := by
    constructor
    · intro h
      exact absurd h (List.not_mem_nil _)
    · intro h
      exact absurd h.2 (Nat.not_lt_zero _)
  size_le := Nat.zero_le _
  seen_lt x h := absurd rfl h

theorem sig_init : Sig [] State.init where
  seen_iff x := by
    constructor
    · intro h
      exact absurd rfl h
    · rintro ⟨s, hs, _⟩
      exact absurd hs (List.not_mem_nil _)
  same_iff x y hx := by
    obtain ⟨s, hs, _⟩ := hx
    exact absurd hs (List.not_mem_nil _)

theorem seen_append (P : List Bitmap) (S : Bitmap) (x : Nat) :
    Seen (P ++ [S]) x ↔ (Seen P x ∨ x ∈ S) := by
  unfold Seen
  constructor
  · rintro ⟨s, hs, hx⟩
    rcases List.mem_append.1 hs with h | h
    · exact Or.inl ⟨s, h, hx⟩
    · rw [List.mem_singleton.1 h] at hx
      exact Or.inr hx
  · rintro (⟨s, hs, hx⟩ | hx)
    · exact ⟨s, List.mem_append_left _ hs, hx⟩
    · exact ⟨S, List.mem_append_right _ (List.mem_singleton_self _), hx⟩

theorem sameSig_append (P : List Bitmap) (S : Bitmap) (x y : Nat) :
    SameSig (P ++ [S]) x y ↔ (SameSig P x y ∧ (x ∈ S ↔ y ∈ S)) := by
  unfold SameSig
  constructor
  · intro h
    exact ⟨fun s hs => h s (List.mem_append_left _ hs),
      h S (List.mem_append_right _ (List.mem_singleton_self _))⟩
  · rintro ⟨h1, h2⟩ s hs
    rcases List.mem_append.1 hs with h | h
    · exact h1 s h
    · rw [List.mem_singleton.1 h]
      exact h2

/-- Two elements are staged under the same key exactly when they have the same
membership signature over the sets processed before. -/
theorem keyOf_eq_iff (P : List Bitmap) (st : State) (hI : Inv st) (hσ : Sig P st) (x y : Nat) :
    keyOf st.invbubble st.bubbles.length x = keyOf st.invbubble st.bubbles.length y ↔
      SameSig P x y := by
  by_cases hx : bubbleOf st.invbubble x ≠ NONE
  · by_cases hy : bubbleOf st.invbubble y ≠ NONE
    · rw [keyOf_seen _ _ x hx, keyOf_seen _ _ y hy]
      exact hσ.same_iff x y ((hσ.seen_iff x).1 hx) ((hσ.seen_iff y).1 hy)
    · rw [keyOf_seen _ _ x hx, keyOf_unseen _ _ y (not_not.1 hy)]
      have h1 := (hI.seen_lt x hx).1
      constructor
      · intro e
        omega
      · intro hs
        obtain ⟨s, hs1, hs2⟩ := (hσ.seen_iff x).1 hx
        exact absurd ((hσ.seen_iff y).2 ⟨s, hs1, (hs s hs1).1 hs2⟩) hy
  · by_cases hy : bubbleOf st.invbubble y ≠ NONE
    · rw [keyOf_unseen _ _ x (not_not.1 hx), keyOf_seen _ _ y hy]
      have h1 := (hI.seen_lt y hy).1
      constructor
      · intro e
        omega
      · intro hs
        obtain ⟨s, hs1, hs2⟩ := (hσ.seen_iff y).1 hy
        exact absurd ((hσ.seen_iff x).2 ⟨s, hs1, (hs s hs1).2 hs2⟩) hx
    · rw [keyOf_unseen _ _ x (not_not.1 hx), keyOf_unseen _ _ y (not_not.1 hy)]
      constructor
      · intro _ s hs
        constructor
        · intro h
          exact absurd ((hσ.seen_iff x).2 ⟨s, hs, h⟩) hx
        · intro h
          exact absurd ((hσ.seen_iff y).2 ⟨s, hs, h⟩) hy
      · exact fun _ => rfl

theorem refine_set_inv (sch : Sched) (k : Nat) (st : State) (hI : Inv st) (S : List Nat)
    (hS : ∀ i ∈ S, i < NONE) : Inv (refine_set sch k st S) := by
  obtain ⟨em, hP⟩ := refine_set_placed sch k st hI S hS
  have hem : em = [] := List.length_eq_zero.1 (Nat.le_zero.1 hP.empty_le)
  subst hem
  refine { nonempty := ?_, mem_iff := ?_, size_le := ?_, seen_lt := ?_ }
  · intro b hb he
    exact absurd (hP.empty_all b hb he) (List.not_mem_nil _)
  · intro b x
    rw [hP.mem_iff b x]
    constructor
    · rintro ⟨h1, h2, _⟩
      exact ⟨h2, h1⟩
    · rintro ⟨h1, h2⟩
      exact ⟨h2, h1, pending_nil x⟩
  · have := hP.room
    simpa using this
  · intro x hx
    by_cases hxS : x ∈ S
    · exact ⟨hP.done_lt x hxS (pending_nil x), hS x hxS⟩
    · have hu := hP.untouched x (Or.inl hxS)
      simp only [] at hu
      rw [hu] at hx ⊢
      have := hI.seen_lt x hx
      have hg := hP.length_ge
      simp only [] at hg
      exact ⟨by omega, this.2⟩

theorem refine_set_sig (sch : Sched) (k : Nat) (P : List Bitmap) (st : State) (hI : Inv st)
    (hσ : Sig P st) (S : List Nat) (hS : ∀ i ∈ S, i < NONE) :
    Sig (P ++ [S]) (refine_set sch k st S) := by
  have hI' := refine_set_inv sch k st hI S hS
  obtain ⟨em, hP⟩ := refine_set_placed sch k st hI S hS
  have hin : ∀ x, x ∈ S → bubbleOf (refine_set sch k st S).invbubble x ≠ NONE := by
    intro x hx
    have h1 := hP.done_lt x hx (pending_nil x)
    have h2 := hI'.size_le
    simp only [] at h1
    omega
  have hout : ∀ x, x ∉ S →
      bubbleOf (refine_set sch k st S).invbubble x = bubbleOf st.invbubble x :=
    fun x hx => hP.untouched x (Or.inl hx)
  refine { seen_iff := ?_, same_iff := ?_ }
  · intro x
    rw [seen_append]
    by_cases hxS : x ∈ S
    · exact ⟨fun _ => Or.inr hxS, fun _ => hin x hxS⟩
    · rw [hout x hxS, hσ.seen_iff x]
      exact ⟨fun h => Or.inl h, fun h => h.elim id (fun h' => absurd h' hxS)⟩
  · intro x y hx hy
    rw [sameSig_append]
    by_cases hxS : x ∈ S
    · by_cases hyS : y ∈ S
      · have := hP.done_same x y hxS (pending_nil x) hyS (pending_nil y)
        simp only [] at this
        rw [this, keyOf_eq_iff P st hI hσ x y]
        exact ⟨fun h => ⟨h, fun _ => hyS, fun _ => hxS⟩, fun h => h.1⟩
      · constructor
        · intro e
          exfalso
          have hx' := (hI'.mem_iff _ x).2 ⟨rfl, (hI'.seen_lt x (hin x hxS)).1⟩
          have hyn : bubbleOf (refine_set sch k st S).invbubble y ≠ NONE := by
            rw [← e]
            exact hin x hxS
          have hy' := (hI'.mem_iff _ y).2 ⟨rfl, (hI'.seen_lt y hyn).1⟩
          rw [← e] at hy'
          exact hyS ((hP.pure _ x y hx' hy').1 hxS)
        · rintro ⟨_, h2⟩
          exact absurd (h2.1 hxS) hyS
    · by_cases hyS : y ∈ S
      · constructor
        · intro e
          exfalso
          have hy' := (hI'.mem_iff _ y).2 ⟨rfl, (hI'.seen_lt y (hin y hyS)).1⟩
          have hxn : bubbleOf (refine_set sch k st S).invbubble x ≠ NONE := by
            rw [e]
            exact hin y hyS
          have hx' := (hI'.mem_iff _ x).2 ⟨rfl, (hI'.seen_lt x hxn).1⟩
          rw [e] at hx'
          exact hxS ((hP.pure _ x y hx' hy').2 hyS)
        · rintro ⟨_, h2⟩
          exact absurd (h2.2 hyS) hxS
      · rw [hout x hxS, hout y hyS]
        have hx' : Seen P x := ((seen_append P S x).1 hx).elim id (fun h => absurd h hxS)
        have hy' : Seen P y := ((seen_append P S y).1 hy).elim id (fun h => absurd h hyS)
        rw [hσ.same_iff x y hx' hy']
        exact ⟨fun h => ⟨h, fun h' => absurd h' hxS, fun h' => absurd h' hyS⟩, fun h => h.1⟩

theorem compact_rules_from_spec (sch : Sched) (L : List Bitmap) (k : Nat) (P : List Bitmap)
    (st : State) (hI : Inv st) (hσ : Sig P st) (hL : Bounded L) :
    Inv (compact_rules_from sch k L st) ∧ Sig (P ++ L) (compact_rules_from sch k L st) := by
  induction L generalizing k P st with
  | nil =>
    simp only [compact_rules_from, List.append_nil]
    exact ⟨hI, hσ⟩
  | cons S rest ih =>
    have hS : ∀ i ∈ S, i < NONE := hL S (List.mem_cons_self _ _)
    have hrest : Bounded rest := fun s hs => hL s (List.mem_cons_of_mem _ hs)
    have := ih (k + 1) (P ++ [S]) (refine_set sch k st S) (refine_set_inv sch k st hI S hS)
      (refine_set_sig sch k P st hI hσ S hS) hrest
    simpa [compact_rules_from] using this

theorem compact_rules_spec (sch : Sched) (L : List Bitmap) (hL : Bounded L) :
    Inv (compact_rules sch L State.init) ∧ Sig L (compact_rules sch L State.init) := by
  have := compact_rules_from_spec sch L 0 [] State.init inv_init sig_init hL
  simpa [compact_rules] using this

theorem lt_length_of_bubbleOf_ne (inv : List Nat) (x : Nat) (h : bubbleOf inv x ≠ NONE) :
    x < inv.length := by
  by_contra hlt
  exact h (getD_of_length_le inv x (Nat.le_of_not_lt hlt))

/-- C1: starting from empty `invbubble` and `bubbles`, after `compact_rules` has
processed a list of observation sets (whose elements are `size_t` values other
than the marker), two elements `x` and `y` that each occur in at least one set
have entries in `invbubble`, and `invbubble[x] = invbubble[y]` if and only if
every set of the list contains both or neither. This holds for every
iteration order of the staged groups and of the emptied bubbles. -/
theorem compact_rules_refinement (sch : Sched) (L : List Bitmap)
    (hL : ∀ s ∈ L, ∀ i ∈ s, i < NONE) (x y : Nat)
    (hx : ∃ s ∈ L, x ∈ s) (hy : ∃ s ∈ L, y ∈ s) :
    x < (compact_rules sch L State.init).invbubble.length ∧
    y < (compact_rules sch L State.init).invbubble.length ∧
    ((compact_rules sch L State.init).invbubble.getD x NONE =
        (compact_rules sch L State.init).invbubble.getD y NONE ↔
      ∀ s ∈ L, (x ∈ s ↔ y ∈ s)) := by
  obtain ⟨_, hσ⟩ := compact_rules_spec sch L hL
  exact ⟨lt_length_of_bubbleOf_ne _ x ((hσ.seen_iff x).2 hx),
    lt_length_of_bubbleOf_ne _ y ((hσ.seen_iff y).2 hy), hσ.same_iff x y hx hy⟩

/-- Witness for C1: the sets `{0,1,2}`, `{1,2}`, `{2,3}` yield exactly the
bubbles `{0}`, `{1}`, `{2}`, `{3}`; the elements 1 and 2 are separated. -/
theorem compact_rules_refinement_witness :
    (compact_rules fifo [[0, 1, 2], [1, 2], [2, 3]] State.init).bubbles =
      [[0], [1], [2], [3]] ∧
    (1 < (compact_rules fifo [[0, 1, 2], [1, 2], [2, 3]] State.init).invbubble.length ∧
     2 < (compact_rules fifo [[0, 1, 2], [1, 2], [2, 3]] State.init).invbubble.length ∧
     ((compact_rules fifo [[0, 1, 2], [1, 2], [2, 3]] State.init).invbubble.getD 1 NONE =
        (compact_rules fifo [[0, 1, 2], [1, 2], [2, 3]] State.init).invbubble.getD 2 NONE ↔
      ∀ s ∈ [[0, 1, 2], [1, 2], [2, 3]], ((1 : Nat) ∈ s ↔ (2 : Nat) ∈ s))) :=
  ⟨by decide,
   compact_rules_refinement fifo [[0, 1, 2], [1, 2], [2, 3]] (by decide) 1 2
     (by decide) (by decide)⟩

/-- C2: starting from empty `invbubble` and `bubbles`, after `compact_rules` has
processed a list of observation sets (whose elements are `size_t` values other
than the marker): every element that occurred in some set belongs to exactly
one bubble, bubbles with distinct ids are disjoint, no bubble contains an
element that never occurred, and for every seen element `i` and bubble id `b`,
`invbubble[i] = b` if and only if `i` is a member of `bubbles[b]`. -/
theorem compact_rules_partition (sch : Sched) (L : List Bitmap)
    (hL : ∀ s ∈ L, ∀ i ∈ s, i < NONE) :
    (∀ x, (∃ s ∈ L, x ∈ s) →
      ∃! b, b < (compact_rules sch L State.init).bubbles.length ∧
        x ∈ (compact_rules sch L State.init).bubbles.getD b []) ∧
    (∀ b1 b2 x, x ∈ (compact_rules sch L State.init).bubbles.getD b1 [] →
      x ∈ (compact_rules sch L State.init).bubbles.getD b2 [] → b1 = b2) ∧
    (∀ b x, x ∈ (compact_rules sch L State.init).bubbles.getD b [] → ∃ s ∈ L, x ∈ s) ∧
    (∀ i, (∃ s ∈ L, i ∈ s) →
      i < (compact_rules sch L State.init).invbubble.length ∧
      ∀ b, ((compact_rules sch L State.init).invbubble.getD i NONE = b ↔
        i ∈ (compact_rules sch L State.init).bubbles.getD b [])) := by
  obtain ⟨hI, hσ⟩ := compact_rules_spec sch L hL
  generalize compact_rules sch L State.init = st at hI hσ
  have hsize := hI.size_le
  refine ⟨?_, ?_, ?_, ?_⟩
  · intro x hx
    have hs := (hσ.seen_iff x).2 hx
    have hlt := (hI.seen_lt x hs).1
    refine ⟨bubbleOf st.invbubble x, ⟨hlt, (hI.mem_iff _ x).2 ⟨rfl, hlt⟩⟩, ?_⟩
    rintro b ⟨_, hb⟩
    exact ((hI.mem_iff b x).1 hb).1.symm
  · intro b1 b2 x h1 h2
    exact ((hI.mem_iff b1 x).1 h1).1.symm.trans ((hI.mem_iff b2 x).1 h2).1
  · intro b x hb
    obtain ⟨h1, h2⟩ := (hI.mem_iff b x).1 hb
    apply (hσ.seen_iff x).1
    omega
  · intro i hi
    have hs := (hσ.seen_iff i).2 hi
    refine ⟨lt_length_of_bubbleOf_ne _ i hs, ?_⟩
    intro b
    constructor
    · intro e
      have hlt := (hI.seen_lt i hs).1
      exact (hI.mem_iff b i).2 ⟨e, by rw [← e]; exact hlt⟩
    · intro hb
      exact ((hI.mem_iff b i).1 hb).1

/-- Witness for C2: the element 2 of the sets `{0,1,2}`, `{1,2}`, `{2,3}`. -/
theorem compact_rules_partition_witness :
    ∃! b, b < (compact_rules fifo [[0, 1, 2], [1, 2], [2, 3]] State.init).bubbles.length ∧
      2 ∈ (compact_rules fifo [[0, 1, 2], [1, 2], [2, 3]] State.init).bubbles.getD b [] :=
  (compact_rules_partition fifo [[0, 1, 2], [1, 2], [2, 3]] (by decide)).1 2 (by decide)

theorem compact_set_spec (inv : List Nat) (s : List Nat) (acc : Bitmap)
    (h : ∀ i ∈ s, i < inv.length) :
    ∃ c, compact_set inv s acc = some c ∧
      ∀ b, b ∈ c ↔ (b ∈ acc ∨ ∃ i ∈ s, bubbleOf inv i = b) := by
  induction s generalizing acc with
  | nil => exact ⟨acc, rfl, by simp⟩
  | cons i rest ih =>
    have hi := h i (List.mem_cons_self _ _)
    obtain ⟨c, hc, hmem⟩ := ih (Bitmap.add acc (inv.getD i NONE))
      (fun j hj => h j (List.mem_cons_of_mem _ hj))
    refine ⟨c, ?_, ?_⟩
    · unfold compact_set
      rw [if_pos hi]
      exact hc
    · intro b
      rw [hmem b, mem_add]
      unfold bubbleOf
      constructor
      · rintro ((h1 | h1) | ⟨j, hj, hb⟩)
        · exact Or.inr ⟨i, List.mem_cons_self _ _, h1.symm⟩
        · exact Or.inl h1
        · exact Or.inr ⟨j, List.mem_cons_of_mem _ hj, hb⟩
      · rintro (h1 | ⟨j, hj, hb⟩)
        · exact Or.inl (Or.inr h1)
        · rcases List.mem_cons.1 hj with rfl | hj
          · exact Or.inl (Or.inl hb.symm)
          · exact Or.inr ⟨j, hj, hb⟩

theorem compact_spec (inv : List Nat) (L : List Bitmap)
    (h : ∀ s ∈ L, ∀ i ∈ s, i < inv.length) :
    ∃ cl, compact inv L = some cl ∧
      List.Forall₂ (fun s c => ∀ b, b ∈ c ↔ ∃ i ∈ s, bubbleOf inv i = b) L cl := by
  induction L with
  | nil => exact ⟨[], rfl, List.Forall₂.nil⟩
  | cons s rest ih =>
    obtain ⟨c, hc, hmem⟩ := compact_set_spec inv s [] (h s (List.mem_cons_self _ _))
    obtain ⟨cl, hcl, hall⟩ := ih (fun t ht => h t (List.mem_cons_of_mem _ ht))
    refine ⟨c :: cl, ?_, List.Forall₂.cons ?_ hall⟩
    · unfold compact
      rw [hc]
      simp only [hcl, Option.map_some']
    · intro b
      rw [hmem b]
      constructor
      · rintro (h1 | h1)
        · exact absurd h1 (List.not_mem_nil _)
        · exact h1
      · exact fun h1 => Or.inr h1

theorem forall₂_getD {R : Bitmap → Bitmap → Prop} (l1 l2 : List Bitmap)
    (h : List.Forall₂ R l1 l2) : ∀ k, k < l1.length → R (l1.getD k []) (l2.getD k []) := by
  induction h with
  | nil => exact fun k hk => absurd hk (Nat.not_lt_zero _)
  | cons hab _ ih =>
    intro k hk
    cases k with
    | zero => simpa using hab
    | succ k =>
      have := ih k (by simpa using hk)
      simpa using this

/-- C3: if `compact_rules` is run on a list `L` from the empty state and
`compact` is then run on `L` with the resulting `invbubble`, then `compact`
succeeds and, for every index `k`, the union of `bubbles[b]` over the bubble
ids `b` of the compacted set number `k` has exactly the elements of the
original set `L[k]`. -/
theorem compact_round_trip (sch : Sched) (L : List Bitmap)
    (hL : ∀ s ∈ L, ∀ i ∈ s, i < NONE) :
    ∃ cl, compact (compact_rules sch L State.init).invbubble L = some cl ∧
      cl.length = L.length ∧
      ∀ k, k < L.length → ∀ x,
        ((∃ b ∈ cl.getD k [], x ∈ (compact_rules sch L State.init).bubbles.getD b []) ↔
          x ∈ L.getD k []) := by
  obtain ⟨hI, hσ⟩ := compact_rules_spec sch L hL
  generalize compact_rules sch L State.init = st at hI hσ
  have hdom : ∀ s ∈ L, ∀ i ∈ s, i < st.invbubble.length :=
    fun s hs i hi => lt_length_of_bubbleOf_ne _ i ((hσ.seen_iff i).2 ⟨s, hs, hi⟩)
  obtain ⟨cl, hcl, hall⟩ := compact_spec st.invbubble L hdom
  refine ⟨cl, hcl, hall.length_eq.symm, ?_⟩
  intro k hk x
  have hR := forall₂_getD L cl hall k hk
  have hsL : L.getD k [] ∈ L := by
    rw [List.getD_eq_getElem _ _ hk]
    exact List.getElem_mem hk
  constructor
  · rintro ⟨b, hb, hx⟩
    obtain ⟨i, hi, hbi⟩ := (hR b).1 hb
    obtain ⟨e1, e2⟩ := (hI.mem_iff b x).1 hx
    have hsize := hI.size_le
    have hxs : Seen L x := (hσ.seen_iff x).1 (by omega)
    have his : Seen L i := ⟨_, hsL, hi⟩
    have := (hσ.same_iff x i hxs his).1 (e1.trans hbi.symm)
    exact (this _ hsL).2 hi
  · intro hx
    have hxs : Seen L x := ⟨_, hsL, hx⟩
    have hne := (hσ.seen_iff x).2 hxs
    exact ⟨bubbleOf st.invbubble x, (hR _).2 ⟨x, hx, rfl⟩,
      (hI.mem_iff _ x).2 ⟨rfl, (hI.seen_lt x hne).1⟩⟩

/-- Witness for C3: the sets `{0,1,2}`, `{1,2}`, `{2,3}`. -/
theorem compact_round_trip_witness :
    ∃ cl, compact (compact_rules fifo [[0, 1, 2], [1, 2], [2, 3]] State.init).invbubble
        [[0, 1, 2], [1, 2], [2, 3]] = some cl ∧
      cl.length = [[0, 1, 2], [1, 2], [2, 3]].length ∧
      ∀ k, k < [[0, 1, 2], [1, 2], [2, 3]].length → ∀ x,
        ((∃ b ∈ cl.getD k [],
            x ∈ (compact_rules fifo [[0, 1, 2], [1, 2], [2, 3]] State.init).bubbles.getD b []) ↔
          x ∈ [[0, 1, 2], [1, 2], [2, 3]].getD k []) :=
  compact_round_trip fifo [[0, 1, 2], [1, 2], [2, 3]] (by decide)

theorem forall₂_left {R : Bitmap → Bitmap → Prop} (l1 l2 : List Bitmap)
    (h : List.Forall₂ R l1 l2) : ∀ a ∈ l1, ∃ b ∈ l2, R a b := by
  induction h with
  | nil => exact fun a ha => absurd ha (List.not_mem_nil _)
  | cons hab _ ih =>
    intro a ha
    rcases List.mem_cons.1 ha with rfl | ha
    · exact ⟨_, List.mem_cons_self _ _, hab⟩
    · obtain ⟨b, hb, hr⟩ := ih a ha
      exact ⟨b, List.mem_cons_of_mem _ hb, hr⟩

theorem forall₂_right {R : Bitmap → Bitmap → Prop} (l1 l2 : List Bitmap)
    (h : List.Forall₂ R l1 l2) : ∀ b ∈ l2, ∃ a ∈ l1, R a b := by
  induction h with
  | nil => exact fun b hb => absurd hb (List.not_mem_nil _)
  | cons hab _ ih =>
    intro b hb
    rcases List.mem_cons.1 hb with rfl | hb
    · exact ⟨_, List.mem_cons_self _ _, hab⟩
    · obtain ⟨a, ha, hr⟩ := ih b hb
      exact ⟨a, List.mem_cons_of_mem _ ha, hr⟩

theorem sameSets_seen (L1 L2 : List Bitmap) (h : SameSets L1 L2) (x : Nat) :
    Seen L1 x ↔ Seen L2 x := by
  obtain ⟨L, hp, hf⟩ := h
  constructor
  · rintro ⟨s, hs, hx⟩
    obtain ⟨t, ht, hr⟩ := forall₂_left L L2 hf s (hp.subset hs)
    exact ⟨t, ht, (hr x).1 hx⟩
  · rintro ⟨t, ht, hx⟩
    obtain ⟨s, hs, hr⟩ := forall₂_right L L2 hf t ht
    exact ⟨s, hp.symm.subset hs, (hr x).2 hx⟩

theorem sameSets_sameSig (L1 L2 : List Bitmap) (h : SameSets L1 L2) (x y : Nat) :
    SameSig L1 x y ↔ SameSig L2 x y := by
  obtain ⟨L, hp, hf⟩ := h
  constructor
  · intro hs t ht
    obtain ⟨s, hs', hr⟩ := forall₂_right L L2 hf t ht
    rw [← hr x, ← hr y]
    exact hs s (hp.symm.subset hs')
  · intro ht s hs
    obtain ⟨t, ht', hr⟩ := forall₂_left L L2 hf s (hp.subset hs)
    rw [hr x, hr y]
    exact ht t ht'

theorem sameSets_bounded (L1 L2 : List Bitmap) (h : SameSets L1 L2) (hb : Bounded L1) :
    Bounded L2 := by
  intro t ht i hi
  obtain ⟨L, hp, hf⟩ := h
  obtain ⟨s, hs, hr⟩ := forall₂_right L L2 hf t ht
  exact hb s (hp.symm.subset hs) i ((hr i).2 hi)

theorem bubbles_subfamily (st1 st2 : State) (L1 L2 : List Bitmap)
    (hI1 : Inv st1) (hσ1 : Sig L1 st1) (hI2 : Inv st2) (hσ2 : Sig L2 st2)
    (hseen : ∀ x, Seen L1 x ↔ Seen L2 x) (hsig : ∀ x y, SameSig L1 x y ↔ SameSig L2 x y)
    (b1 : Nat) (hb1 : b1 < st1.bubbles.length) :
    st1.bubbles.getD b1 [] ≠ [] ∧
    ∃ b2, b2 < st2.bubbles.length ∧
      ∀ x, (x ∈ st1.bubbles.getD b1 [] ↔ x ∈ st2.bubbles.getD b2 []) := by
  have hne := hI1.nonempty b1 hb1
  refine ⟨hne, ?_⟩
  obtain ⟨x0, hx0⟩ := List.exists_mem_of_ne_nil _ hne
  have hs1 := hI1.size_le
  have hs2 := hI2.size_le
  have e0 := ((hI1.mem_iff b1 x0).1 hx0).1
  have hseen0 : Seen L1 x0 := (hσ1.seen_iff x0).1 (by omega)
  have hseen0' : Seen L2 x0 := (hseen x0).1 hseen0
  have hlt2 := (hI2.seen_lt x0 ((hσ2.seen_iff x0).2 hseen0')).1
  refine ⟨bubbleOf st2.invbubble x0, hlt2, ?_⟩
  intro x
  constructor
  · intro hx
    have e1 := ((hI1.mem_iff b1 x).1 hx).1
    have hsx : Seen L1 x := (hσ1.seen_iff x).1 (by omega)
    have hsame := (hσ1.same_iff x x0 hsx hseen0).1 (e1.trans e0.symm)
    have := (hσ2.same_iff x x0 ((hseen x).1 hsx) hseen0').2 ((hsig x x0).1 hsame)
    exact (hI2.mem_iff _ x).2 ⟨this, hlt2⟩
  · intro hx
    have e1 := ((hI2.mem_iff _ x).1 hx).1
    have hsx : Seen L2 x := (hσ2.seen_iff x).1 (by omega)
    have hsame := (hσ2.same_iff x x0 hsx hseen0').1 e1
    have := (hσ1.same_iff x x0 ((hseen x).2 hsx) hseen0).2 ((hsig x x0).2 hsame)
    exact (hI1.mem_iff b1 x).2 ⟨this.trans e0, hb1⟩

/-- C7: if two lists of observation sets present the same sets (the second is
a permutation of the first, each set possibly listed in another order), then
for any two iteration orders of the staged groups and of the emptied bubbles,
`compact_rules` run from the empty state produces the same collection of
bubbles viewed as a set of sets: every bubble of one run is non-empty and has
the same elements as a bubble of the other run (only the ids may differ). -/
theorem compact_rules_order_independent (sch1 sch2 : Sched) (L1 L2 : List Bitmap)
    (hL : ∀ s ∈ L1, ∀ i ∈ s, i < NONE) (h : SameSets L1 L2) :
    (∀ b1, b1 < (compact_rules sch1 L1 State.init).bubbles.length →
      (compact_rules sch1 L1 State.init).bubbles.getD b1 [] ≠ [] ∧
      ∃ b2, b2 < (compact_rules sch2 L2 State.init).bubbles.length ∧
        ∀ x, (x ∈ (compact_rules sch1 L1 State.init).bubbles.getD b1 [] ↔
          x ∈ (compact_rules sch2 L2 State.init).bubbles.getD b2 [])) ∧
    (∀ b2, b2 < (compact_rules sch2 L2 State.init).bubbles.length →
      (compact_rules sch2 L2 State.init).bubbles.getD b2 [] ≠ [] ∧
      ∃ b1, b1 < (compact_rules sch1 L1 State.init).bubbles.length ∧
        ∀ x, (x ∈ (compact_rules sch2 L2 State.init).bubbles.getD b2 [] ↔
          x ∈ (compact_rules sch1 L1 State.init).bubbles.getD b1 [])) := by
  have hL2 := sameSets_bounded L1 L2 h hL
  obtain ⟨hI1, hσ1⟩ := compact_rules_spec sch1 L1 hL
  obtain ⟨hI2, hσ2⟩ := compact_rules_spec sch2 L2 hL2
  have hseen := sameSets_seen L1 L2 h
  have hsig := sameSets_sameSig L1 L2 h
  exact ⟨bubbles_subfamily _ _ L1 L2 hI1 hσ1 hI2 hσ2 hseen hsig,
    bubbles_subfamily _ _ L2 L1 hI2 hσ2 hI1 hσ1 (fun x => (hseen x).symm)
      (fun x y => (hsig x y).symm)⟩

/-- Witness for C7: the sets `{0,1,2}`, `{1,2}`, `{2,3}` against the same sets
in another order, each listed backwards, under two different schedules. -/
theorem compact_rules_order_independent_witness :
    (∀ b1, b1 < (compact_rules fifo [[0, 1, 2], [1, 2], [2, 3]] State.init).bubbles.length →
      (compact_rules fifo [[0, 1, 2], [1, 2], [2, 3]] State.init).bubbles.getD b1 [] ≠ [] ∧
      ∃ b2, b2 < (compact_rules lifo [[2, 1], [2, 1, 0], [3, 2]] State.init).bubbles.length ∧
        ∀ x, (x ∈ (compact_rules fifo [[0, 1, 2], [1, 2], [2, 3]] State.init).bubbles.getD b1 []
          ↔ x ∈ (compact_rules lifo [[2, 1], [2, 1, 0], [3, 2]] State.init).bubbles.getD b2 [])) ∧
    (compact_rules fifo [[0, 1, 2], [1, 2], [2, 3]] State.init).bubbles =
      [[0], [1], [2], [3]] ∧
    (compact_rules lifo [[2, 1], [2, 1, 0], [3, 2]] State.init).bubbles =
      [[0], [1], [2], [3]] :=
  ⟨(compact_rules_order_independent fifo lifo [[0, 1, 2], [1, 2], [2, 3]]
      [[2, 1], [2, 1, 0], [3, 2]] (by decide)
      ⟨[[1, 2], [0, 1, 2], [2, 3]], List.Perm.swap _ _ _,
        List.Forall₂.cons (by intro x; simp only [List.mem_cons, List.mem_singleton,
          List.not_mem_nil, or_false]; omega)
        (List.Forall₂.cons (by intro x; simp only [List.mem_cons, List.mem_singleton,
          List.not_mem_nil, or_false]; omega)
        (List.Forall₂.cons (by intro x; simp only [List.mem_cons, List.mem_singleton,
          List.not_mem_nil, or_false]; omega) List.Forall₂.nil))⟩).1,
   by decide, by decide⟩

theorem refine_set_nil (sch : Sched) (k : Nat) (st : State) : refine_set sch k st [] = st := by
  unfold refine_set
  have h : sch.order k [] = [] := List.Perm.eq_nil (sch.order_perm k [])
  simp only [List.foldl_nil, h, place_all]

/-- C12: for every state `(invbubble, bubbles)`, every schedule and every list
that consists only of empty sets (the empty list included), `compact_rules`
returns and leaves `invbubble` and `bubbles` exactly as they were. -/
theorem compact_rules_empty_sets (sch : Sched) (L : List Bitmap) (st : State)
    (hL : ∀ s ∈ L, s = []) : compact_rules sch L st = st := by
  unfold compact_rules
  generalize 0 = k
  induction L generalizing k with
  | nil => rfl
  | cons s rest ih =>
    have hs : s = [] := hL s (List.mem_cons_self _ _)
    subst hs
    unfold compact_rules_from
    rw [refine_set_nil]
    exact ih (fun t ht => hL t (List.mem_cons_of_mem _ ht)) (k + 1)

/-- Witness for C12: three empty sets on a state with two bubbles. -/
theorem compact_rules_empty_sets_witness :
    compact_rules lifo [[], [], []] ⟨[1, NONE, 0], [[2], [0]]⟩ = ⟨[1, NONE, 0], [[2], [0]]⟩ :=
  compact_rules_empty_sets lifo [[], [], []] ⟨[1, NONE, 0], [[2], [0]]⟩ (by decide)

theorem compact_set_out_of_range (inv : List Nat) (s : List Nat) (acc : Bitmap)
    (h : ∃ i ∈ s, inv.length ≤ i) : compact_set inv s acc = none := by
  induction s generalizing acc with
  | nil =>
    obtain ⟨i, hi, _⟩ := h
    exact absurd hi (List.not_mem_nil _)
  | cons j rest ih =>
    unfold compact_set
    by_cases hj : j < inv.length
    · rw [if_pos hj]
      apply ih
      obtain ⟨i, hi, hle⟩ := h
      rcases List.mem_cons.1 hi with rfl | hi
      · omega
      · exact ⟨i, hi, hle⟩
    · rw [if_neg hj]

theorem compact_out_of_range (inv : List Nat) (L : List Bitmap)
    (h : ∃ s ∈ L, ∃ i ∈ s, inv.length ≤ i) : compact inv L = none := by
  induction L with
  | nil =>
    obtain ⟨s, hs, _⟩ := h
    exact absurd hs (List.not_mem_nil _)
  | cons t rest ih =>
    unfold compact
    cases hc : compact_set inv t [] with
    | none => rfl
    | some c =>
      obtain ⟨s, hs, hi⟩ := h
      rcases List.mem_cons.1 hs with rfl | hs
      · rw [compact_set_out_of_range inv s [] hi] at hc
        exact Option.noConfusion hc
      · simp only [ih ⟨s, hs, hi⟩, Option.map_none']

/-- Counterexample to C16 as stated: with `invbubble = [-1, 0]` the element 0
has no bubble, yet `compact` emits a compacted set for `{0, 1}`, and that set
contains the unassigned marker as if it were a bubble id. -/
theorem compact_marker_counterexample :
    compact [NONE, 0] [[0, 1]] = some [[0, NONE]] ∧
    ([NONE, 0] : List Nat).getD 0 NONE = NONE ∧ NONE ∈ ([0, NONE] : List Nat) := by
  decide

/-- C16 (amended): `compact` performs no check. When every element of every
set is below `invbubble.size()`, it succeeds and replaces each set by the set
of the entries `invbubble[i]` of its elements `i`, the unassigned marker
included when an element has no bubble; an element at or beyond
`invbubble.size()` makes it read outside the vector (undefined behaviour). -/
theorem compact_unchecked (inv : List Nat) (L : List Bitmap) :
    ((∀ s ∈ L, ∀ i ∈ s, i < inv.length) →
      ∃ cl, compact inv L = some cl ∧ cl.length = L.length ∧
        ∀ k, k < L.length → ∀ b,
          (b ∈ cl.getD k [] ↔ ∃ i ∈ L.getD k [], inv.getD i NONE = b)) ∧
    ((∃ s ∈ L, ∃ i ∈ s, inv.length ≤ i) → compact inv L = none) := by
  constructor
  · intro h
    obtain ⟨cl, hcl, hall⟩ := compact_spec inv L h
    exact ⟨cl, hcl, hall.length_eq.symm, fun k hk => forall₂_getD L cl hall k hk⟩
  · exact compact_out_of_range inv L

/-- Witness for C16 (amended): the inverse map `[-1, 0]` and the set `{0, 1}`. -/
theorem compact_unchecked_witness :
    ∃ cl, compact [NONE, 0] [[0, 1]] = some cl ∧ cl.length = [[0, 1]].length ∧
      ∀ k, k < [[0, 1]].length → ∀ b,
        (b ∈ cl.getD k [] ↔ ∃ i ∈ [[0, 1]].getD k [], [NONE, 0].getD i NONE = b) :=
  (compact_unchecked [NONE, 0] [[0, 1]]).1 (by decide)

theorem compact_rules_singleton (sch : Sched) (S : Bitmap) (st : State) :
    compact_rules sch [S] st = refine_set sch 0 st S := rfl

theorem refine_set_rest (sch : Sched) (k : Nat) (st : State) (hI : Inv st) (S : List Nat)
    (hS : ∀ i ∈ S, i < NONE) (b : Nat) (hex : ∃ x, x ∈ st.bubbles.getD b [] ∧ x ∉ S) :
    b < (refine_set sch k st S).bubbles.length ∧
    ∀ x, (x ∈ (refine_set sch k st S).bubbles.getD b [] ↔ (x ∈ st.bubbles.getD b [] ∧ x ∉ S)) := by
  have hI' := refine_set_inv sch k st hI S hS
  obtain ⟨em, hP⟩ := refine_set_placed sch k st hI S hS
  obtain ⟨x0, hx0, hx0S⟩ := hex
  obtain ⟨e0, hb⟩ := (hI.mem_iff b x0).1 hx0
  have hlen : b < (refine_set sch k st S).bubbles.length :=
    Nat.lt_of_lt_of_le hb hP.length_ge
  have hu0 : bubbleOf (refine_set sch k st S).invbubble x0 = b :=
    (hP.untouched x0 (Or.inl hx0S)).trans e0
  have hx0' : x0 ∈ (refine_set sch k st S).bubbles.getD b [] :=
    (hI'.mem_iff b x0).2 ⟨hu0, hlen⟩
  refine ⟨hlen, ?_⟩
  intro x
  constructor
  · intro hx
    have hxS : x ∉ S := fun h => hx0S ((hP.pure b x x0 hx hx0').1 h)
    have e1 := ((hI'.mem_iff b x).1 hx).1
    have e2 := hP.untouched x (Or.inl hxS)
    simp only [] at e1 e2
    exact ⟨(hI.mem_iff b x).2 ⟨e2.symm.trans e1, hb⟩, hxS⟩
  · rintro ⟨hx, hxS⟩
    have e1 := ((hI.mem_iff b x).1 hx).1
    exact (hI'.mem_iff b x).2 ⟨(hP.untouched x (Or.inl hxS)).trans e1, hlen⟩

theorem refine_set_inter (sch : Sched) (k : Nat) (st : State) (hI : Inv st) (S : List Nat)
    (hS : ∀ i ∈ S, i < NONE) (b : Nat) (x0 : Nat) (hx0 : x0 ∈ st.bubbles.getD b [])
    (hx0S : x0 ∈ S) :
    bubbleOf (refine_set sch k st S).invbubble x0 < (refine_set sch k st S).bubbles.length ∧
    ∀ x, (x ∈ (refine_set sch k st S).bubbles.getD
        (bubbleOf (refine_set sch k st S).invbubble x0) [] ↔
      (x ∈ st.bubbles.getD b [] ∧ x ∈ S)) := by
  have hI' := refine_set_inv sch k st hI S hS
  obtain ⟨em, hP⟩ := refine_set_placed sch k st hI S hS
  obtain ⟨e0, hb⟩ := (hI.mem_iff b x0).1 hx0
  have hsize := hI.size_le
  have hseen0 : bubbleOf st.invbubble x0 ≠ NONE := by omega
  have hk0 : keyOf st.invbubble st.bubbles.length x0 = b := by
    rw [keyOf_seen _ _ x0 hseen0]
    exact e0
  have hlt := hP.done_lt x0 hx0S (pending_nil x0)
  simp only [] at hlt
  have hx0' := (hI'.mem_iff _ x0).2 ⟨rfl, hlt⟩
  refine ⟨hlt, ?_⟩
  intro x
  constructor
  · intro hx
    have hxS : x ∈ S := (hP.pure _ x x0 hx hx0').2 hx0S
    have e1 := ((hI'.mem_iff _ x).1 hx).1
    have e2 := (hP.done_same x x0 hxS (pending_nil x) hx0S (pending_nil x0)).1 e1
    rw [hk0] at e2
    have hseen : bubbleOf st.invbubble x ≠ NONE := by
      intro hn
      rw [keyOf_unseen _ _ x hn] at e2
      omega
    rw [keyOf_seen _ _ x hseen] at e2
    exact ⟨(hI.mem_iff b x).2 ⟨e2, hb⟩, hxS⟩
  · rintro ⟨hx, hxS⟩
    have e1 := ((hI.mem_iff b x).1 hx).1
    have hseen : bubbleOf st.invbubble x ≠ NONE := by omega
    have hk : keyOf st.invbubble st.bubbles.length x = b := by
      rw [keyOf_seen _ _ x hseen]
      exact e1
    have e2 := (hP.done_same x x0 hxS (pending_nil x) hx0S (pending_nil x0)).2
      (hk.trans hk0.symm)
    exact (hI'.mem_iff _ x).2 ⟨e2, hlt⟩

theorem refine_set_fresh (sch : Sched) (k : Nat) (st : State) (hI : Inv st) (S : List Nat)
    (hS : ∀ i ∈ S, i < NONE) (x0 : Nat) (hx0S : x0 ∈ S)
    (hx0 : bubbleOf st.invbubble x0 = NONE) :
    bubbleOf (refine_set sch k st S).invbubble x0 < (refine_set sch k st S).bubbles.length ∧
    ∀ x, (x ∈ (refine_set sch k st S).bubbles.getD
        (bubbleOf (refine_set sch k st S).invbubble x0) [] ↔
      (x ∈ S ∧ bubbleOf st.invbubble x = NONE)) := by
  have hI' := refine_set_inv sch k st hI S hS
  obtain ⟨em, hP⟩ := refine_set_placed sch k st hI S hS
  have hk0 : keyOf st.invbubble st.bubbles.length x0 = st.bubbles.length :=
    keyOf_unseen _ _ x0 hx0
  have hlt := hP.done_lt x0 hx0S (pending_nil x0)
  simp only [] at hlt
  have hx0' := (hI'.mem_iff _ x0).2 ⟨rfl, hlt⟩
  refine ⟨hlt, ?_⟩
  intro x
  constructor
  · intro hx
    have hxS : x ∈ S := (hP.pure _ x x0 hx hx0').2 hx0S
    have e1 := ((hI'.mem_iff _ x).1 hx).1
    have e2 := (hP.done_same x x0 hxS (pending_nil x) hx0S (pending_nil x0)).1 e1
    rw [hk0] at e2
    refine ⟨hxS, ?_⟩
    by_contra hseen
    rw [keyOf_seen _ _ x hseen] at e2
    have := (hI.seen_lt x hseen).1
    omega
  · rintro ⟨hxS, hx⟩
    have hk : keyOf st.invbubble st.bubbles.length x = st.bubbles.length :=
      keyOf_unseen _ _ x hx
    have e2 := (hP.done_same x x0 hxS (pending_nil x) hx0S (pending_nil x0)).2
      (hk.trans hk0.symm)
    exact (hI'.mem_iff _ x).2 ⟨e2, hlt⟩

/-- C19: for every state that satisfies the partition invariant with no empty
bubble and every observation set `S` (of `size_t` elements other than the
marker), after `compact_rules` has processed the single set `S`: every bubble
is non-empty and is either `B \ S` for an old bubble `B`, or `B ∩ S` for an
old bubble `B`, or the group of all elements of `S` that had no bubble before;
every non-empty `B \ S` is present under the id of `B` (so a bubble disjoint
from `S` keeps its id and its elements), every non-empty `B ∩ S` is present,
and the group of the new elements is present when there is one. -/
theorem refine_one_step (sch : Sched) (st : State) (hI : Inv st) (S : Bitmap)
    (hS : ∀ i ∈ S, i < NONE) :
    (∀ b', b' < (compact_rules sch [S] st).bubbles.length →
      (compact_rules sch [S] st).bubbles.getD b' [] ≠ [] ∧
      ((∃ b, b < st.bubbles.length ∧ ∀ x, (x ∈ (compact_rules sch [S] st).bubbles.getD b' [] ↔
          (x ∈ st.bubbles.getD b [] ∧ x ∉ S))) ∨
       (∃ b, b < st.bubbles.length ∧ ∀ x, (x ∈ (compact_rules sch [S] st).bubbles.getD b' [] ↔
          (x ∈ st.bubbles.getD b [] ∧ x ∈ S))) ∨
       (∀ x, (x ∈ (compact_rules sch [S] st).bubbles.getD b' [] ↔
          (x ∈ S ∧ st.invbubble.getD x NONE = NONE))))) ∧
    (∀ b, b < st.bubbles.length → (∃ x, x ∈ st.bubbles.getD b [] ∧ x ∉ S) →
      b < (compact_rules sch [S] st).bubbles.length ∧
      ∀ x, (x ∈ (compact_rules sch [S] st).bubbles.getD b [] ↔
        (x ∈ st.bubbles.getD b [] ∧ x ∉ S))) ∧
    (∀ b, b < st.bubbles.length → (∃ x, x ∈ st.bubbles.getD b [] ∧ x ∈ S) →
      ∃ b', b' < (compact_rules sch [S] st).bubbles.length ∧
        ∀ x, (x ∈ (compact_rules sch [S] st).bubbles.getD b' [] ↔
          (x ∈ st.bubbles.getD b [] ∧ x ∈ S))) ∧
    ((∃ x, x ∈ S ∧ st.invbubble.getD x NONE = NONE) →
      ∃ b', b' < (compact_rules sch [S] st).bubbles.length ∧
        ∀ x, (x ∈ (compact_rules sch [S] st).bubbles.getD b' [] ↔
          (x ∈ S ∧ st.invbubble.getD x NONE = NONE))) := by
  rw [compact_rules_singleton]
  have hI' := refine_set_inv sch 0 st hI S hS
  obtain ⟨em, hP⟩ := refine_set_placed sch 0 st hI S hS
  refine ⟨?_, ?_, ?_, ?_⟩
  · intro b' hb'
    have hne := hI'.nonempty b' hb'
    refine ⟨hne, ?_⟩
    obtain ⟨x0, hx0⟩ := List.exists_mem_of_ne_nil _ hne
    obtain ⟨e0, _⟩ := (hI'.mem_iff b' x0).1 hx0
    by_cases hx0S : x0 ∈ S
    · by_cases hseen : bubbleOf st.invbubble x0 = NONE
      · right; right
        have := (refine_set_fresh sch 0 st hI S hS x0 hx0S hseen).2
        rw [e0] at this
        exact this
      · right; left
        have hlt := (hI.seen_lt x0 hseen).1
        have hmem := (hI.mem_iff _ x0).2 ⟨rfl, hlt⟩
        have := (refine_set_inter sch 0 st hI S hS _ x0 hmem hx0S).2
        rw [e0] at this
        exact ⟨_, hlt, this⟩
    · left
      have hu := hP.untouched x0 (Or.inl hx0S)
      simp only [] at hu
      have hsize := hI'.size_le
      have hseen : bubbleOf st.invbubble x0 ≠ NONE := by
        rw [← hu, e0]
        omega
      have hlt := (hI.seen_lt x0 hseen).1
      have hb : bubbleOf st.invbubble x0 = b' := hu.symm.trans e0
      rw [hb] at hlt
      have hmem := (hI.mem_iff b' x0).2 ⟨hb, hlt⟩
      exact ⟨b', hlt, (refine_set_rest sch 0 st hI S hS b' ⟨x0, hmem, hx0S⟩).2⟩
  · intro b _ hex
    exact refine_set_rest sch 0 st hI S hS b hex
  · rintro b _ ⟨x0, hx0, hx0S⟩
    exact ⟨_, refine_set_inter sch 0 st hI S hS b x0 hx0 hx0S⟩
  · rintro ⟨x0, hx0S, hx0⟩
    exact ⟨_, refine_set_fresh sch 0 st hI S hS x0 hx0S hx0⟩

theorem signature_eq_iff (L : List Bitmap) (x y : Nat) :
    signature L x = signature L y ↔ SameSig L x y := by
  unfold signature SameSig
  rw [List.map_inj_left]
  constructor
  · intro h s hs
    have := h s hs
    simpa using this
  · intro h s hs
    have := h s hs
    simpa using this

theorem seen_iff_mem_flatten (L : List Bitmap) (x : Nat) : Seen L x ↔ x ∈ L.flatten := by
  unfold Seen
  rw [List.mem_flatten]

/-- In a state that describes the signature classes of `L`, the bubbles are in
one-to-one correspondence with the membership signatures of the seen elements. -/
theorem length_eq_numSignatures (L : List Bitmap) (st : State) (hI : Inv st) (hσ : Sig L st) :
    st.bubbles.length = numSignatures L := by
  have hsize := hI.size_le
  have hhead : ∀ b, b < st.bubbles.length →
      bubbleOf st.invbubble ((st.bubbles.getD b []).headD 0) = b ∧
      Seen L ((st.bubbles.getD b []).headD 0) := by
    intro b hb
    have hm := headD_mem _ (hI.nonempty b hb)
    have e := ((hI.mem_iff b _).1 hm).1
    refine ⟨e, (hσ.seen_iff _).1 ?_⟩
    omega
  have hnd : ((List.range st.bubbles.length).map
      (fun b => signature L ((st.bubbles.getD b []).headD 0))).Nodup := by
    refine List.Nodup.map_on ?_ (List.nodup_range _)
    intro b hb b' hb' e
    obtain ⟨e1, s1⟩ := hhead b (List.mem_range.1 hb)
    obtain ⟨e2, s2⟩ := hhead b' (List.mem_range.1 hb')
    have := (hσ.same_iff _ _ s1 s2).2 ((signature_eq_iff L _ _).1 e)
    rw [e1, e2] at this
    exact this
  have hperm : ((List.range st.bubbles.length).map
      (fun b => signature L ((st.bubbles.getD b []).headD 0))).Perm
      ((L.flatten.map (signature L)).dedup) := by
    rw [List.perm_ext_iff_of_nodup hnd (List.nodup_dedup _)]
    intro σ
    rw [List.mem_dedup, List.mem_map, List.mem_map]
    constructor
    · rintro ⟨b, hb, rfl⟩
      obtain ⟨_, s1⟩ := hhead b (List.mem_range.1 hb)
      exact ⟨_, (seen_iff_mem_flatten L _).1 s1, rfl⟩
    · rintro ⟨x, hx, rfl⟩
      have sx := (seen_iff_mem_flatten L x).2 hx
      have hne := (hσ.seen_iff x).2 sx
      have hlt := (hI.seen_lt x hne).1
      obtain ⟨e1, s1⟩ := hhead _ hlt
      refine ⟨bubbleOf st.invbubble x, List.mem_range.2 hlt, ?_⟩
      exact (signature_eq_iff L _ _).2 ((hσ.same_iff _ _ s1 sx).1 e1)
  have := hperm.length_eq
  simpa [numSignatures] using this

/-- C20: starting from empty `invbubble` and `bubbles`, after `compact_rules`
has processed a list of observation sets (of `size_t` elements other than the
marker), every entry of `bubbles` is a non-empty set and `bubbles.size()` is
the number of distinct membership signatures among the elements seen; and
whenever a further set is staged from such a state, the staged groups are at
least as many as the emptied bubbles, so every emptied bubble is reused. -/
theorem compact_rules_no_empty_bubble (sch : Sched) (L : List Bitmap)
    (hL : ∀ s ∈ L, ∀ i ∈ s, i < NONE) :
    (∀ b, b < (compact_rules sch L State.init).bubbles.length →
      (compact_rules sch L State.init).bubbles.getD b [] ≠ []) ∧
    (compact_rules sch L State.init).bubbles.length = numSignatures L ∧
    (∀ S : Bitmap,
      (S.foldl (stage_item (compact_rules sch L State.init).invbubble)
          ⟨(compact_rules sch L State.init).bubbles, [], []⟩).empty_bubbles_list.length ≤
        (S.foldl (stage_item (compact_rules sch L State.init).invbubble)
          ⟨(compact_rules sch L State.init).bubbles, [], []⟩).new_spaces.length) := by
  obtain ⟨hI, hσ⟩ := compact_rules_spec sch L hL
  refine ⟨hI.nonempty, length_eq_numSignatures L _ hI hσ, ?_⟩
  intro S
  have hst := staged_all _ _ hI S
  have hsub : (S.foldl (stage_item (compact_rules sch L State.init).invbubble)
      ⟨(compact_rules sch L State.init).bubbles, [], []⟩).empty_bubbles_list ⊆
      (S.foldl (stage_item (compact_rules sch L State.init).invbubble)
        ⟨(compact_rules sch L State.init).bubbles, [], []⟩).new_spaces.map Prod.fst :=
    fun b hb => (hst.empty_spec b hb).2.2
  have := (List.subperm_of_subset hst.empty_nodup hsub).length_le
  simpa using this

/-- Witness for C20: the sets `{0,1,2}`, `{1,2}`, `{2,3}` give four bubbles for
four signatures; the sets `{0,1,2}`, `{1,2}`, `{0,1,2}` give two. -/
theorem compact_rules_no_empty_bubble_witness :
    ((compact_rules fifo [[0, 1, 2], [1, 2], [2, 3]] State.init).bubbles.length =
      numSignatures [[0, 1, 2], [1, 2], [2, 3]]) ∧
    numSignatures [[0, 1, 2], [1, 2], [2, 3]] = 4 ∧
    ((compact_rules lifo [[0, 1, 2], [1, 2], [0, 2, 1]] State.init).bubbles.length =
      numSignatures [[0, 1, 2], [1, 2], [0, 2, 1]]) ∧
    (compact_rules lifo [[0, 1, 2], [1, 2], [0, 2, 1]] State.init).bubbles = [[0], [1, 2]] :=
  ⟨(compact_rules_no_empty_bubble fifo [[0, 1, 2], [1, 2], [2, 3]] (by decide)).2.1,
   by decide,
   (compact_rules_no_empty_bubble lifo [[0, 1, 2], [1, 2], [0, 2, 1]] (by decide)).2.1,
   by decide⟩

/-- Witness for C19: the state with the bubbles `{0,1,2}` and `{3}` and the set
`{1,2,4}`: the remainder `{0}` keeps the id 0, and the bubbles afterwards are
`{0}`, `{3}`, `{1,2}`, `{4}`. -/
theorem refine_one_step_witness :
    (0 < (compact_rules fifo [[1, 2, 4]]
        (compact_rules fifo [[0, 1, 2], [3]] State.init)).bubbles.length ∧
      ∀ x, (x ∈ (compact_rules fifo [[1, 2, 4]]
          (compact_rules fifo [[0, 1, 2], [3]] State.init)).bubbles.getD 0 [] ↔
        (x ∈ (compact_rules fifo [[0, 1, 2], [3]] State.init).bubbles.getD 0 [] ∧
          x ∉ [1, 2, 4]))) ∧
    (compact_rules fifo [[0, 1, 2], [3]] State.init).bubbles = [[0, 1, 2], [3]] ∧
    (compact_rules fifo [[1, 2, 4]] (compact_rules fifo [[0, 1, 2], [3]] State.init)).bubbles =
      [[0], [3], [1, 2], [4]] :=
  ⟨(refine_one_step fifo (compact_rules fifo [[0, 1, 2], [3]] State.init)
      (compact_rules_spec fifo [[0, 1, 2], [3]] (by unfold Bounded; decide)).1 [1, 2, 4]
      (by decide)).2.1 0
      (by decide) ⟨0, by decide, by decide⟩,
   by decide, by decide⟩

end splitbubble
